import Mathlib

/-!
# YdFunc

A shallow embedding of `src/YdFunc`: the storage wrapper (`LMDBClient.cpp`,
`LMDBClient.h`), the configuration file reader (`IniReader.h`), the thread
body of `ProtobufHttpClient::async_post` (`protobuf_http_client.hpp`) and entry
points of the plugin (`YdFunc.cpp`).

The storage engine (LMDB, `lmdb.h`) is an external library.  It is modelled at
its documented interface: one table that maps non-empty byte-string keys to
byte-string values, kept in ascending `memcmp` order, with snapshot
transactions and positional cursors.  Every engine call made inside a
transaction may additionally be forced to fail through an explicit fault
schedule (`EngineFaults`), which stands for the failures the engine reports on
its own account (map full, out of memory, reader table full, ...).  A forced
failure makes that one call return an error code and leaves the transaction's
view alone; statements about what an operation computes are made for an engine
that is not forced to fail (`noFaults`).

`Initialize` takes what it finds outside the process as parameters: the table
kept in the data file under the path (`disk`, `none` when there is no data
file yet) and the behaviour of its collaborators (`OpenFaults`), among them
whether `std::filesystem::create_directories` throws.

The wrapper's `std::shared_mutex` is not modelled: every operation is taken as
one sequential step.

The reader is given the lines of the file.  The entry points are given what
the functions around them do in the call at hand (`World`): the functions that
read `config.ini`, `GetLogger`, and the HTTP client each return or throw.
-/

namespace YdFunc

/-! ## Byte strings -/

/-- One `unsigned char` of a `std::string` / `MDB_val` buffer. -/
abbrev Byte := Fin 256

/-- The contents of a `std::string` or of an `MDB_val`. -/
abbrev Bytes := List Byte

/-- The engine's default key comparator (`mdb_cmp_memn`): `memcmp` over the
common length, the shorter string first on a tie.  `keyLt a b` is `a < b`. -/
def keyLt : Bytes → Bytes → Bool
  | _, [] => false
  | [], _ :: _ => true
  | a :: as, b :: bs => decide (a < b) || (decide (a = b) && keyLt as bs)

/-- The test `key.substr(0, pfx.size()) == pfx` of `GetKeys` and `DeleteKeys`. -/
def startsWith (key pfx : Bytes) : Bool :=
  decide (key.take pfx.length = pfx)

/-! ## Engine return codes and limits (`lmdb.h`, `mdb.c`) -/

def MDB_SUCCESS : Int := 0
def MDB_NOTFOUND : Int := -30798
def MDB_BAD_VALSIZE : Int := -30781
def ENOMEM : Int := 12
def EACCES : Int := 13
def EINVAL : Int := 22

/-- Handle of the unnamed main table, what `mdb_dbi_open(txn, nullptr, 0, _)` yields. -/
def MAIN_DBI : Nat := 1

/-- Largest key the engine accepts (`mdb_env_get_maxkeysize`, default build). -/
def MDB_MAXKEYSIZE : Nat := 511

/-- Largest value the engine accepts (`MAXDATASIZE`). -/
def MAXDATASIZE : Nat := 0xffffffff

/-! ## The table -/

/-- The entries of the table, in ascending key order without repeated keys. -/
abbrev Store := List (Bytes × Bytes)

/-- Value stored under `k`, if any. -/
def Store.get : Store → Bytes → Option Bytes
  | [], _ => none
  | (k', v') :: rest, k => if k' = k then some v' else Store.get rest k

/-- Insert or overwrite `k`, keeping the key order. -/
def Store.put : Store → Bytes → Bytes → Store
  | [], k, v => [(k, v)]
  | (k', v') :: rest, k, v =>
    if keyLt k' k then (k', v') :: Store.put rest k v
    else if k' = k then (k, v) :: rest
    else (k, v) :: (k', v') :: rest

/-- Remove the entry of `k`. -/
def Store.del : Store → Bytes → Store
  | [], _ => []
  | (k', v') :: rest, k => if k' = k then rest else (k', v') :: Store.del rest k

/-- Index of the first entry whose key is `>= k` (the table length when there is none). -/
def Store.lowerBound : Store → Bytes → Nat
  | [], _ => 0
  | (k', _) :: rest, k => if keyLt k' k then Store.lowerBound rest k + 1 else 0

/-- The keys of the table, in table order. -/
def Store.keys (s : Store) : List Bytes := s.map Prod.fst

/-- Ascending key order without repeated keys. -/
def Store.Sorted (s : Store) : Prop :=
  List.Pairwise (fun a b => keyLt a.1 b.1 = true) s

/-! ## Transactions -/

/-- Failures forced on the engine during one wrapper call: at `mdb_txn_begin`,
at the successive engine calls made inside the transaction (`true` = that call
fails; calls beyond the list run normally), and at `mdb_txn_commit`. -/
structure EngineFaults where
  txn_begin : Bool
  ops : List Bool
  txn_commit : Bool

/-- The engine behaving as documented, nothing forced to fail. -/
def noFaults : EngineFaults := ⟨false, [], false⟩

/-- An open transaction: its private view of the table, whether it was begun
with `MDB_RDONLY`, and the forced failures still ahead. -/
structure MDB_txn where
  data : Store
  rdonly : Bool
  faults : List Bool

/-- An open environment: the committed table, whether it was opened with
`MDB_RDONLY`, and how many times `mdb_txn_begin` has been called on it. -/
structure MDB_env where
  data : Store
  rdonly : Bool
  txns : Nat

/-- Whether the next engine call of the transaction is forced to fail. -/
def MDB_txn.fault (txn : MDB_txn) : Bool := txn.faults.headD false

/-- The transaction once an engine call has used up its fault flag. -/
def MDB_txn.next (txn : MDB_txn) : MDB_txn := { txn with faults := txn.faults.tail }

/-- Result of `mdb_txn_begin`; `txn` is meaningful only when `rc = MDB_SUCCESS`. -/
structure TxnBegin where
  rc : Int
  txn : MDB_txn
  env : MDB_env

/-- Model of `mdb_txn_begin(env, nullptr, flags, &txn)`; `rdonly` is the `MDB_RDONLY` flag. -/
def mdb_txn_begin (env : MDB_env) (rdonly : Bool) (fl : EngineFaults) : TxnBegin :=
  let env1 : MDB_env := { env with txns := env.txns + 1 }
  if fl.txn_begin then ⟨ENOMEM, ⟨[], rdonly, []⟩, env1⟩
  else if env.rdonly && !rdonly then ⟨EACCES, ⟨[], rdonly, []⟩, env1⟩
  else ⟨MDB_SUCCESS, ⟨env.data, rdonly, fl.ops⟩, env1⟩

/-- Model of `mdb_txn_commit(txn)`: the transaction's view becomes the committed
table; a failed commit discards the transaction.  (The wrapper commits write
transactions only; a read-only view equals the committed table anyway.) -/
def mdb_txn_commit (env : MDB_env) (txn : MDB_txn) (fl : EngineFaults) : Int × MDB_env :=
  if fl.txn_commit then (ENOMEM, env)
  else (MDB_SUCCESS, { env with data := txn.data })

/-- Model of `mdb_txn_abort(txn)`: the transaction's view is discarded. -/
def mdb_txn_abort (env : MDB_env) (_txn : MDB_txn) : MDB_env := env

/-! ## Point operations of the engine -/

/-- Result of `mdb_get`; `data` is meaningful only when `rc = MDB_SUCCESS`. -/
structure GetResult where
  rc : Int
  data : Bytes
  txn : MDB_txn

/-- Model of `mdb_get(txn, dbi, &key, &data)`. -/
def mdb_get (txn : MDB_txn) (dbi : Nat) (key : Bytes) : GetResult :=
  if txn.fault then ⟨ENOMEM, [], txn.next⟩
  else if dbi ≠ MAIN_DBI then ⟨EINVAL, [], txn.next⟩
  else if key.length = 0 then ⟨MDB_BAD_VALSIZE, [], txn.next⟩
  else
    match txn.data.get key with
    | some v => ⟨MDB_SUCCESS, v, txn.next⟩
    | none => ⟨MDB_NOTFOUND, [], txn.next⟩

/-- Model of `mdb_put(txn, dbi, &key, &data, 0)`. -/
def mdb_put (txn : MDB_txn) (dbi : Nat) (key data : Bytes) : Int × MDB_txn :=
  if txn.fault then (ENOMEM, txn.next)
  else if dbi ≠ MAIN_DBI then (EINVAL, txn.next)
  else if txn.rdonly then (EACCES, txn.next)
  else if key.length = 0 ∨ key.length > MDB_MAXKEYSIZE then (MDB_BAD_VALSIZE, txn.next)
  else if data.length > MAXDATASIZE then (MDB_BAD_VALSIZE, txn.next)
  else (MDB_SUCCESS, { txn.next with data := txn.data.put key data })

/-- Model of `mdb_del(txn, dbi, &key, nullptr)`. -/
def mdb_del (txn : MDB_txn) (dbi : Nat) (key : Bytes) : Int × MDB_txn :=
  if txn.fault then (ENOMEM, txn.next)
  else if dbi ≠ MAIN_DBI then (EINVAL, txn.next)
  else if txn.rdonly then (EACCES, txn.next)
  else if key.length = 0 then (MDB_BAD_VALSIZE, txn.next)
  else
    match txn.data.get key with
    | some _ => (MDB_SUCCESS, { txn.next with data := txn.data.del key })
    | none => (MDB_NOTFOUND, txn.next)

/-- Model of `mdb_drop(txn, dbi, 0)`: empty the table, keep the handle. -/
def mdb_drop (txn : MDB_txn) (dbi : Nat) : Int × MDB_txn :=
  if txn.fault then (ENOMEM, txn.next)
  else if dbi ≠ MAIN_DBI then (EINVAL, txn.next)
  else if txn.rdonly then (EACCES, txn.next)
  else (MDB_SUCCESS, { txn.next with data := [] })

/-! ## Cursors -/

/-- The cursor operations the wrapper uses. -/
inductive MDB_cursor_op where
  | MDB_FIRST
  | MDB_GET_CURRENT
  | MDB_NEXT
  | MDB_SET_RANGE

/-- A cursor of a transaction: the index of the entry it stands on, `none`
while it is not positioned.  An index equal to the table length is the position
past the last entry. -/
structure MDB_cursor where
  pos : Option Nat

/-- Result of `mdb_cursor_open`. -/
structure CursorOpen where
  rc : Int
  cursor : MDB_cursor
  txn : MDB_txn

/-- Model of `mdb_cursor_open(txn, dbi, &cursor)`. -/
def mdb_cursor_open (txn : MDB_txn) (dbi : Nat) : CursorOpen :=
  if txn.fault then ⟨ENOMEM, ⟨none⟩, txn.next⟩
  else if dbi ≠ MAIN_DBI then ⟨EINVAL, ⟨none⟩, txn.next⟩
  else ⟨MDB_SUCCESS, ⟨none⟩, txn.next⟩

/-- Result of `mdb_cursor_get`; `key` is the key argument after the call (the
entry's key on success, the caller's value otherwise).  The data argument is
never read by the wrapper and is left out. -/
structure CursorGet where
  rc : Int
  key : Bytes
  cursor : MDB_cursor
  txn : MDB_txn

/-- Put the cursor on entry `i` of the table, if there is one. -/
def cursorAt (data : Store) (cur : MDB_cursor) (key : Bytes) (i : Nat) :
    Int × Bytes × MDB_cursor :=
  match data.get? i with
  | some e => (MDB_SUCCESS, e.1, ⟨some i⟩)
  | none => (MDB_NOTFOUND, key, cur)

/-- Where each cursor operation moves the cursor over the table `data`. -/
def cursorSeek (data : Store) (cur : MDB_cursor) (key : Bytes) :
    MDB_cursor_op → Int × Bytes × MDB_cursor
  | .MDB_FIRST => cursorAt data cur key 0
  | .MDB_SET_RANGE =>
    if key.length = 0 then (MDB_BAD_VALSIZE, key, cur)
    else cursorAt data ⟨none⟩ key (data.lowerBound key)
  | .MDB_GET_CURRENT =>
    match cur.pos with
    | none => (EINVAL, key, cur)
    | some i => cursorAt data cur key i
  | .MDB_NEXT =>
    match cur.pos with
    | none => cursorAt data cur key 0
    | some i => cursorAt data cur key (i + 1)

/-- Model of `mdb_cursor_get(cursor, &key, &data, op)`. -/
def mdb_cursor_get (txn : MDB_txn) (cur : MDB_cursor) (key : Bytes) (op : MDB_cursor_op) :
    CursorGet :=
  if txn.fault then ⟨ENOMEM, key, cur, txn.next⟩
  else
    let r := cursorSeek txn.data cur key op
    ⟨r.1, r.2.1, r.2.2, txn.next⟩

/-- Result of `mdb_cursor_del`. -/
structure CursorDel where
  rc : Int
  cursor : MDB_cursor
  txn : MDB_txn

/-- Model of `mdb_cursor_del(cursor, 0)`: the entry under the cursor is removed
and the cursor then stands on the entry that followed it. -/
def mdb_cursor_del (txn : MDB_txn) (cur : MDB_cursor) : CursorDel :=
  if txn.fault then ⟨ENOMEM, cur, txn.next⟩
  else if txn.rdonly then ⟨EACCES, cur, txn.next⟩
  else
    match cur.pos with
    | none => ⟨EINVAL, cur, txn.next⟩
    | some i =>
      if i < txn.data.length then
        ⟨MDB_SUCCESS, cur, { txn.next with data := txn.data.eraseIdx i }⟩
      else ⟨MDB_NOTFOUND, cur, txn.next⟩

/-! ## Codec -/

/-- Truncation to `unsigned char`. -/
def toByte (n : Nat) : Byte := ⟨n % 256, Nat.mod_lt n (by decide)⟩

/-- Wrap an integer into the range of a 32-bit two's complement `int`. -/
def wrapInt32 (x : Int) : Int := (x + 2147483648) % 4294967296 - 2147483648

/-- The four bytes `memcpy(buf, &value, sizeof(int))` produces (little-endian target). -/
def memcpyFromInt (value : Int) : Bytes :=
  let u := (value % 4294967296).toNat
  [toByte u, toByte (u / 256), toByte (u / 65536), toByte (u / 16777216)]

/-- The `int` that `memcpy(&val, data, sizeof(int))` reads from the first four bytes. -/
def memcpyToInt (data : Bytes) : Int :=
  wrapInt32 ((data.getD 0 0).val + 256 * (data.getD 1 0).val
    + 65536 * (data.getD 2 0).val + 16777216 * (data.getD 3 0).val)

/-- Static function `LMDBClient::IntToBytes`. -/
def IntToBytes (value : Int) : Bytes := memcpyFromInt value

/-- Static function `LMDBClient::BytesToInt`. -/
def BytesToInt (bytes : Bytes) : Int :=
  if bytes.length ≠ 4 then 0 else memcpyToInt bytes

/-- Static function `LMDBClient::DoubleToBytes`.  A `double` is represented by its 64-bit
IEEE-754 pattern, which `memcpy` copies byte for byte. -/
def DoubleToBytes (value : Nat) : Bytes :=
  (List.range 8).map (fun i => toByte (value / 256 ^ i))

/-- The `double` pattern that `memcpy(value, data, sizeof(double))` reads from
the first eight bytes. -/
def memcpyToDouble (data : Bytes) : Nat :=
  ((List.range 8).map (fun i => (data.getD i 0).val * 256 ^ i)).sum

/-! ## The wrapper: state and transaction executors -/

/-- Constant `LMDBClient::MAX_BIT_INDEX`. -/
def MAX_BIT_INDEX : Int := 255

/-- The data members of `LMDBClient` (`env_` is `none` for `nullptr`). -/
structure LMDBClient where
  env_ : Option MDB_env
  dbi_ : Nat
  initialized_ : Bool
  read_only_ : Bool

/-- How a unit of work handed to an executor ends: it returns its flag, or it
throws.  `out` is the state of what the lambda captured by reference. -/
inductive Work (α : Type) where
  | returned (success : Bool) (txn : MDB_txn) (out : α)
  | threw (out : α)

/-- What a wrapper call leaves behind: its return value, the object afterwards
and the state of its output argument. -/
structure Ret (α : Type) where
  result : Bool
  self : LMDBClient
  out : α

/-- The committed table behind the handle (empty when no environment is open). -/
def LMDBClient.contents (c : LMDBClient) : Store :=
  match c.env_ with
  | some env => env.data
  | none => []

/-- Method `LMDBClient::ExecuteReadTransaction`.  With `initialized_` set and `env_`
null the C++ would dereference a null pointer; the handle never reaches that
state and the model reports failure there. -/
def LMDBClient.ExecuteReadTransaction {α : Type} (c : LMDBClient) (fl : EngineFaults)
    (out : α) (func : MDB_txn → Work α) : Ret α :=
  if !c.initialized_ then ⟨false, c, out⟩
  else
    match c.env_ with
    | none => ⟨false, c, out⟩
    | some env =>
      let b := mdb_txn_begin env true fl
      if b.rc ≠ MDB_SUCCESS then ⟨false, { c with env_ := some b.env }, out⟩
      else
        match func b.txn with
        | .returned success txn o =>
          ⟨success, { c with env_ := some (mdb_txn_abort b.env txn) }, o⟩
        | .threw o => ⟨false, { c with env_ := some (mdb_txn_abort b.env b.txn) }, o⟩

/-- Method `LMDBClient::ExecuteWriteTransaction`. -/
def LMDBClient.ExecuteWriteTransaction {α : Type} (c : LMDBClient) (fl : EngineFaults)
    (out : α) (func : MDB_txn → Work α) : Ret α :=
  if c.read_only_ then ⟨false, c, out⟩
  else if !c.initialized_ then ⟨false, c, out⟩
  else
    match c.env_ with
    | none => ⟨false, c, out⟩
    | some env =>
      let b := mdb_txn_begin env false fl
      if b.rc ≠ MDB_SUCCESS then ⟨false, { c with env_ := some b.env }, out⟩
      else
        match func b.txn with
        | .returned success txn o =>
          if success then
            let r := mdb_txn_commit b.env txn fl
            ⟨decide (r.1 = MDB_SUCCESS), { c with env_ := some r.2 }, o⟩
          else ⟨false, { c with env_ := some (mdb_txn_abort b.env txn) }, o⟩
        | .threw o => ⟨false, { c with env_ := some (mdb_txn_abort b.env b.txn) }, o⟩

/-! ## Basic operations -/

/-- Method `LMDBClient::Put`. -/
def LMDBClient.Put (c : LMDBClient) (fl : EngineFaults) (key value : Bytes) : Ret Unit :=
  c.ExecuteWriteTransaction fl () (fun txn =>
    let p := mdb_put txn c.dbi_ key value
    .returned (decide (p.1 = MDB_SUCCESS)) p.2 ())

/-- Method `LMDBClient::PutDouble`. -/
def LMDBClient.PutDouble (c : LMDBClient) (fl : EngineFaults) (key : Bytes) (value : Nat) :
    Ret Unit :=
  c.Put fl key (DoubleToBytes value)

/-- Method `LMDBClient::Get`.  `value` is the output pointer: `none` for `nullptr`,
`some s` for a string that currently holds `s`. -/
def LMDBClient.Get (c : LMDBClient) (fl : EngineFaults) (key : Bytes) (value : Option Bytes) :
    Ret (Option Bytes) :=
  c.ExecuteReadTransaction fl value (fun txn =>
    let g := mdb_get txn c.dbi_ key
    if g.rc = MDB_SUCCESS then .returned true g.txn (value.map (fun _ => g.data))
    else .returned false g.txn value)

/-- Method `LMDBClient::GetDouble`. -/
def LMDBClient.GetDouble (c : LMDBClient) (fl : EngineFaults) (key : Bytes) (value : Option Nat) :
    Ret (Option Nat) :=
  c.ExecuteReadTransaction fl value (fun txn =>
    let g := mdb_get txn c.dbi_ key
    if g.rc = MDB_SUCCESS ∧ g.data.length = 8 then
      .returned true g.txn (value.map (fun _ => memcpyToDouble g.data))
    else .returned false g.txn value)

/-- Method `LMDBClient::GetInt`. -/
def LMDBClient.GetInt (c : LMDBClient) (fl : EngineFaults) (key : Bytes) (value : Option Int) :
    Ret (Option Int) :=
  c.ExecuteReadTransaction fl value (fun txn =>
    let g := mdb_get txn c.dbi_ key
    if g.rc = MDB_SUCCESS ∧ g.data.length = 4 then
      .returned true g.txn (value.map (fun _ => memcpyToInt g.data))
    else .returned false g.txn value)

/-- Method `LMDBClient::Exists`. -/
def LMDBClient.Exists (c : LMDBClient) (fl : EngineFaults) (key : Bytes) : Ret Unit :=
  c.ExecuteReadTransaction fl () (fun txn =>
    let g := mdb_get txn c.dbi_ key
    .returned (decide (g.rc = MDB_SUCCESS)) g.txn ())

/-- Method `LMDBClient::Delete`. -/
def LMDBClient.Delete (c : LMDBClient) (fl : EngineFaults) (key : Bytes) : Ret Unit :=
  c.ExecuteWriteTransaction fl () (fun txn =>
    let d := mdb_del txn c.dbi_ key
    .returned (decide (d.1 = MDB_SUCCESS)) d.2 ())

/-! ## Bitmap values -/

/-- Bit `k` of a byte as `GetStringBit` reads it: `(data[byte_offset] >> k) & 1`. -/
def readBit (b : Byte) (k : Nat) : Bool :=
  decide ((b.val >>> k) &&& 1 ≠ 0)

/-- The updates `target |= (1 << k)` and `target &= ~(1 << k)` of an `unsigned char`: the
operands are promoted to 32-bit `int`, the result is truncated back. -/
def writeBit (target : Byte) (k : Nat) (set : Bool) : Byte :=
  if set then toByte (target.val ||| (1 <<< k))
  else toByte (target.val &&& (0xFFFFFFFF ^^^ (1 <<< k)))

/-- The call `current_data.resize(n, 0)` for a string no longer than `n`. -/
def resizeZero (s : Bytes) (n : Nat) : Bytes :=
  s ++ List.replicate (n - s.length) 0

/-- The value `AtomicSetStringBit` writes back for a current value `current_data`
(empty when the key is absent): lines 281-288 of `LMDBClient.cpp`. -/
def setStringBit (current_data : Bytes) (bit_index : Int) (set : Bool) : Bytes :=
  let byte_offset := (bit_index / 8).toNat
  let grown :=
    if current_data.length ≤ byte_offset then resizeZero current_data (byte_offset + 1)
    else current_data
  grown.set byte_offset (writeBit (grown.getD byte_offset 0) (bit_index % 8).toNat set)

/-- Method `LMDBClient::GetStringBit`. -/
def LMDBClient.GetStringBit (c : LMDBClient) (fl : EngineFaults) (key : Bytes)
    (bit_index : Int) (bit_value : Option Bool) : Ret (Option Bool) :=
  if bit_index < 0 ∨ bit_index > MAX_BIT_INDEX then ⟨false, c, bit_value⟩
  else
    c.ExecuteReadTransaction fl bit_value (fun txn =>
      let g := mdb_get txn c.dbi_ key
      if g.rc = MDB_NOTFOUND then .returned false g.txn bit_value
      else if g.rc ≠ MDB_SUCCESS then .returned false g.txn bit_value
      else
        let byte_offset := (bit_index / 8).toNat
        if g.data.length ≤ byte_offset then
          .returned true g.txn (bit_value.map (fun _ => false))
        else
          .returned true g.txn
            (bit_value.map (fun _ => readBit (g.data.getD byte_offset 0) (bit_index % 8).toNat)))

/-- Method `LMDBClient::AtomicSetStringBit`. -/
def LMDBClient.AtomicSetStringBit (c : LMDBClient) (fl : EngineFaults) (key : Bytes)
    (bit_index : Int) (set : Bool) : Ret Unit :=
  if bit_index < 0 ∨ bit_index > MAX_BIT_INDEX then ⟨false, c, ()⟩
  else
    c.ExecuteWriteTransaction fl () (fun txn =>
      let g := mdb_get txn c.dbi_ key
      if g.rc ≠ MDB_SUCCESS ∧ g.rc ≠ MDB_NOTFOUND then .returned false g.txn ()
      else
        let current_data : Bytes := if g.rc = MDB_SUCCESS then g.data else []
        let p := mdb_put g.txn c.dbi_ key (setStringBit current_data bit_index set)
        .returned (decide (p.1 = MDB_SUCCESS)) p.2 ())

/-! ## Counters -/

/-- Method `LMDBClient::AtomicIncrement`.  `current += increment` is taken modulo 2^32
(signed overflow is undefined in C++; this is what the target does). -/
def LMDBClient.AtomicIncrement (c : LMDBClient) (fl : EngineFaults) (key : Bytes)
    (increment : Int) : Ret Unit :=
  c.ExecuteWriteTransaction fl () (fun txn =>
    let g := mdb_get txn c.dbi_ key
    let current : Int :=
      if g.rc = MDB_SUCCESS ∧ g.data.length = 4 then memcpyToInt g.data else 0
    let p := mdb_put g.txn c.dbi_ key (memcpyFromInt (wrapInt32 (current + increment)))
    .returned (decide (p.1 = MDB_SUCCESS)) p.2 ())

/-- The handle after the increments `ds` of the counter `key` have run one
after the other, each as one `AtomicIncrement` call with no failure forced. -/
def incrementAll (c : LMDBClient) (key : Bytes) (ds : List Int) : LMDBClient :=
  ds.foldl (fun c d => (c.AtomicIncrement noFaults key d).self) c

/-! ## Batches -/

/-- The first loop of `WriteBatch`: stop with `false` at the first put the engine refuses. -/
def WriteBatch_puts (dbi : Nat) : MDB_txn → List (Bytes × Bytes) → Bool × MDB_txn
  | txn, [] => (true, txn)
  | txn, (k, v) :: rest =>
    let p := mdb_put txn dbi k v
    if p.1 ≠ MDB_SUCCESS then (false, p.2) else WriteBatch_puts dbi p.2 rest

/-- The second loop of `WriteBatch`: stop with `false` at the first delete the engine refuses. -/
def WriteBatch_deletes (dbi : Nat) : MDB_txn → List Bytes → Bool × MDB_txn
  | txn, [] => (true, txn)
  | txn, k :: rest =>
    let d := mdb_del txn dbi k
    if d.1 ≠ MDB_SUCCESS then (false, d.2) else WriteBatch_deletes dbi d.2 rest

/-- The unit of work of `WriteBatch`. -/
def WriteBatch_func (dbi : Nat) (puts : List (Bytes × Bytes)) (deletes : List Bytes)
    (txn : MDB_txn) : Bool × MDB_txn :=
  let r := WriteBatch_puts dbi txn puts
  if r.1 then WriteBatch_deletes dbi r.2 deletes else (false, r.2)

/-- Method `LMDBClient::WriteBatch`. -/
def LMDBClient.WriteBatch (c : LMDBClient) (fl : EngineFaults) (puts : List (Bytes × Bytes))
    (deletes : List Bytes) : Ret Unit :=
  c.ExecuteWriteTransaction fl () (fun txn =>
    let r := WriteBatch_func c.dbi_ puts deletes txn
    .returned r.1 r.2 ())

/-- Method `LMDBClient::WriteBatchDouble`. -/
def LMDBClient.WriteBatchDouble (c : LMDBClient) (fl : EngineFaults) (puts : List (Bytes × Nat))
    (deletes : List Bytes) : Ret Unit :=
  c.WriteBatch fl (puts.map (fun kv => (kv.1, DoubleToBytes kv.2))) deletes

/-! ## Range operations -/

/-- Method `LMDBClient::DeleteDatabase`. -/
def LMDBClient.DeleteDatabase (c : LMDBClient) (fl : EngineFaults) : Ret Unit :=
  c.ExecuteWriteTransaction fl () (fun txn =>
    let d := mdb_drop txn c.dbi_
    .returned (decide (d.1 = MDB_SUCCESS)) d.2 ())

/-- The `while (rc == MDB_SUCCESS)` loop of `DeleteKeys`, entered with the
result `rc` and key `pkey` of the preceding `mdb_cursor_get`.  Every pass
removes one entry, which bounds the number of passes. -/
def DeleteKeys_loop (pfx : Bytes) (txn : MDB_txn) (cursor : MDB_cursor) (rc : Int)
    (pkey : Bytes) : Bool × MDB_txn :=
  if rc = MDB_SUCCESS then
    if startsWith pkey pfx = false then (true, txn)
    else
      let d := mdb_cursor_del txn cursor
      if _h : d.rc = MDB_SUCCESS then
        let g := mdb_cursor_get d.txn d.cursor pkey .MDB_GET_CURRENT
        DeleteKeys_loop pfx g.txn g.cursor g.rc g.key
      else (false, d.txn)
  else (true, txn)
termination_by txn.data.length
decreasing_by
  have hg : (mdb_cursor_get (mdb_cursor_del txn cursor).txn (mdb_cursor_del txn cursor).cursor
      pkey .MDB_GET_CURRENT).txn.data = (mdb_cursor_del txn cursor).txn.data := by
    unfold mdb_cursor_get; split <;> rfl
  rw [hg]
  have h1 : (mdb_cursor_del txn cursor).rc = MDB_SUCCESS := _h
  clear _h hg
  unfold mdb_cursor_del at h1 ⊢
  repeat' split at h1
  all_goals simp_all [MDB_txn.next, List.length_eraseIdx, ENOMEM, EACCES, EINVAL, MDB_NOTFOUND,
    MDB_SUCCESS]
  all_goals omega

/-- The unit of work of `DeleteKeys` for a non-empty `pfx`. -/
def DeleteKeys_func (dbi : Nat) (pfx : Bytes) (txn : MDB_txn) : Bool × MDB_txn :=
  let o := mdb_cursor_open txn dbi
  if o.rc ≠ MDB_SUCCESS then (false, o.txn)
  else
    let g := mdb_cursor_get o.txn o.cursor pfx .MDB_SET_RANGE
    DeleteKeys_loop pfx g.txn g.cursor g.rc g.key

/-- Method `LMDBClient::DeleteKeys`. -/
def LMDBClient.DeleteKeys (c : LMDBClient) (fl : EngineFaults) (pfx : Bytes) : Ret Unit :=
  if pfx = [] then c.DeleteDatabase fl
  else
    c.ExecuteWriteTransaction fl () (fun txn =>
      let r := DeleteKeys_func c.dbi_ pfx txn
      .returned r.1 r.2 ())

/-- Entries the cursor can still step over: the bound of the `GetKeys` loop. -/
def cursorRemaining (txn : MDB_txn) (cursor : MDB_cursor) : Nat :=
  match cursor.pos with
  | none => txn.data.length + 1
  | some i => txn.data.length - i

/-- The `do ... while (mdb_cursor_get(..., MDB_NEXT) == MDB_SUCCESS)` loop of
`GetKeys`, entered with the cursor on `key` and the keys collected so far. -/
def GetKeys_loop (pfx : Bytes) (txn : MDB_txn) (cursor : MDB_cursor) (key : Bytes)
    (keys : List Bytes) : List Bytes × MDB_txn :=
  if pfx ≠ [] ∧ startsWith key pfx = false then (keys, txn)
  else
    let g := mdb_cursor_get txn cursor key .MDB_NEXT
    if _h : g.rc = MDB_SUCCESS then GetKeys_loop pfx g.txn g.cursor g.key (keys ++ [key])
    else (keys ++ [key], g.txn)
termination_by cursorRemaining txn cursor
decreasing_by
  have h1 : (mdb_cursor_get txn cursor key .MDB_NEXT).rc = MDB_SUCCESS := _h
  clear _h
  unfold mdb_cursor_get cursorSeek cursorAt at h1 ⊢
  unfold cursorRemaining
  repeat' split at h1
  all_goals simp_all [MDB_txn.next, ENOMEM, EACCES, EINVAL, MDB_NOTFOUND, MDB_SUCCESS]
  rename_i i _ e _ _ _ heq
  have hlt : i + 1 < txn.data.length := by
    rcases Nat.lt_or_ge (i + 1) txn.data.length with hl | hl
    · exact hl
    · rw [List.getElem?_eq_none hl] at heq
      cases heq
  omega

/-- The unit of work of `GetKeys`; `keys` is the vector captured by reference. -/
def GetKeys_func (dbi : Nat) (pfx : Bytes) (keys : List Bytes) (txn : MDB_txn) :
    Work (List Bytes) :=
  let o := mdb_cursor_open txn dbi
  if o.rc ≠ MDB_SUCCESS then .returned false o.txn keys
  else if pfx ≠ [] then
    let s := mdb_cursor_get o.txn o.cursor pfx .MDB_SET_RANGE
    if s.rc ≠ MDB_SUCCESS then .returned true s.txn keys
    else
      let g := mdb_cursor_get s.txn s.cursor [] .MDB_GET_CURRENT
      if g.rc ≠ MDB_SUCCESS then .returned true g.txn keys
      else
        let r := GetKeys_loop pfx g.txn g.cursor g.key keys
        .returned true r.2 r.1
  else
    let g := mdb_cursor_get o.txn o.cursor [] .MDB_FIRST
    if g.rc ≠ MDB_SUCCESS then .returned true g.txn keys
    else
      let r := GetKeys_loop pfx g.txn g.cursor g.key keys
      .returned true r.2 r.1

/-- Method `LMDBClient::GetKeys`: the returned vector and the object afterwards. -/
def LMDBClient.GetKeys (c : LMDBClient) (fl : EngineFaults) (pfx : Bytes) :
    List Bytes × LMDBClient :=
  let r := c.ExecuteReadTransaction fl [] (GetKeys_func c.dbi_ pfx [])
  (r.out, r.self)

/-! ## Handle states and example data -/

/-- The handle after a successful `Initialize`: the flag is set, the environment
is open with the same read-only mode as the handle, and `dbi_` is the main table. -/
def LMDBClient.Ready (c : LMDBClient) : Prop :=
  c.initialized_ = true ∧ c.dbi_ = MAIN_DBI ∧
    ∃ env, c.env_ = some env ∧ env.rdonly = c.read_only_

/-- An initialized handle that was not opened read-only. -/
def LMDBClient.Writable (c : LMDBClient) : Prop :=
  c.Ready ∧ c.read_only_ = false

/-- A writable handle over the table `s`, for concrete runs. -/
def clientOn (s : Store) : LMDBClient :=
  ⟨some ⟨s, false, 0⟩, MAIN_DBI, true, false⟩

/-- A byte string from character codes. -/
def bytesOf (l : List Nat) : Bytes := l.map toByte

/-- The key `"admin:1"`. -/
def key_admin1 : Bytes := bytesOf [97, 100, 109, 105, 110, 58, 49]

/-- The key `"user:1"`. -/
def key_user1 : Bytes := bytesOf [117, 115, 101, 114, 58, 49]

/-- The key `"user:2"`. -/
def key_user2 : Bytes := bytesOf [117, 115, 101, 114, 58, 50]

/-- The string `"user:"`. -/
def pfx_user : Bytes := bytesOf [117, 115, 101, 114, 58]

/-- A table holding `"admin:1"`, `"user:1"` and `"user:2"`. -/
def userStore : Store :=
  [(key_admin1, bytesOf [1]), (key_user1, bytesOf [2]), (key_user2, bytesOf [3])]

/-- Bit `i` of a bitmap value the way `GetStringBit` reads it: bit `i % 8` of
byte `i / 8`, and `false` beyond the end of the value. -/
def bitAt (v : Bytes) (i : Int) : Bool :=
  readBit (v.getD (i / 8).toNat 0) (i % 8).toNat

/-- Some `mdb_put` or `mdb_del` that `WriteBatch` issues, running on `txn`,
returns a code other than `MDB_SUCCESS`: every call before it succeeded
(`done`), and the call on the next listed key does not. -/
def BatchOpFails (dbi : Nat) (txn : MDB_txn) (puts : List (Bytes × Bytes))
    (deletes : List Bytes) : Prop :=
  (∃ done k v rest, puts = done ++ (k, v) :: rest ∧
      (WriteBatch_puts dbi txn done).1 = true ∧
      (mdb_put (WriteBatch_puts dbi txn done).2 dbi k v).1 ≠ MDB_SUCCESS) ∨
  ((WriteBatch_puts dbi txn puts).1 = true ∧
    ∃ done k rest, deletes = done ++ k :: rest ∧
      (WriteBatch_deletes dbi (WriteBatch_puts dbi txn puts).2 done).1 = true ∧
      (mdb_del (WriteBatch_deletes dbi (WriteBatch_puts dbi txn puts).2 done).2 dbi k).1
        ≠ MDB_SUCCESS)

/-! ## Floating-point counter -/

/-- Method `LMDBClient::AtomicIncrementDouble`.  A `double` is represented by its
64-bit pattern (zero for `0.0`); `fadd` is the addition of the target's
floating-point unit on such patterns. -/
def LMDBClient.AtomicIncrementDouble (c : LMDBClient) (fl : EngineFaults)
    (fadd : Nat → Nat → Nat) (key : Bytes) (increment : Nat) : Ret Unit :=
  c.ExecuteWriteTransaction fl () (fun txn =>
    let g := mdb_get txn c.dbi_ key
    let current : Nat :=
      if g.rc = MDB_SUCCESS ∧ g.data.length = 8 then memcpyToDouble g.data else 0
    let p := mdb_put g.txn c.dbi_ key (DoubleToBytes (fadd current increment))
    .returned (decide (p.1 = MDB_SUCCESS)) p.2 ())

/-! ## Lifecycle -/

def ENOENT : Int := 2

/-- Failures forced on the collaborators of `Initialize`: whether
`std::filesystem::create_directories` throws, whether `mdb_env_create` and
`mdb_env_open` fail, and the schedule for the transaction that opens the table
(its first engine call is `mdb_dbi_open`). -/
structure OpenFaults where
  create_directories : Bool
  env_create : Bool
  env_open : Bool
  txn : EngineFaults

/-- The collaborators of `Initialize` behaving as documented. -/
def noOpenFaults : OpenFaults := ⟨false, false, false, noFaults⟩

/-- Function `CreateDirIfNotExists`: it calls the throwing overload of
`std::filesystem::create_directories`, so it either returns or raises
`std::filesystem::filesystem_error` (`.error`). -/
def CreateDirIfNotExists (fl : OpenFaults) (_path : Bytes) : Except Unit Unit :=
  if fl.create_directories then .error () else .ok ()

/-- Model of `mdb_env_create(&env)`: a closed environment with nothing mapped yet. -/
def mdb_env_create (fl : OpenFaults) : Int × MDB_env :=
  if fl.env_create then (ENOMEM, ⟨[], false, 0⟩) else (MDB_SUCCESS, ⟨[], false, 0⟩)

/-- Model of `mdb_env_set_maxreaders(env, readers)`. -/
def mdb_env_set_maxreaders (env : MDB_env) (_readers : Nat) : MDB_env := env

/-- Model of `mdb_env_set_mapsize(env, size)`. -/
def mdb_env_set_mapsize (env : MDB_env) (_size : Nat) : MDB_env := env

/-- Model of `mdb_env_open(env, path, flags, mode)`.  `disk` is the table kept in
the data file under `path`, `none` when there is no data file yet: a read-only
open then fails with `ENOENT`, any other open starts an empty table. -/
def mdb_env_open (env : MDB_env) (disk : Option Store) (_path : Bytes) (rdonly : Bool)
    (fl : OpenFaults) : Int × MDB_env :=
  if fl.env_open then (ENOMEM, env)
  else
    match disk with
    | some s => (MDB_SUCCESS, { env with data := s, rdonly := rdonly })
    | none =>
      if rdonly then (ENOENT, env)
      else (MDB_SUCCESS, { env with data := [], rdonly := rdonly })

/-- Result of `mdb_dbi_open`; `dbi` is the handle argument after the call. -/
structure DbiOpen where
  rc : Int
  dbi : Nat
  txn : MDB_txn

/-- Model of `mdb_dbi_open(txn, nullptr, 0, &dbi)`: the unnamed main table. -/
def mdb_dbi_open (txn : MDB_txn) (dbi : Nat) : DbiOpen :=
  if txn.fault then ⟨ENOMEM, dbi, txn.next⟩ else ⟨MDB_SUCCESS, MAIN_DBI, txn.next⟩

/-- How a call of `Initialize` ends: it returns its flag, or an exception
leaves it.  `self` is the object afterwards. -/
inductive InitResult where
  | returned (result : Bool) (self : LMDBClient)
  | threw (self : LMDBClient)

/-- Method `LMDBClient::Initialize`. -/
def LMDBClient.Initialize (c : LMDBClient) (fl : OpenFaults) (disk : Option Store)
    (db_path : Bytes) (map_size_mb : Nat) (read_only : Bool) : InitResult :=
  if c.initialized_ then .returned true c
  else
    let c1 : LMDBClient := { c with read_only_ := read_only }
    match CreateDirIfNotExists fl db_path with
    | .error _ => .threw c1
    | .ok _ =>
      let e := mdb_env_create fl
      if e.1 ≠ MDB_SUCCESS then .returned false c1
      else
        let env := mdb_env_set_mapsize (mdb_env_set_maxreaders e.2 126)
          (map_size_mb * 1024 * 1024)
        let o := mdb_env_open env disk db_path read_only fl
        if o.1 ≠ MDB_SUCCESS then .returned false { c1 with env_ := none }
        else
          let b := mdb_txn_begin o.2 read_only fl.txn
          if b.rc ≠ MDB_SUCCESS then .returned false { c1 with env_ := none }
          else
            let d := mdb_dbi_open b.txn c1.dbi_
            if d.rc ≠ MDB_SUCCESS then
              .returned false { c1 with env_ := none, dbi_ := d.dbi }
            else
              let r := mdb_txn_commit b.env d.txn fl.txn
              .returned true { c1 with env_ := some r.2, dbi_ := d.dbi, initialized_ := true }

/-- Method `LMDBClient::Close`. -/
def LMDBClient.Close (c : LMDBClient) : LMDBClient :=
  match c.env_ with
  | some _ => { c with env_ := none, dbi_ := 0, initialized_ := false }
  | none => c

/-- A default-constructed `LMDBClient`. -/
def freshClient : LMDBClient := ⟨none, 0, false, false⟩

/-- A handle opened read-only over the table `s`, for concrete runs. -/
def readOnlyClientOn (s : Store) : LMDBClient :=
  ⟨some ⟨s, true, 1⟩, MAIN_DBI, true, true⟩

/-! ## Configuration file reader (`IniReader.h`) -/

/-- Method `std::string::find_first_not_of(chars)`: the index of the first
character that is not one of `chars`; `none` stands for `npos`. -/
def find_first_not_of (chars : Bytes) : Bytes → Option Nat
  | [] => none
  | b :: rest =>
    if b ∈ chars then (find_first_not_of chars rest).map (· + 1) else some 0

/-- Method `std::string::find_last_not_of(chars)`: the index of the last
character that is not one of `chars`; `none` stands for `npos`. -/
def find_last_not_of (chars : Bytes) : Bytes → Option Nat
  | [] => none
  | b :: rest =>
    match find_last_not_of chars rest with
    | some i => some (i + 1)
    | none => if b ∈ chars then none else some 0

/-- Method `std::string::find(ch)`: the index of the first `ch`; `none` stands for `npos`. -/
def find (ch : Byte) : Bytes → Option Nat
  | [] => none
  | b :: rest => if b = ch then some 0 else (find ch rest).map (· + 1)

/-- Method `std::string::erase(index, count)` for `index ≤ size()`, which holds
at both calls in `trim`; a `count` of `none` is `npos`, "to the end". -/
def erase (s : Bytes) (index : Nat) (count : Option Nat) : Bytes :=
  match count with
  | none => s.take index
  | some n => s.take index ++ s.drop (index + n)

/-- Method `std::string::substr(pos, count)` for `pos ≤ size()`; a `count` of
`none` is `npos`, "to the end". -/
def substr (s : Bytes) (pos : Nat) (count : Option Nat) : Bytes :=
  match count with
  | none => s.drop pos
  | some n => (s.drop pos).take n

/-- The set `" \t\r\n"` that `trim` strips. -/
def TRIM_CHARS : Bytes := bytesOf [32, 9, 13, 10]

/-- Method `IniReader::trim`.  The second `erase` starts at
`find_last_not_of(..) + 1`, computed in `size_t`: `npos + 1` wraps to `0`. -/
def IniReader.trim (s : Bytes) : Bytes :=
  if s = [] then s
  else
    let s1 := erase s 0 (find_first_not_of TRIM_CHARS s)
    erase s1 (match find_last_not_of TRIM_CHARS s1 with
      | some i => i + 1
      | none => 0) none

/-- The member `settings` of `IniReader`, a
`std::map<std::string, std::map<std::string, std::string>>`, as a lookup
function: `none` where `find` returns `end()`. -/
structure IniReader where
  settings : Bytes → Option (Bytes → Option Bytes)

/-- A default-constructed `IniReader`: no section. -/
def IniReader.empty : IniReader := ⟨fun _ => none⟩

/-- The statement `settings[currentSection][key] = value`: `operator[]` makes
the section and the key when they are missing, then the value is replaced. -/
def IniReader.assign (r : IniReader) (currentSection key value : Bytes) : IniReader :=
  ⟨fun s =>
    if s = currentSection then
      some (fun k =>
        if k = key then some value
        else
          match r.settings currentSection with
          | some inner => inner k
          | none => none)
    else r.settings s⟩

/-- Method `IniReader::getString`; `none` is `std::nullopt`. -/
def IniReader.getString (r : IniReader) (sect key : Bytes) : Option Bytes :=
  match r.settings sect with
  | some inner => inner key
  | none => none

/-- The section name `"default"` that `load` starts with. -/
def DEFAULT_SECTION : Bytes := bytesOf [100, 101, 102, 97, 117, 108, 116]

/-- One turn of the `while (std::getline(file, line))` loop of `load`, on the
pair of `currentSection` and the reader. -/
def IniReader.loadLine (st : Bytes × IniReader) (raw : Bytes) : Bytes × IniReader :=
  let line := IniReader.trim raw
  if line = [] ∨ line.head? = some (toByte 59) ∨ line.head? = some (toByte 35) then st
  else if line.head? = some (toByte 91) ∧ line.getLast? = some (toByte 93) then
    (IniReader.trim (substr line 1 (some (line.length - 2))), st.2)
  else
    match find (toByte 61) line with
    | some delimiterPos =>
      let key := IniReader.trim (substr line 0 (some delimiterPos))
      let value := IniReader.trim (substr line (delimiterPos + 1) none)
      (st.1, st.2.assign st.1 key value)
    | none => st

/-- Method `IniReader::load`.  The argument is what the file holds: `none` when
it cannot be opened, else the lines that `std::getline` yields, in order. -/
def IniReader.load (r : IniReader) (file : Option (List Bytes)) : Bool × IniReader :=
  match file with
  | none => (false, r)
  | some lines => (true, (lines.foldl IniReader.loadLine (DEFAULT_SECTION, r)).2)

/-- How `load` reads one line: a line it skips (blank, comment, or neither a
header nor an assignment), a `[section]` header, or a `key=value` line. -/
inductive IniLine where
  | skipped
  | header (name : Bytes)
  | keyValue (key value : Bytes)
deriving DecidableEq

/-- Reading of one line of the file, after the format the reader accepts:
surrounding white space is dropped; an empty line or one starting with `;` or
`#` is skipped; `[name]` is a header; otherwise the first `=` separates a key
from a value, both stripped of surrounding white space. -/
def IniLine.read (raw : Bytes) : IniLine :=
  let line := IniReader.trim raw
  if line = [] ∨ line.head? = some (toByte 59) ∨ line.head? = some (toByte 35) then .skipped
  else if line.head? = some (toByte 91) ∧ line.getLast? = some (toByte 93) then
    .header (IniReader.trim ((line.drop 1).dropLast))
  else
    match find (toByte 61) line with
    | some pos => .keyValue (IniReader.trim (line.take pos)) (IniReader.trim (line.drop (pos + 1)))
    | none => .skipped

/-- Whether the line is a `[section]` header. -/
def IniLine.isHeader : IniLine → Bool
  | .header _ => true
  | _ => false

/-- The `(section, key, value)` entries of a file in file order: a `key=value`
line belongs to the section of the nearest header above it, and to `sect`
when there is none. -/
def iniEntries (sect : Bytes) : List Bytes → List (Bytes × Bytes × Bytes)
  | [] => []
  | raw :: rest =>
    match IniLine.read raw with
    | .skipped => iniEntries sect rest
    | .header name => iniEntries name rest
    | .keyValue k v => (sect, k, v) :: iniEntries sect rest

/-- The section in force after the lines `lines`, starting in `sect`. -/
def iniSection (sect : Bytes) : List Bytes → Bytes
  | [] => sect
  | raw :: rest =>
    match IniLine.read raw with
    | .header name => iniSection name rest
    | _ => iniSection sect rest

/-- The value of the last entry for `(sect, key)`, if there is one. -/
def iniLookup (entries : List (Bytes × Bytes × Bytes)) (sect key : Bytes) : Option Bytes :=
  (entries.reverse.find? (fun e => decide (e.1 = sect ∧ e.2.1 = key))).map (fun e => e.2.2)

/-- Whether `s` neither begins nor ends with one of the characters of `TRIM_CHARS`. -/
def Trimmed (s : Bytes) : Prop :=
  (∀ b, s.head? = some b → b ∉ TRIM_CHARS) ∧ (∀ b, s.getLast? = some b → b ∉ TRIM_CHARS)

/-- Every section name, key and value the reader holds is trimmed. -/
def IniReader.AllTrimmed (r : IniReader) : Prop :=
  ∀ s inner, r.settings s = some inner →
    Trimmed s ∧ ∀ k v, inner k = some v → Trimmed k ∧ Trimmed v

/-- The text of a string literal, one byte per character. -/
def lit (s : String) : Bytes := s.toList.map (fun ch => toByte ch.toNat)

/-! ## Asynchronous POST (`protobuf_http_client.hpp`) -/

/-- An exception object, as far as `catch` clauses tell exceptions apart: a
`ProtobufHttpClient::Exception`, an object of another class derived from
`std::exception`, or an object of any other type.  `what` is `e.what()`. -/
inductive Exn where
  | client (what : Bytes)
  | std (what : Bytes)
  | other
deriving DecidableEq

/-- An `AsyncCallback<ResponseType>`: for the response pointer (`none` is
`nullptr`) and the error text it is invoked with, `none` when the invocation
returns and `some e` when it throws `e`. -/
abbrev AsyncCallback (ρ : Type) := Option ρ → Bytes → Option Exn

/-- A run of the thread that `async_post` starts: the invocations of the
callback in order, and whether an exception left the thread function (which
ends the process through `std::terminate`). -/
structure ThreadRun (ρ : Type) where
  invocations : List (Option ρ × Bytes)
  terminated : Bool

/-- The three `catch` clauses after the `try` block of the thread body; `made`
holds the invocations made before the exception `e` was thrown. -/
def async_post_catch {ρ : Type} (callback : AsyncCallback ρ) (made : List (Option ρ × Bytes))
    (e : Exn) : ThreadRun ρ :=
  let error : Bytes :=
    match e with
    | .client what => lit "Exception: " ++ what
    | .std what => lit "Std exception: " ++ what
    | .other => lit "Unknown error in POST request"
  ⟨made ++ [(none, error)], (callback none error).isSome⟩

/-- The body of the thread that `ProtobufHttpClient::async_post` starts and
detaches.  `temp_client` is what constructing the temporary client does
(`some e` when it throws) and `post` what `temp_client.post` does: it throws,
or returns a response pointer. -/
def async_post {ρ : Type} (temp_client : Option Exn) (post : Except Exn (Option ρ))
    (callback : AsyncCallback ρ) : ThreadRun ρ :=
  match temp_client with
  | some e => async_post_catch callback [] e
  | none =>
    match post with
    | .error e => async_post_catch callback [] e
    | .ok (some response) =>
      match callback (some response) [] with
      | none => ⟨[(some response, [])], false⟩
      | some e => async_post_catch callback [(some response, [])] e
    | .ok none =>
      match callback none (lit "POST request failed: server returned error") with
      | none => ⟨[(none, lit "POST request failed: server returned error")], false⟩
      | some e =>
        async_post_catch callback [(none, lit "POST request failed: server returned error")] e

/-- A callback that throws `e` when it is handed a response and returns when
it is handed `nullptr`. -/
def throwsOnResponse (ρ : Type) (e : Exn) : AsyncCallback ρ :=
  fun response _ => if response.isSome then some e else none

/-! ## Plugin entry points (`YdFunc.h`, `YdFunc.cpp`) -/

/-- The fields of `YDPARAMDATA` the entry points read: the single value (a
`double`, as its 64-bit pattern) and the text pointer (`none` is `NULL`). -/
structure YDPARAMDATA where
  m_dSingleData : Nat
  m_pszText : Option Bytes

/-- The fields of `DLLCALCINFO` the entry points use.  `m_strStkLabel` is the
text of the `char[16]` up to its terminator, `m_pParam` the array of parameter
pointers (`none` is `NULL`) and `m_pResultBuf` the buffer of `double`s the
result pointer refers to. -/
structure DLLCALCINFO where
  m_dwHeadTag : Nat
  m_strStkLabel : Bytes
  m_nNumData : Int
  m_nNumParam : Int
  m_pParam : List (Option YDPARAMDATA)
  m_pResultBuf : List Nat

def YDDLL_HEADTAG : Nat := 0xf32cea12

/-- The pointer `pData->m_pParam[i]`. -/
def DLLCALCINFO.param (d : DLLCALCINFO) (i : Nat) : Option YDPARAMDATA :=
  d.m_pParam.getD i none

/-- The store `pData->m_pResultBuf[pData->m_nNumData - back] = x`; `none` when
the index lies outside the buffer. -/
def DLLCALCINFO.setResult (d : DLLCALCINFO) (back : Int) (x : Nat) : Option DLLCALCINFO :=
  if 0 ≤ d.m_nNumData - back ∧ (d.m_nNumData - back).toNat < d.m_pResultBuf.length then
    some { d with m_pResultBuf := d.m_pResultBuf.set (d.m_nNumData - back).toNat x }
  else none

/-- The conversion `(int)x` of a `double` given by its pattern: the value with
its fraction cut off.  A value outside the range of `int`, an infinity or a
NaN gives `INT_MIN`, as the x86 conversion instruction does. -/
def double_to_int (x : Nat) : Int :=
  let e := x / 2 ^ 52 % 2048
  let m := x % 2 ^ 52
  let magnitude : Nat :=
    if e = 0 then 0
    else if 1075 ≤ e then (2 ^ 52 + m) * 2 ^ (e - 1075)
    else (2 ^ 52 + m) / 2 ^ (1075 - e)
  let v : Int := if x / 2 ^ 63 % 2 = 1 then -(magnitude : Int) else (magnitude : Int)
  if e = 2047 ∨ v < -2147483648 ∨ 2147483647 < v then -2147483648 else v

/-- Position of the highest set bit of `n`, for `n < 2 ^ fuel`. -/
def highBit : Nat → Nat → Nat
  | 0, _ => 0
  | fuel + 1, n => if n < 2 then 0 else highBit fuel (n / 2) + 1

/-- The conversion of an `int` to `double`, which is exact; the result is the pattern. -/
def int_to_double (n : Int) : Nat :=
  if n = 0 then 0
  else
    (if n < 0 then 2 ^ 63 else 0) + (1023 + highBit 32 n.natAbs) * 2 ^ 52
      + (n.natAbs * 2 ^ (52 - highBit 32 n.natAbs) - 2 ^ 52)

/-- Function `std::to_string(int)`: the decimal digits, after a minus sign for
a negative number. -/
def to_string (n : Int) : Bytes :=
  (if n < 0 then [toByte 45] else []) ++
    (Nat.toDigits 10 n.natAbs).map (fun ch => toByte ch.toNat)

/-- The constant `STRING_BIT_PREFIX`. -/
def STRING_BIT_PREFIX : Bytes := lit "BLK_"

/-- The stock code the entry points work with: the label, cut to its last six
characters when it is longer. -/
def stockCode (label : Bytes) : Bytes :=
  if label.length > 6 then label.drop (label.length - 6) else label

/-- What one call of an entry point finds around it.  The functions of
`YdFunc.cpp` that read `config.ini` or create the log file, and the HTTP
client, are taken by what they do in this call: return a value or throw
(`worldOf` gives them from the files of the process).  `GetLogger` returns
whether the logger pointer is non-null.  `open_faults`, `disk` and `faults`
are what `Initialize` and the engine calls are given. -/
structure World where
  GetLogger : Except Exn Bool
  getStr : Bytes → Bytes → Except Exn (Option Bytes)
  GetDbPath : Except Exn Bytes
  GetHttpBaseUrl : Except Exn Bytes
  GetTimeoutMs : Except Exn Int
  http_client : Except Exn Unit
  async_post : Bytes → Except Exn Unit
  open_faults : OpenFaults
  disk : Option Store
  faults : EngineFaults

/-- How a call of an entry point ends: a `return` statement ran; control
reached the closing brace of the function without one, so that the value the
host reads is not defined; an exception left the function; or a store through
`m_pResultBuf` fell outside the buffer. -/
inductive Outcome where
  | returned (code : Int)
  | no_return
  | propagated (e : Exn)
  | out_of_bounds
deriving DecidableEq

/-- A call of an entry point: how it ended, the `LMDBClient` singleton
afterwards and the request structure afterwards. -/
structure Call where
  outcome : Outcome
  db : LMDBClient
  pData : Option DLLCALCINFO

/-- The handler `catch (...) { return -1; }`. -/
def catch_all (c : Call) : Call :=
  match c.outcome with
  | .propagated _ => { c with outcome := .returned (-1) }
  | _ => c

/-- The handlers of `AUTO_TRADE`: `catch (const std::exception&)` and
`catch (...)`, each of which calls `GetLogger()`, logs and returns `-1`.  An
exception thrown by `GetLogger()` inside a handler leaves the function. -/
def catch_all_logging (w : World) (c : Call) : Call :=
  match c.outcome with
  | .propagated _ =>
    match w.GetLogger with
    | .error e => { c with outcome := .propagated e }
    | .ok _ => { c with outcome := .returned (-1) }
  | _ => c

/-- The only handler of `AUTO_CANCEL`: `catch (const std::exception&)`, which
calls `GetLogger()`, logs and returns `-1`.  There is no `catch (...)`. -/
def catch_std_logging (w : World) (c : Call) : Call :=
  match c.outcome with
  | .propagated .other => c
  | .propagated _ =>
    match w.GetLogger with
    | .error e => { c with outcome := .propagated e }
    | .ok _ => { c with outcome := .returned (-1) }
  | _ => c

/-- The statement `db.Initialize(GetDbPath(), 100, false);`, whose result is
not looked at: the handle afterwards, or the exception thrown by `GetDbPath()`
or by `Initialize` with the handle it leaves. -/
def openDb (w : World) (db : LMDBClient) : Except (Exn × LMDBClient) LMDBClient :=
  match w.GetDbPath with
  | .error e => .error (e, db)
  | .ok path =>
    match db.Initialize w.open_faults w.disk path 100 false with
    | .threw db1 => .error (.std (lit "filesystem error"), db1)
    | .returned _ db1 => .ok db1

/-- The key text of `GET_KEY`, `ADD_KEY`, `SET_KEY` and `DEL_KEY`: the text of
the first parameter, or its number in decimal when there is no text. -/
def keyOf (p0 : YDPARAMDATA) : Bytes :=
  match p0.m_pszText with
  | none => to_string (double_to_int p0.m_dSingleData)
  | some key_str => key_str

/-- The test at the head of `GET_KEY`, `ADD_KEY`, `SET_KEY`, `DEL_KEY`,
`AUTO_TRADE` and `AUTO_CANCEL`: four parameters, none of them `NULL`. -/
def fourParams (d : DLLCALCINFO) : Option (YDPARAMDATA × YDPARAMDATA × YDPARAMDATA × YDPARAMDATA) :=
  if d.m_nNumParam = 4 then
    match d.param 0, d.param 1, d.param 2, d.param 3 with
    | some p0, some p1, some p2, some p3 => some (p0, p1, p2, p3)
    | _, _, _, _ => none
  else none

/-- The part that `GET_KEY`, `ADD_KEY`, `SET_KEY` and `DEL_KEY` share once the
four parameters are there: the account id is looked up in the configuration
and the database is opened; `work` is what follows, given the handle and the
key with its prefix `key:<account id>:`. -/
def withAccount (w : World) (db : LMDBClient) (d : DLLCALCINFO) (p0 p3 : YDPARAMDATA)
    (work : LMDBClient → Bytes → Call) : Call :=
  match p3.m_pszText with
  | none => ⟨.returned (-1), db, some d⟩
  | some acc_str =>
    match w.getStr (lit "ths_account") acc_str with
    | .error e => ⟨.propagated e, db, some d⟩
    | .ok none =>
      match w.GetLogger with
      | .error e => ⟨.propagated e, db, some d⟩
      | .ok _ => ⟨.returned 0, db, some d⟩
    | .ok (some ths_acount_id) =>
      match openDb w db with
      | .error (e, db1) => ⟨.propagated e, db1, some d⟩
      | .ok db1 => work db1 (lit "key:" ++ ths_acount_id ++ lit ":" ++ keyOf p0)

/-- Entry point `GET_KEY`.  When the test for four parameters fails, control
leaves the `try` block and reaches the end of the function. -/
def GET_KEY (w : World) (db : LMDBClient) (pData : Option DLLCALCINFO) : Call :=
  catch_all
    (match pData with
    | none => ⟨.returned (-1), db, pData⟩
    | some d =>
      match fourParams d with
      | some (p0, _, _, p3) =>
        withAccount w db d p0 p3 (fun db1 key =>
          let g := db1.GetDouble w.faults key (some 0)
          match d.setResult 1 (g.out.getD 0) with
          | some d1 => ⟨.returned 1, g.self, some d1⟩
          | none => ⟨.out_of_bounds, g.self, pData⟩)
      | none => ⟨.no_return, db, pData⟩)

/-- Entry point `ADD_KEY`; `return 1;` follows the test for four parameters.
`fadd` is the addition of two `double` patterns. -/
def ADD_KEY (w : World) (fadd : Nat → Nat → Nat) (db : LMDBClient)
    (pData : Option DLLCALCINFO) : Call :=
  catch_all
    (match pData with
    | none => ⟨.returned (-1), db, pData⟩
    | some d =>
      match fourParams d with
      | some (p0, p1, _, p3) =>
        withAccount w db d p0 p3 (fun db1 key =>
          ⟨.returned 1, (db1.AtomicIncrementDouble w.faults fadd key p1.m_dSingleData).self,
            pData⟩)
      | none => ⟨.returned 1, db, pData⟩)

/-- Entry point `SET_KEY`. -/
def SET_KEY (w : World) (db : LMDBClient) (pData : Option DLLCALCINFO) : Call :=
  catch_all
    (match pData with
    | none => ⟨.returned (-1), db, pData⟩
    | some d =>
      match fourParams d with
      | some (p0, p1, _, p3) =>
        withAccount w db d p0 p3 (fun db1 key =>
          ⟨.returned 1, (db1.PutDouble w.faults key p1.m_dSingleData).self, pData⟩)
      | none => ⟨.no_return, db, pData⟩)

/-- Entry point `DEL_KEY`. -/
def DEL_KEY (w : World) (db : LMDBClient) (pData : Option DLLCALCINFO) : Call :=
  catch_all
    (match pData with
    | none => ⟨.returned (-1), db, pData⟩
    | some d =>
      match fourParams d with
      | some (p0, _, _, p3) =>
        withAccount w db d p0 p3 (fun db1 key =>
          ⟨.returned 1, (db1.Delete w.faults key).self, pData⟩)
      | none => ⟨.no_return, db, pData⟩)

/-- The endpoint `AUTO_TRADE` picks for an order type; `none` for an order
type outside `1..6`, for which it returns `-1`. -/
def tradeEndpoint (OrderType : Int) : Option Bytes :=
  if OrderType = 1 ∨ OrderType = 2 then some (lit "/place_order/amount")
  else if OrderType = 3 ∨ OrderType = 4 then some (lit "/place_order/vol")
  else if OrderType = 5 ∨ OrderType = 6 then some (lit "/place_order/percent")
  else none

/-- The statements that build the HTTP client: `GetHttpBaseUrl()`,
`GetTimeoutMs()` and the constructor, in this order; `some e` when one throws. -/
def makeClient (w : World) : Option Exn :=
  match w.GetHttpBaseUrl with
  | .error e => some e
  | .ok _ =>
    match w.GetTimeoutMs with
    | .error e => some e
    | .ok _ =>
      match w.http_client with
      | .error e => some e
      | .ok _ => none

/-- Entry point `AUTO_TRADE`. -/
def AUTO_TRADE (w : World) (db : LMDBClient) (pData : Option DLLCALCINFO) : Call :=
  catch_all_logging w
    (match pData with
    | none => ⟨.returned (-1), db, pData⟩
    | some d =>
      match fourParams d with
      | some (_, p1, p2, _) =>
        if double_to_int p1.m_dSingleData > 0 then
          match makeClient w with
          | some e => ⟨.propagated e, db, pData⟩
          | none =>
            match tradeEndpoint (double_to_int p2.m_dSingleData) with
            | none => ⟨.returned (-1), db, pData⟩
            | some endpoint =>
              match w.async_post endpoint with
              | .error e => ⟨.propagated e, db, pData⟩
              | .ok _ => ⟨.returned 1, db, pData⟩
        else ⟨.returned 1, db, pData⟩
      | none => ⟨.returned 1, db, pData⟩)

/-- Entry point `AUTO_CANCEL`. -/
def AUTO_CANCEL (w : World) (db : LMDBClient) (pData : Option DLLCALCINFO) : Call :=
  catch_std_logging w
    (match pData with
    | none => ⟨.returned (-1), db, pData⟩
    | some d =>
      if d.m_dwHeadTag ≠ YDDLL_HEADTAG then ⟨.returned (-1), db, pData⟩
      else
        match fourParams d with
        | some (p0, p1, _, _) =>
          match makeClient w with
          | some e => ⟨.propagated e, db, pData⟩
          | none =>
            if double_to_int p1.m_dSingleData = 0 then ⟨.returned (-1), db, pData⟩
            else if ¬(double_to_int p0.m_dSingleData = 1 ∨ double_to_int p0.m_dSingleData = 2 ∨
                double_to_int p0.m_dSingleData = 3) then ⟨.returned 1, db, pData⟩
            else if ¬(double_to_int p1.m_dSingleData = 1 ∨ double_to_int p1.m_dSingleData = 2) then
              ⟨.returned 1, db, pData⟩
            else
              match w.async_post (lit "/cancel/stock_scope") with
              | .error e => ⟨.propagated e, db, pData⟩
              | .ok _ => ⟨.returned 1, db, pData⟩
        | none => ⟨.returned 1, db, pData⟩)

/-- Entry point `ADD_TO_BLOCK`.  The results of `AtomicSetStringBit` and of
`AtomicIncrement` are not looked at. -/
def ADD_TO_BLOCK (w : World) (db : LMDBClient) (pData : Option DLLCALCINFO) : Call :=
  catch_all
    (match pData with
    | none => ⟨.returned (-1), db, pData⟩
    | some d =>
      match openDb w db with
      | .error (e, db1) => ⟨.propagated e, db1, pData⟩
      | .ok db1 =>
        if d.m_nNumParam ≥ 1 then
          match d.param 0 with
          | some p0 =>
            if double_to_int p0.m_dSingleData ≥ 0 then
              let s := db1.AtomicSetStringBit w.faults
                (STRING_BIT_PREFIX ++ stockCode d.m_strStkLabel)
                (double_to_int p0.m_dSingleData) true
              let i := s.self.AtomicIncrement w.faults
                (lit "blk_size:" ++ to_string (double_to_int p0.m_dSingleData)) 1
              ⟨.returned 1, i.self, pData⟩
            else ⟨.returned 1, db1, pData⟩
          | none => ⟨.returned 1, db1, pData⟩
        else ⟨.returned 1, db1, pData⟩)

/-- Entry point `IS_IN_BLOCK`: the last slot of the result buffer gets `1` or `0`. -/
def IS_IN_BLOCK (w : World) (db : LMDBClient) (pData : Option DLLCALCINFO) : Call :=
  catch_all
    (match pData with
    | none => ⟨.returned (-1), db, pData⟩
    | some d =>
      match openDb w db with
      | .error (e, db1) => ⟨.propagated e, db1, pData⟩
      | .ok db1 =>
        if d.m_nNumParam ≥ 1 then
          match d.param 0 with
          | some p0 =>
            if double_to_int p0.m_dSingleData ≥ 0 then
              let g := db1.GetStringBit w.faults (STRING_BIT_PREFIX ++ stockCode d.m_strStkLabel)
                (double_to_int p0.m_dSingleData) (some false)
              match d.setResult 1 (int_to_double (if g.out.getD false then 1 else 0)) with
              | some d1 => ⟨.returned 1, g.self, some d1⟩
              | none => ⟨.out_of_bounds, g.self, pData⟩
            else ⟨.returned 1, db1, pData⟩
          | none => ⟨.returned 1, db1, pData⟩
        else ⟨.returned 1, db1, pData⟩)

/-- Entry point `GET_BLOCK_SIZE`: the last slot of the result buffer gets the
counter `blk_size:<index>`, `0` when `GetInt` does not find one. -/
def GET_BLOCK_SIZE (w : World) (db : LMDBClient) (pData : Option DLLCALCINFO) : Call :=
  catch_all
    (match pData with
    | none => ⟨.returned (-1), db, pData⟩
    | some d =>
      match openDb w db with
      | .error (e, db1) => ⟨.propagated e, db1, pData⟩
      | .ok db1 =>
        if d.m_nNumParam ≥ 1 then
          match d.param 0 with
          | some p0 =>
            let g := db1.GetInt w.faults
              (lit "blk_size:" ++ to_string (double_to_int p0.m_dSingleData)) (some 0)
            match d.setResult 1 (int_to_double (g.out.getD 0)) with
            | some d1 => ⟨.returned 1, g.self, some d1⟩
            | none => ⟨.out_of_bounds, g.self, pData⟩
          | none => ⟨.returned 1, db1, pData⟩
        else ⟨.returned 1, db1, pData⟩)

/-- What `GetLogger` and `ConfigManager` find outside the process: the lines
of `config.ini` (`none` when the file cannot be opened), the exception that
`std::filesystem::exists` or `create_directory` throws for the directory
`logs` if one of them does, and whether `logs/app.log` can be opened. -/
structure Files where
  config_ini : Option (List Bytes)
  logs_error : Option Exn
  log_file : Bool

/-- Function `GetLogger`: whether the pointer it returns is non-null.  The
`try` block inside `std::call_once` catches `spdlog::spdlog_ex` only, which
leaves the logger null; an exception of the `std::filesystem` calls leaves
`GetLogger`, and the next call runs the initialisation again. -/
def GetLogger (f : Files) : Except Exn Bool :=
  match f.logs_error with
  | some e => .error e
  | none => .ok f.log_file

/-- Function `ConfigManager::getInstance`: the reader after the one `load`.
When `load` fails, `GetLogger()` is called before `initialized` is set. -/
def ConfigManager.getInstance (f : Files) : Except Exn IniReader :=
  if (IniReader.empty.load f.config_ini).1 then .ok (IniReader.empty.load f.config_ini).2
  else
    match GetLogger f with
    | .error e => .error e
    | .ok _ => .ok (IniReader.empty.load f.config_ini).2

/-- Function `ConfigManager::getStr(section, key)`. -/
def ConfigManager.getStr (f : Files) (sect key : Bytes) : Except Exn (Option Bytes) :=
  match ConfigManager.getInstance f with
  | .error e => .error e
  | .ok reader => .ok (reader.getString sect key)

/-- Function `ConfigManager::getStr(section, key, defaultVal)`. -/
def ConfigManager.getStrOr (f : Files) (sect key defaultVal : Bytes) : Except Exn Bytes :=
  match ConfigManager.getInstance f with
  | .error e => .error e
  | .ok reader => .ok ((reader.getString sect key).getD defaultVal)

/-- Function `std::stoi(str)`: white space, an optional sign and decimal
digits; `none` when it throws (no digit, or a value outside `int`). -/
def stoi (str : Bytes) : Option Int :=
  let t := str.dropWhile (fun b => decide (b.val = 32 ∨ (9 ≤ b.val ∧ b.val ≤ 13)))
  let negative := decide (t.head? = some (toByte 45))
  let u := if t.head? = some (toByte 45) ∨ t.head? = some (toByte 43) then t.drop 1 else t
  let digits := u.takeWhile (fun b => decide (48 ≤ b.val ∧ b.val ≤ 57))
  let n : Int := digits.foldl (fun a b => 10 * a + ((b.val : Int) - 48)) 0
  if digits = [] then none
  else if negative then (if n ≤ 2147483648 then some (-n) else none)
  else if n ≤ 2147483647 then some n else none

/-- Function `ConfigManager::getInt`: the exception of `std::stoi` is caught
and the default returned. -/
def ConfigManager.getInt (f : Files) (sect key : Bytes) (defaultVal : Int) : Except Exn Int :=
  match ConfigManager.getInstance f with
  | .error e => .error e
  | .ok reader =>
    match reader.getString sect key with
    | some val => .ok ((stoi val).getD defaultVal)
    | none => .ok defaultVal

/-- The surroundings of a call in a process with the files `f`: `GetLogger`,
`ConfigManager::getStr`, `GetDbPath`, `GetHttpBaseUrl` and `GetTimeoutMs` as
`YdFunc.cpp` defines them. -/
def worldOf (f : Files) (http_client : Except Exn Unit) (async_post : Bytes → Except Exn Unit)
    (open_faults : OpenFaults) (disk : Option Store) (faults : EngineFaults) : World :=
  { GetLogger := GetLogger f
    getStr := ConfigManager.getStr f
    GetDbPath := ConfigManager.getStrOr f (lit "lmdb") (lit "path") (lit "./litg_db")
    GetHttpBaseUrl :=
      ConfigManager.getStrOr f (lit "http") (lit "base_url") (lit "http://localhost:8000")
    GetTimeoutMs := ConfigManager.getInt f (lit "http") (lit "timeout_ms") 10000
    http_client := http_client
    async_post := async_post
    open_faults := open_faults
    disk := disk
    faults := faults }

/-- A process in which nothing fails: `config.ini` is there and empty, the log
file can be created, the HTTP client starts, the database directory is new and
the engine is not forced to fail. -/
def quietWorld : World :=
  worldOf ⟨some [], none, true⟩ (.ok ()) (fun _ => .ok ()) noOpenFaults none noFaults

/-- A process that can neither open `config.ini` nor create the directory
`logs`: `create_directory` throws a `std::filesystem::filesystem_error`. -/
def noLogsWorld : World :=
  worldOf ⟨none, some (.std (lit "filesystem error")), true⟩ (.ok ()) (fun _ => .ok ())
    noOpenFaults none noFaults

/-- A parameter that carries the number `n` and no text. -/
def numberParam (n : Int) : YDPARAMDATA := ⟨int_to_double n, none⟩

/-- A request for the stock `label` with the given parameters and a result
buffer of one slot. -/
def requestOf (label : Bytes) (params : List YDPARAMDATA) : DLLCALCINFO :=
  ⟨YDDLL_HEADTAG, label, 1, params.length, params.map some, [0]⟩

/-- A request of the stock `600000` with the three parameters `1`, `2`, `3`. -/
def threeParamRequest : DLLCALCINFO :=
  requestOf (lit "600000") [numberParam 1, numberParam 2, numberParam 3]

/-- A cancel request of the stock `600000`: cancel type `1` (buy), scope `1` (this stock). -/
def cancelRequest : DLLCALCINFO :=
  requestOf (lit "600000") [numberParam 1, numberParam 1, numberParam 0, numberParam 0]

/-- A trade request of the stock `600000`: price `10`, quantity `100`, order type `1`. -/
def tradeRequest : DLLCALCINFO :=
  requestOf (lit "600000") [numberParam 10, numberParam 100, numberParam 1, numberParam 0]

/-- The request of the stock `600000` with the block index `index` as its parameter. -/
def blockRequest (index : Int) : DLLCALCINFO :=
  requestOf (lit "600000") [numberParam index]

/-- The last slot of the result buffer after a call, when there is a request. -/
def Call.result (c : Call) : Option Nat :=
  match c.pData with
  | some d => d.m_pResultBuf.getLast?
  | none => none

/-! ## Facts about the table -/

theorem keyLt_irrefl (a : Bytes) : keyLt a a = false := by
  induction a with
  | nil => rfl
  | cons x xs ih => simp [keyLt, ih]

theorem Store.get_put_same (s : Store) (k v : Bytes) : (s.put k v).get k = some v := by
  induction s with
  | nil => simp [Store.put, Store.get]
  | cons e rest ih =>
    obtain ⟨k', v'⟩ := e
    unfold Store.put
    by_cases h1 : keyLt k' k = true
    · have hne : k' ≠ k := by
        intro h; subst h
        rw [keyLt_irrefl] at h1; cases h1
      simp [h1, Store.get, hne, ih]
    · by_cases h2 : k' = k
      · subst h2
        simp [keyLt_irrefl, Store.get]
      · simp [h1, h2, Store.get]

/-! ## Facts about the executors -/

/-- A write transaction that reports success ran its unit of work on the
committed table and installed the table the unit of work left. -/
theorem ExecuteWriteTransaction_success {α : Type} (c : LMDBClient) (fl : EngineFaults)
    (out : α) (func : MDB_txn → Work α)
    (h : (c.ExecuteWriteTransaction fl out func).result = true) :
    ∃ env txn o, c.env_ = some env ∧ c.initialized_ = true ∧ c.read_only_ = false ∧
      env.rdonly = false ∧
      func ⟨env.data, false, fl.ops⟩ = .returned true txn o ∧
      c.ExecuteWriteTransaction fl out func
        = ⟨true, { c with env_ := some ⟨txn.data, env.rdonly, env.txns + 1⟩ }, o⟩ := by
  obtain ⟨env_, dbi_, initialized_, read_only_⟩ := c
  obtain ⟨fb, fops, fc⟩ := fl
  cases read_only_ <;> cases initialized_ <;>
    simp only [LMDBClient.ExecuteWriteTransaction] at h ⊢ <;> try (simp at h; done)
  cases env_ with
  | none => simp at h
  | some env =>
    obtain ⟨data, rdonly, txns⟩ := env
    cases fb <;> cases rdonly <;>
      simp [mdb_txn_begin, ENOMEM, EACCES, MDB_SUCCESS] at h ⊢
    cases hf : func ⟨data, false, fops⟩ with
    | threw o => simp [hf] at h
    | returned success txn o =>
      cases success <;> cases fc <;>
        simp [hf, mdb_txn_commit, mdb_txn_abort, ENOMEM, MDB_SUCCESS] at h ⊢

/-- A write transaction that reports failure leaves the committed table as it was. -/
theorem ExecuteWriteTransaction_failure {α : Type} (c : LMDBClient) (fl : EngineFaults)
    (out : α) (func : MDB_txn → Work α)
    (h : (c.ExecuteWriteTransaction fl out func).result = false) :
    (c.ExecuteWriteTransaction fl out func).self.contents = c.contents := by
  obtain ⟨env_, dbi_, initialized_, read_only_⟩ := c
  obtain ⟨fb, fops, fc⟩ := fl
  cases read_only_ <;> cases initialized_ <;>
    simp only [LMDBClient.ExecuteWriteTransaction] at h ⊢ <;> try (simp; done)
  cases env_ with
  | none => simp
  | some env =>
    obtain ⟨data, rdonly, txns⟩ := env
    cases fb <;> cases rdonly <;>
      simp [mdb_txn_begin, ENOMEM, EACCES, MDB_SUCCESS, LMDBClient.contents] at h ⊢
    cases hf : func ⟨data, false, fops⟩ with
    | threw o => simp [hf, mdb_txn_abort]
    | returned success txn o =>
      cases success <;> cases fc <;>
        simp [hf, mdb_txn_commit, mdb_txn_abort, ENOMEM, MDB_SUCCESS] at h ⊢

/-- A read transaction never changes the committed table. -/
theorem ExecuteReadTransaction_contents {α : Type} (c : LMDBClient) (fl : EngineFaults)
    (out : α) (func : MDB_txn → Work α) :
    (c.ExecuteReadTransaction fl out func).self.contents = c.contents := by
  obtain ⟨env_, dbi_, initialized_, read_only_⟩ := c
  obtain ⟨fb, fops, fc⟩ := fl
  cases initialized_ <;>
    simp only [LMDBClient.ExecuteReadTransaction] <;> try (simp; done)
  cases env_ with
  | none => simp
  | some env =>
    obtain ⟨data, rdonly, txns⟩ := env
    cases fb <;>
      simp [mdb_txn_begin, ENOMEM, EACCES, MDB_SUCCESS, LMDBClient.contents]
    cases hf : func ⟨data, true, fops⟩ <;> simp [mdb_txn_abort]

/-- On an initialized handle and an engine that is not forced to fail, a read
transaction runs its unit of work on the committed table. -/
theorem ExecuteReadTransaction_noFaults {α : Type} (c : LMDBClient) (env : MDB_env)
    (out : α) (func : MDB_txn → Work α)
    (hin : c.initialized_ = true) (henv : c.env_ = some env) :
    c.ExecuteReadTransaction noFaults out func =
      match func ⟨env.data, true, []⟩ with
      | .returned success _ o => ⟨success, { c with env_ := some { env with txns := env.txns + 1 } }, o⟩
      | .threw o => ⟨false, { c with env_ := some { env with txns := env.txns + 1 } }, o⟩ := by
  obtain ⟨env_, dbi_, initialized_, read_only_⟩ := c
  simp only at hin henv
  subst hin henv
  simp [LMDBClient.ExecuteReadTransaction, mdb_txn_begin, noFaults, MDB_SUCCESS, mdb_txn_abort]

/-! ## Facts about the engine calls -/

theorem mdb_put_success (txn : MDB_txn) (dbi : Nat) (key data : Bytes)
    (h : (mdb_put txn dbi key data).1 = MDB_SUCCESS) :
    dbi = MAIN_DBI ∧ key ≠ [] ∧
      (mdb_put txn dbi key data).2 = { txn.next with data := txn.data.put key data } := by
  unfold mdb_put at h ⊢
  repeat' split at h
  all_goals simp_all [ENOMEM, EINVAL, EACCES, MDB_BAD_VALSIZE, MDB_SUCCESS]
  rw [if_neg (by omega), if_neg (by omega)]

/-- With no failure forced, `mdb_get` on the main table finds exactly what the
transaction's view holds under a non-empty key. -/
theorem mdb_get_noFault (data : Store) (ro : Bool) (key : Bytes) (hk : key ≠ []) :
    mdb_get ⟨data, ro, []⟩ MAIN_DBI key =
      match data.get key with
      | some v => ⟨MDB_SUCCESS, v, ⟨data, ro, []⟩⟩
      | none => ⟨MDB_NOTFOUND, [], ⟨data, ro, []⟩⟩ := by
  simp [mdb_get, MDB_txn.fault, MDB_txn.next, hk]

/-! ## Round trip of `Put` and `Get` -/

/-- What a successful `Put` leaves behind. -/
theorem Put_success (c : LMDBClient) (fl : EngineFaults) (k v : Bytes)
    (h : (c.Put fl k v).result = true) :
    ∃ env, c.env_ = some env ∧ c.initialized_ = true ∧ c.dbi_ = MAIN_DBI ∧ k ≠ [] ∧
      (c.Put fl k v).self = { c with env_ := some ⟨env.data.put k v, env.rdonly, env.txns + 1⟩ } := by
  unfold LMDBClient.Put at h ⊢
  obtain ⟨env, txn, o, henv, hin, _, _, hf, heq⟩ := ExecuteWriteTransaction_success c fl () _ h
  simp only [Work.returned.injEq, decide_eq_true_eq] at hf
  obtain ⟨hrc, htxn, _⟩ := hf
  obtain ⟨hdbi, hk, hput⟩ := mdb_put_success _ _ _ _ hrc
  refine ⟨env, henv, hin, hdbi, hk, ?_⟩
  rw [heq, ← htxn, hput]

/-- A `Get` into a non-null output on an initialized handle, engine not forced to fail. -/
theorem Get_noFaults (c : LMDBClient) (env : MDB_env) (k out : Bytes)
    (hin : c.initialized_ = true) (henv : c.env_ = some env) (hdbi : c.dbi_ = MAIN_DBI)
    (hk : k ≠ []) :
    c.Get noFaults k (some out) =
      match env.data.get k with
      | some v => ⟨true, { c with env_ := some { env with txns := env.txns + 1 } }, some v⟩
      | none => ⟨false, { c with env_ := some { env with txns := env.txns + 1 } }, some out⟩ := by
  unfold LMDBClient.Get
  rw [ExecuteReadTransaction_noFaults c env _ _ hin henv, hdbi, mdb_get_noFault _ _ _ hk]
  cases env.data.get k <;> simp [MDB_SUCCESS, MDB_NOTFOUND]

/-- Claim C1. A `Put(k, v)` that reports success, followed by `Get(k, &out)` on an
engine that is not forced to fail, reports success and leaves `out` equal to
`v`: the same bytes and the same length.  (A successful `Put` already implies
that the handle is initialized and writable.) -/
theorem put_get_roundtrip (c : LMDBClient) (fl : EngineFaults) (k v out : Bytes)
    (hput : (c.Put fl k v).result = true) :
    ((c.Put fl k v).self.Get noFaults k (some out)).result = true ∧
      ((c.Put fl k v).self.Get noFaults k (some out)).out = some v := by
  obtain ⟨env, henv, hin, hdbi, hk, hself⟩ := Put_success c fl k v hput
  have hg := Get_noFaults (c.Put fl k v).self ⟨env.data.put k v, env.rdonly, env.txns + 1⟩ k out
    (by rw [hself]; exact hin) (by rw [hself]) (by rw [hself]; exact hdbi) hk
  rw [hg]
  simp [Store.get_put_same]

theorem put_get_roundtrip_witness :
    ((clientOn []).Put noFaults (bytesOf [107]) (bytesOf [1, 2])).result = true ∧
      (((clientOn []).Put noFaults (bytesOf [107]) (bytesOf [1, 2])).self.Get noFaults
        (bytesOf [107]) (some [])).out = some (bytesOf [1, 2]) :=
  ⟨by decide, (put_get_roundtrip (clientOn []) noFaults (bytesOf [107]) (bytesOf [1, 2]) []
    (by decide)).2⟩

/-! ## Atomicity of `WriteBatch` -/

theorem WriteBatch_puts_append (dbi : Nat) (txn : MDB_txn) (done rest : List (Bytes × Bytes)) :
    WriteBatch_puts dbi txn (done ++ rest) =
      if (WriteBatch_puts dbi txn done).1 = true then
        WriteBatch_puts dbi (WriteBatch_puts dbi txn done).2 rest
      else WriteBatch_puts dbi txn done := by
  induction done generalizing txn with
  | nil => simp [WriteBatch_puts]
  | cons e done ih =>
    obtain ⟨k, v⟩ := e
    simp only [List.cons_append, WriteBatch_puts]
    by_cases h : (mdb_put txn dbi k v).1 = MDB_SUCCESS
    · simp [h, ih]
    · simp [h]

theorem WriteBatch_deletes_append (dbi : Nat) (txn : MDB_txn) (done rest : List Bytes) :
    WriteBatch_deletes dbi txn (done ++ rest) =
      if (WriteBatch_deletes dbi txn done).1 = true then
        WriteBatch_deletes dbi (WriteBatch_deletes dbi txn done).2 rest
      else WriteBatch_deletes dbi txn done := by
  induction done generalizing txn with
  | nil => simp [WriteBatch_deletes]
  | cons k done ih =>
    simp only [List.cons_append, WriteBatch_deletes]
    by_cases h : (mdb_del txn dbi k).1 = MDB_SUCCESS
    · simp [h, ih]
    · simp [h]

/-- The unit of work of `WriteBatch` returns `false` as soon as one of its
engine calls fails. -/
theorem WriteBatch_func_fails (dbi : Nat) (txn : MDB_txn) (puts : List (Bytes × Bytes))
    (deletes : List Bytes) (h : BatchOpFails dbi txn puts deletes) :
    (WriteBatch_func dbi puts deletes txn).1 = false := by
  unfold WriteBatch_func
  rcases h with ⟨done, k, v, rest, hp, hd, hf⟩ | ⟨hp, done, k, rest, hq, hd, hf⟩
  · have : (WriteBatch_puts dbi txn puts).1 = false := by
      rw [hp, WriteBatch_puts_append, if_pos hd]
      simp [WriteBatch_puts, hf]
    simp [this]
  · simp only [hp, if_true]
    rw [hq, WriteBatch_deletes_append, if_pos hd]
    simp [WriteBatch_deletes, hf]

/-- A `WriteBatch` that returns `false` leaves the committed table as it was. -/
theorem WriteBatch_failure_contents (c : LMDBClient) (fl : EngineFaults)
    (puts : List (Bytes × Bytes)) (deletes : List Bytes)
    (h : (c.WriteBatch fl puts deletes).result = false) :
    (c.WriteBatch fl puts deletes).self.contents = c.contents :=
  ExecuteWriteTransaction_failure c fl () _ h

/-- A write transaction whose unit of work returns `false` reports failure. -/
theorem ExecuteWriteTransaction_work_false {α : Type} (c : LMDBClient) (fl : EngineFaults)
    (out : α) (func : MDB_txn → Work α)
    (h : ∀ env, c.env_ = some env → ∃ txn o, func ⟨env.data, false, fl.ops⟩ = .returned false txn o) :
    (c.ExecuteWriteTransaction fl out func).result = false := by
  cases hres : (c.ExecuteWriteTransaction fl out func).result with
  | false => rfl
  | true =>
    obtain ⟨env, txn, o, henv, _, _, _, hf, _⟩ := ExecuteWriteTransaction_success c fl out func hres
    obtain ⟨txn', o', hf'⟩ := h env henv
    rw [hf] at hf'
    cases hf'

/-- Claim C2. `WriteBatch` is all-or-nothing.  For every handle state `c`, every
forced-failure schedule `fl` and every list of puts and deletes: if one of the
engine-level `mdb_put` / `mdb_del` calls of the batch fails (`BatchOpFails`,
on the transaction begun over the committed table), `WriteBatch` returns
`false` and the committed table is exactly what it was before the call. -/
theorem WriteBatch_all_or_nothing (c : LMDBClient) (fl : EngineFaults)
    (puts : List (Bytes × Bytes)) (deletes : List Bytes)
    (hfail : BatchOpFails c.dbi_ ⟨c.contents, false, fl.ops⟩ puts deletes) :
    (c.WriteBatch fl puts deletes).result = false ∧
      (c.WriteBatch fl puts deletes).self.contents = c.contents := by
  have hres : (c.WriteBatch fl puts deletes).result = false := by
    unfold LMDBClient.WriteBatch
    apply ExecuteWriteTransaction_work_false
    intro env henv
    have hc : c.contents = env.data := by simp [LMDBClient.contents, henv]
    rw [hc] at hfail
    have := WriteBatch_func_fails _ _ _ _ hfail
    exact ⟨(WriteBatch_func c.dbi_ puts deletes ⟨env.data, false, fl.ops⟩).2, (),
      by simp [this]⟩
  exact ⟨hres, WriteBatch_failure_contents c fl puts deletes hres⟩

theorem WriteBatch_all_or_nothing_witness :
    BatchOpFails MAIN_DBI ⟨[(bytesOf [99], bytesOf [3])], false, [false, true]⟩
        [(bytesOf [97], bytesOf [1]), (bytesOf [98], bytesOf [2])] [bytesOf [99]] ∧
      ((clientOn [(bytesOf [99], bytesOf [3])]).WriteBatch ⟨false, [false, true], false⟩
        [(bytesOf [97], bytesOf [1]), (bytesOf [98], bytesOf [2])] [bytesOf [99]]).result = false ∧
      ((clientOn [(bytesOf [99], bytesOf [3])]).WriteBatch ⟨false, [false, true], false⟩
        [(bytesOf [97], bytesOf [1]), (bytesOf [98], bytesOf [2])] [bytesOf [99]]).self.contents
        = [(bytesOf [99], bytesOf [3])] :=
  have h : BatchOpFails MAIN_DBI ⟨[(bytesOf [99], bytesOf [3])], false, [false, true]⟩
      [(bytesOf [97], bytesOf [1]), (bytesOf [98], bytesOf [2])] [bytesOf [99]] :=
    Or.inl ⟨[(bytesOf [97], bytesOf [1])], bytesOf [98], bytesOf [2], [], rfl, by decide,
      by decide⟩
  ⟨h, WriteBatch_all_or_nothing (clientOn [(bytesOf [99], bytesOf [3])])
    ⟨false, [false, true], false⟩ _ _ h⟩

/-! ## Key order and prefixes -/

theorem startsWith_nil (k : Bytes) : startsWith k [] = true := by
  simp [startsWith]

theorem startsWith_nil_cons (a : Byte) (p : Bytes) : startsWith [] (a :: p) = false := by
  simp [startsWith]

theorem startsWith_cons_cons (b a : Byte) (k p : Bytes) :
    startsWith (b :: k) (a :: p) = (decide (b = a) && startsWith k p) := by
  simp [startsWith]

/-- A key that starts with `p` is not below `p`. -/
theorem keyLt_of_startsWith (k p : Bytes) (h : startsWith k p = true) : keyLt k p = false := by
  induction p generalizing k with
  | nil => cases k <;> rfl
  | cons a p ih =>
    cases k with
    | nil => simp [startsWith_nil_cons] at h
    | cons b k =>
      rw [startsWith_cons_cons] at h
      simp only [Bool.and_eq_true, decide_eq_true_eq] at h
      obtain ⟨hba, hkp⟩ := h
      subst hba
      simp [keyLt, ih k hkp]

/-- Once a key at or above `p` fails to start with `p`, no larger key starts with `p`. -/
theorem startsWith_false_of_keyLt (p k y : Bytes) (hkp : keyLt k p = false)
    (hk : startsWith k p = false) (hky : keyLt k y = true) : startsWith y p = false := by
  induction p generalizing k y with
  | nil => simp [startsWith_nil] at hk
  | cons a p ih =>
    cases k with
    | nil => simp [keyLt] at hkp
    | cons b k =>
      cases y with
      | nil => simp [keyLt] at hky
      | cons c y =>
        rw [startsWith_cons_cons] at hk ⊢
        simp only [keyLt, Bool.or_eq_false_iff, Bool.and_eq_false_iff, decide_eq_false_iff_not,
          Bool.or_eq_true, Bool.and_eq_true, decide_eq_true_eq] at hkp hky hk ⊢
        obtain ⟨hba, hkp'⟩ := hkp
        by_cases hca : c = a
        · subst hca
          right
          rcases hky with hbc | ⟨hbc, hky'⟩
          · exact absurd hbc hba
          · subst hbc
            rcases hkp' with h | h
            · exact absurd rfl h
            · rcases hk with h' | h'
              · exact absurd rfl h'
              · exact ih k y h h' hky'
        · left; exact hca

theorem keyLt_trans (a b c : Bytes) (hab : keyLt a b = true) (hbc : keyLt b c = true) :
    keyLt a c = true := by
  induction a generalizing b c with
  | nil =>
    cases c with
    | nil => cases b <;> simp [keyLt] at hbc
    | cons z c => rfl
  | cons x a ih =>
    cases b with
    | nil => simp [keyLt] at hab
    | cons y b =>
      cases c with
      | nil => simp [keyLt] at hbc
      | cons z c =>
        simp only [keyLt, Bool.or_eq_true, Bool.and_eq_true, decide_eq_true_eq] at hab hbc ⊢
        rcases hab with h1 | ⟨h1, h1'⟩
        · rcases hbc with h2 | ⟨h2, _⟩
          · left; exact lt_trans h1 h2
          · left; rw [← h2]; exact h1
        · rcases hbc with h2 | ⟨h2, h2'⟩
          · left; rw [h1]; exact h2
          · right; exact ⟨h1.trans h2, ih b c h1' h2'⟩

/-- In an ascending list of keys that are all at or above `p`, the keys that
start with `p` are the leading run. -/
theorem takeWhile_eq_filter_of_ge (p : Bytes) (l : List Bytes)
    (hs : l.Pairwise (fun a b => keyLt a b = true)) (hge : ∀ x ∈ l, keyLt x p = false) :
    l.takeWhile (fun k => startsWith k p) = l.filter (fun k => startsWith k p) := by
  induction l with
  | nil => rfl
  | cons x xs ih =>
    rw [List.pairwise_cons] at hs
    have ih' := ih hs.2 (fun y hy => hge y (List.mem_cons_of_mem _ hy))
    by_cases hx : startsWith x p = true
    · simp [List.takeWhile, List.filter, hx, ih']
    · simp only [Bool.not_eq_true] at hx
      have hnone : xs.filter (fun k => startsWith k p) = [] := by
        rw [List.filter_eq_nil_iff]
        intro y hy
        simp [startsWith_false_of_keyLt p x y (hge x (List.mem_cons_self _ _)) hx (hs.1 y hy)]
      simp [List.takeWhile, List.filter, hx, hnone]

theorem Store.lowerBound_le (s : Store) (p : Bytes) : s.lowerBound p ≤ s.length := by
  induction s with
  | nil => simp [Store.lowerBound]
  | cons e rest ih =>
    obtain ⟨k, v⟩ := e
    unfold Store.lowerBound
    split
    · simp; omega
    · simp

/-- The scan of `GetKeys`: from the first key at or above `p`, the leading run of
keys that start with `p` is the set of all keys that start with `p`. -/
theorem takeWhile_drop_lowerBound (p : Bytes) (s : Store) (hs : s.Sorted) :
    ((s.keys).drop (s.lowerBound p)).takeWhile (fun k => startsWith k p)
      = s.keys.filter (fun k => startsWith k p) := by
  induction s with
  | nil => rfl
  | cons e rest ih =>
    obtain ⟨k, v⟩ := e
    have hs' : Store.Sorted rest := (List.pairwise_cons.mp hs).2
    by_cases hk : keyLt k p = true
    · have hnot : startsWith k p = false := by
        cases h : startsWith k p with
        | false => rfl
        | true => rw [keyLt_of_startsWith k p h] at hk; cases hk
      simp only [Store.lowerBound, hk, if_true, Store.keys, List.map_cons, List.drop_succ_cons,
        List.filter_cons, hnot]
      exact ih hs'
    · simp only [Bool.not_eq_true] at hk
      simp only [Store.lowerBound, hk, Bool.false_eq_true, if_false, List.drop_zero]
      apply takeWhile_eq_filter_of_ge
      · exact (List.pairwise_map.mpr hs)
      · intro x hx
        simp only [Store.keys, List.map_cons, List.mem_cons] at hx
        rcases hx with rfl | hx
        · exact hk
        · obtain ⟨e, he, rfl⟩ := List.mem_map.mp hx
          have hlt : keyLt k e.1 = true := (List.pairwise_cons.mp hs).1 e he
          cases h : keyLt e.1 p with
          | false => rfl
          | true =>
            have := keyLt_trans k e.1 p hlt h
            rw [hk] at this; cases this

/-! ## The engine calls keep the key order -/

theorem keyLt_total (a b : Bytes) (h : keyLt a b = false) (hne : a ≠ b) : keyLt b a = true := by
  induction a generalizing b with
  | nil =>
    cases b with
    | nil => exact absurd rfl hne
    | cons y b => simp [keyLt] at h
  | cons x a ih =>
    cases b with
    | nil => rfl
    | cons y b =>
      simp only [keyLt, Bool.or_eq_false_iff, Bool.and_eq_false_iff, decide_eq_false_iff_not,
        Bool.or_eq_true, Bool.and_eq_true, decide_eq_true_eq] at h ⊢
      obtain ⟨hxy, h2⟩ := h
      by_cases hyx : y = x
      · subst hyx
        right
        refine ⟨rfl, ih b ?_ ?_⟩
        · rcases h2 with h2 | h2
          · exact absurd rfl h2
          · exact h2
        · intro hab; exact hne (by rw [hab])
      · left
        exact lt_of_le_of_ne (not_lt.mp hxy) hyx

theorem Store.mem_put (s : Store) (k v : Bytes) (e : Bytes × Bytes) (he : e ∈ s.put k v) :
    e = (k, v) ∨ e ∈ s := by
  induction s with
  | nil => simpa [Store.put] using he
  | cons x rest ih =>
    obtain ⟨k', v'⟩ := x
    unfold Store.put at he
    split at he
    · rcases List.mem_cons.mp he with h | h
      · right; rw [h]; exact List.mem_cons_self _ _
      · rcases ih h with h | h
        · left; exact h
        · right; exact List.mem_cons_of_mem _ h
    · split at he
      · rcases List.mem_cons.mp he with h | h
        · left; exact h
        · right; exact List.mem_cons_of_mem _ h
      · rcases List.mem_cons.mp he with h | h
        · left; exact h
        · right; exact h

/-- The engine's `mdb_put` keeps the table in ascending key order. -/
theorem Store.put_sorted (s : Store) (k v : Bytes) (hs : s.Sorted) : (s.put k v).Sorted := by
  induction s with
  | nil => simp [Store.put, Store.Sorted]
  | cons x rest ih =>
    obtain ⟨k', v'⟩ := x
    have hs2 := List.pairwise_cons.mp hs
    unfold Store.put
    split
    · rename_i hlt
      refine List.pairwise_cons.mpr ⟨?_, ih hs2.2⟩
      intro e he
      rcases Store.mem_put rest k v e he with h | h
      · rw [h]; exact hlt
      · exact hs2.1 e h
    · rename_i hnlt
      split
      · rename_i heq
        subst heq
        exact List.pairwise_cons.mpr ⟨hs2.1, hs2.2⟩
      · rename_i hne
        have hkk : keyLt k k' = true :=
          keyLt_total k' k (by simpa using hnlt) hne
        refine List.pairwise_cons.mpr ⟨?_, hs⟩
        intro e he
        rcases List.mem_cons.mp he with h | h
        · rw [h]; exact hkk
        · exact keyLt_trans k k' e.1 hkk (hs2.1 e h)

theorem Store.del_sublist (s : Store) (k : Bytes) : List.Sublist (s.del k) s := by
  induction s with
  | nil => exact List.Sublist.slnil
  | cons x rest ih =>
    obtain ⟨k', v'⟩ := x
    unfold Store.del
    split
    · exact List.sublist_cons_self _ _
    · exact ih.cons₂ _

/-- The engine's `mdb_del` keeps the table in ascending key order. -/
theorem Store.del_sorted (s : Store) (k : Bytes) (hs : s.Sorted) : (s.del k).Sorted :=
  List.Pairwise.sublist (Store.del_sublist s k) hs

/-! ## Facts about `GetKeys` -/

theorem drop_of_getElem? {α : Type} (l : List α) (i : Nat) (a : α) (h : l[i]? = some a) :
    l.drop i = a :: l.drop (i + 1) := by
  induction l generalizing i with
  | nil => simp at h
  | cons x xs ih =>
    cases i with
    | zero => simp at h; simp [h]
    | succ i => simp at h; simpa using ih i h

/-- The scan loop of `GetKeys`, with no failure forced: entered on entry `i`, it
appends the leading run of keys from `i` on that start with `pfx`. -/
theorem GetKeys_loop_spec (pfx : Bytes) (data : Store) (ro : Bool) :
    ∀ (n i : Nat) (e : Bytes × Bytes) (acc : List Bytes), data.length - i = n →
      data[i]? = some e →
      (GetKeys_loop pfx ⟨data, ro, []⟩ ⟨some i⟩ e.1 acc).1 =
        acc ++ (data.keys.drop i).takeWhile (fun k => startsWith k pfx) := by
  intro n
  induction n with
  | zero =>
    intro i e acc hn hi
    have : i < data.length := by
      rcases Nat.lt_or_ge i data.length with h | h
      · exact h
      · rw [List.getElem?_eq_none h] at hi; cases hi
    omega
  | succ n ih =>
    intro i e acc hn hi
    have hkeys : data.keys[i]? = some e.1 := by simp [Store.keys, hi]
    have hdrop := drop_of_getElem? data.keys i e.1 hkeys
    rw [GetKeys_loop, hdrop]
    by_cases hstop : pfx ≠ [] ∧ startsWith e.1 pfx = false
    · simp [hstop, List.takeWhile]
    · have hsw : startsWith e.1 pfx = true := by
        by_cases hp : pfx = []
        · rw [hp]; exact startsWith_nil _
        · cases h : startsWith e.1 pfx with
          | true => rfl
          | false => exact absurd ⟨hp, h⟩ hstop
      rw [if_neg hstop]
      simp only [mdb_cursor_get, MDB_txn.fault, List.headD_nil, Bool.false_eq_true, if_false,
        cursorSeek, cursorAt, MDB_txn.next, List.tail_nil, List.takeWhile, hsw]
      cases hnext : data[i + 1]? with
      | none =>
        have hlen : data.keys.length ≤ i + 1 := by
          rcases Nat.lt_or_ge (i + 1) data.length with h | h
          · rw [List.getElem?_eq_getElem h] at hnext; cases hnext
          · simpa [Store.keys] using h
        simp [hnext, MDB_NOTFOUND, MDB_SUCCESS, List.drop_eq_nil_of_le hlen]
      | some e' =>
        simp only [List.get?_eq_getElem?, hnext, dite_true]
        rw [ih (i + 1) e' (acc ++ [e.1]) (by omega) hnext]
        simp

theorem Store.keys_pairwise (s : Store) (hs : s.Sorted) :
    s.keys.Pairwise (fun a b => keyLt a b = true) := by
  unfold Store.keys
  exact List.pairwise_map.mpr hs

theorem Store.lowerBound_nil (s : Store) : s.lowerBound [] = 0 := by
  cases s with
  | nil => rfl
  | cons e rest => obtain ⟨k, v⟩ := e; cases k <;> simp [Store.lowerBound, keyLt]

/-- The unit of work of `GetKeys`, with no failure forced, returns the leading
run of matching keys found from the first key at or above `pfx`. -/
theorem GetKeys_func_noFault (pfx : Bytes) (data : Store) (ro : Bool) :
    ∃ txn, GetKeys_func MAIN_DBI pfx [] ⟨data, ro, []⟩ =
      .returned true txn
        ((data.keys.drop (data.lowerBound pfx)).takeWhile (fun k => startsWith k pfx)) := by
  unfold GetKeys_func
  simp only [mdb_cursor_open, mdb_cursor_get, MDB_txn.fault, List.headD_nil, Bool.false_eq_true,
    if_false, MDB_txn.next, List.tail_nil, ne_eq, not_true_eq_false, cursorSeek]
  by_cases hp : pfx = []
  · subst hp
    simp only [not_true_eq_false, if_false, Store.lowerBound_nil, List.drop_zero, cursorAt]
    cases h0 : data[0]? with
    | none =>
      have : data = [] := by
        cases data with
        | nil => rfl
        | cons e r => simp at h0
      subst this
      exact ⟨⟨[], ro, []⟩, by simp [MDB_NOTFOUND, MDB_SUCCESS, Store.keys]⟩
    | some e =>
      refine ⟨(GetKeys_loop [] ⟨data, ro, []⟩ ⟨some 0⟩ e.1 []).2, ?_⟩
      simp only [List.get?_eq_getElem?, h0, MDB_SUCCESS, not_true_eq_false, if_false]
      have := GetKeys_loop_spec [] data ro (data.length - 0) 0 e [] rfl h0
      rw [List.nil_append, List.drop_zero] at this
      rw [← this]
  · have hlen : pfx.length ≠ 0 := by
      intro h; exact hp (List.length_eq_zero.mp h)
    simp only [hp, not_false_eq_true, if_true, hlen, if_false, cursorAt]
    cases hi : data[data.lowerBound pfx]? with
    | none =>
      have hle : data.keys.length ≤ data.lowerBound pfx := by
        rcases Nat.lt_or_ge (data.lowerBound pfx) data.length with h | h
        · rw [List.getElem?_eq_getElem h] at hi; cases hi
        · simpa [Store.keys] using h
      exact ⟨⟨data, ro, []⟩,
        by simp [hi, MDB_NOTFOUND, MDB_SUCCESS, List.drop_eq_nil_of_le hle]⟩
    | some e =>
      refine ⟨(GetKeys_loop pfx ⟨data, ro, []⟩ ⟨some (data.lowerBound pfx)⟩ e.1 []).2, ?_⟩
      simp only [List.get?_eq_getElem?, hi, MDB_SUCCESS, not_true_eq_false, if_false]
      have := GetKeys_loop_spec pfx data ro (data.length - data.lowerBound pfx)
        (data.lowerBound pfx) e [] rfl hi
      rw [List.nil_append] at this
      rw [← this]

/-- Claim C3. On an initialized handle over an ascending table, with no engine
failure forced, `GetKeys(pfx)` returns exactly the stored keys that start with
`pfx` (all keys for the empty `pfx`), in table order; the result is strictly
ascending in byte order, so every key occurs once. -/
theorem GetKeys_exact (c : LMDBClient) (pfx : Bytes) (hready : c.Ready)
    (hsorted : c.contents.Sorted) :
    (c.GetKeys noFaults pfx).1 = c.contents.keys.filter (fun k => startsWith k pfx) ∧
      (c.GetKeys noFaults pfx).1.Pairwise (fun a b => keyLt a b = true) := by
  obtain ⟨hin, hdbi, env, henv, _⟩ := hready
  have hc : c.contents = env.data := by simp [LMDBClient.contents, henv]
  rw [hc] at hsorted ⊢
  have hres : (c.GetKeys noFaults pfx).1 = env.data.keys.filter (fun k => startsWith k pfx) := by
    unfold LMDBClient.GetKeys
    simp only
    rw [ExecuteReadTransaction_noFaults c env _ _ hin henv, hdbi]
    obtain ⟨txn, hf⟩ := GetKeys_func_noFault pfx env.data true
    rw [hf]
    exact takeWhile_drop_lowerBound pfx env.data hsorted
  refine ⟨hres, ?_⟩
  rw [hres]
  exact (Store.keys_pairwise _ hsorted).filter _

theorem GetKeys_exact_witness :
    (clientOn userStore).Ready ∧ (clientOn userStore).contents.Sorted ∧
      ((clientOn userStore).GetKeys noFaults pfx_user).1 = [key_user1, key_user2] :=
  have hr : (clientOn userStore).Ready := ⟨rfl, rfl, _, rfl, rfl⟩
  have hs : (clientOn userStore).contents.Sorted := by
    unfold Store.Sorted; decide
  ⟨hr, hs, (GetKeys_exact (clientOn userStore) pfx_user hr hs).1.trans (by decide)⟩

/-! ## Facts about `DeleteKeys` -/

/-- On a writable handle and an engine that is not forced to fail, a write
transaction runs its unit of work on the committed table and commits what it
leaves when it returns `true`. -/
theorem ExecuteWriteTransaction_noFaults {α : Type} (c : LMDBClient) (env : MDB_env)
    (out : α) (func : MDB_txn → Work α)
    (hin : c.initialized_ = true) (hro : c.read_only_ = false) (henv : c.env_ = some env)
    (herd : env.rdonly = false) :
    c.ExecuteWriteTransaction noFaults out func =
      match func ⟨env.data, false, []⟩ with
      | .returned true txn o =>
        ⟨true, { c with env_ := some { env with data := txn.data, txns := env.txns + 1 } }, o⟩
      | .returned false _ o =>
        ⟨false, { c with env_ := some { env with txns := env.txns + 1 } }, o⟩
      | .threw o => ⟨false, { c with env_ := some { env with txns := env.txns + 1 } }, o⟩ := by
  obtain ⟨env_, dbi_, initialized_, read_only_⟩ := c
  obtain ⟨data, rdonly, txns⟩ := env
  simp only at hin hro henv herd
  subst hin hro henv herd
  simp only [LMDBClient.ExecuteWriteTransaction, mdb_txn_begin, noFaults, MDB_SUCCESS,
    mdb_txn_abort, mdb_txn_commit]
  cases hf : func ⟨data, false, []⟩ with
  | threw o => simp [hf]
  | returned success txn o => cases success <;> simp [hf]

theorem DeleteKeys_loop_exit (pfx : Bytes) (txn : MDB_txn) (cur : MDB_cursor) (rc : Int)
    (key : Bytes) (h : rc ≠ MDB_SUCCESS) : DeleteKeys_loop pfx txn cur rc key = (true, txn) := by
  rw [DeleteKeys_loop]
  simp [h]

/-- The deletion loop of `DeleteKeys`, with no failure forced: entered on entry
`i`, it removes the leading run of entries from `i` on whose key starts with
`pfx` and returns `true`. -/
theorem DeleteKeys_loop_spec (pfx : Bytes) :
    ∀ (n : Nat) (data : Store) (i : Nat) (e : Bytes × Bytes), data.length = n →
      data[i]? = some e →
      DeleteKeys_loop pfx ⟨data, false, []⟩ ⟨some i⟩ MDB_SUCCESS e.1 =
        (true, ⟨data.take i ++ (data.drop i).dropWhile (fun x => startsWith x.1 pfx),
          false, []⟩) := by
  intro n
  induction n with
  | zero =>
    intro data i e hn hi
    have : data = [] := List.length_eq_zero.mp hn
    subst this
    simp at hi
  | succ n ih =>
    intro data i e hn hi
    have hlt : i < data.length := by
      rcases Nat.lt_or_ge i data.length with h | h
      · exact h
      · rw [List.getElem?_eq_none h] at hi; cases hi
    have hdrop := drop_of_getElem? data i e hi
    rw [DeleteKeys_loop, hdrop]
    by_cases hsw : startsWith e.1 pfx = true
    · have herase : data.eraseIdx i = data.take i ++ data.drop (i + 1) :=
        List.eraseIdx_eq_take_drop_succ data i
      have hlen' : (data.eraseIdx i).length = n := by
        rw [List.length_eraseIdx]; simp [hlt]; omega
      have htake : (data.eraseIdx i).take i = data.take i := by
        rw [herase, List.take_append_of_le_length (by simp; omega)]
        simp [List.take_take]
      have hdrop' : (data.eraseIdx i).drop i = data.drop (i + 1) := by
        rw [herase, List.drop_append_of_le_length (by simp; omega)]
        rw [List.drop_eq_nil_of_le (by simp)]
        simp
      simp only [hsw, Bool.true_eq_false, if_false, if_true, mdb_cursor_del, MDB_txn.fault,
        List.headD_nil, Bool.false_eq_true, hlt, MDB_txn.next, List.tail_nil, dite_true,
        mdb_cursor_get, cursorSeek, cursorAt, List.dropWhile]
      cases hnext : (data.eraseIdx i)[i]? with
      | none =>
        have hnil : data.drop (i + 1) = [] := by
          rw [← hdrop']
          apply List.drop_eq_nil_of_le
          rcases Nat.lt_or_ge i (data.eraseIdx i).length with h | h
          · rw [List.getElem?_eq_getElem h] at hnext; cases hnext
          · exact h
        simp only [List.get?_eq_getElem?, hnext]
        rw [DeleteKeys_loop_exit _ _ _ _ _ (by simp [MDB_NOTFOUND, MDB_SUCCESS])]
        rw [herase, hnil]
        simp
      | some e' =>
        simp only [List.get?_eq_getElem?, hnext]
        rw [ih (data.eraseIdx i) i e' hlen' hnext, htake, hdrop']
    · simp only [Bool.not_eq_true] at hsw
      simp [hsw, List.dropWhile, ← hdrop]

/-- In an ascending table whose keys are all at or above `p`, dropping the
leading run of entries that start with `p` drops every entry that starts with `p`. -/
theorem dropWhile_eq_filter_of_ge (p : Bytes) (l : Store) (hs : l.Sorted)
    (hge : ∀ x ∈ l, keyLt x.1 p = false) :
    l.dropWhile (fun x => startsWith x.1 p) = l.filter (fun x => !startsWith x.1 p) := by
  induction l with
  | nil => rfl
  | cons x xs ih =>
    have hs2 := List.pairwise_cons.mp hs
    have ih' := ih hs2.2 (fun y hy => hge y (List.mem_cons_of_mem _ hy))
    by_cases hx : startsWith x.1 p = true
    · simp [List.dropWhile, List.filter, hx, ih']
    · simp only [Bool.not_eq_true] at hx
      have hall : xs.filter (fun x => !startsWith x.1 p) = xs := by
        rw [List.filter_eq_self]
        intro y hy
        simp [startsWith_false_of_keyLt p x.1 y.1 (hge x (List.mem_cons_self _ _)) hx
          (hs2.1 y hy)]
      simp [List.dropWhile, List.filter, hx, hall]

/-- What `DeleteKeys` leaves: the entries below the first key at or above `p`,
then the rest minus its leading run of matches; on an ascending table that is
the table minus every entry whose key starts with `p`. -/
theorem take_dropWhile_lowerBound (p : Bytes) (s : Store) (hs : s.Sorted) :
    s.take (s.lowerBound p) ++ (s.drop (s.lowerBound p)).dropWhile (fun x => startsWith x.1 p)
      = s.filter (fun x => !startsWith x.1 p) := by
  induction s with
  | nil => rfl
  | cons e rest ih =>
    obtain ⟨k, v⟩ := e
    have hs2 := List.pairwise_cons.mp hs
    by_cases hk : keyLt k p = true
    · have hnot : startsWith k p = false := by
        cases h : startsWith k p with
        | false => rfl
        | true => rw [keyLt_of_startsWith k p h] at hk; cases hk
      simp only [Store.lowerBound, hk, if_true, List.take_succ_cons, List.drop_succ_cons,
        List.cons_append, List.filter_cons, hnot, Bool.not_false]
      rw [ih hs2.2]
    · simp only [Bool.not_eq_true] at hk
      simp only [Store.lowerBound, hk, Bool.false_eq_true, if_false, List.take_zero,
        List.drop_zero, List.nil_append]
      apply dropWhile_eq_filter_of_ge p _ hs
      intro x hx
      rcases List.mem_cons.mp hx with rfl | hx
      · exact hk
      · have hlt : keyLt k x.1 = true := hs2.1 x hx
        cases h : keyLt x.1 p with
        | false => rfl
        | true =>
          have := keyLt_trans k x.1 p hlt h
          rw [hk] at this; cases this

/-- The unit of work of `DeleteKeys` on a write transaction, with no failure
forced, returns `true` and leaves the table minus the scanned run of matches. -/
theorem DeleteKeys_func_noFault (pfx : Bytes) (data : Store) (hp : pfx ≠ []) :
    DeleteKeys_func MAIN_DBI pfx ⟨data, false, []⟩ =
      (true, ⟨data.take (data.lowerBound pfx) ++
        (data.drop (data.lowerBound pfx)).dropWhile (fun x => startsWith x.1 pfx), false, []⟩) := by
  have hlen : pfx.length ≠ 0 := by
    intro h; exact hp (List.length_eq_zero.mp h)
  unfold DeleteKeys_func
  simp only [mdb_cursor_open, mdb_cursor_get, MDB_txn.fault, List.headD_nil, Bool.false_eq_true,
    if_false, MDB_txn.next, List.tail_nil, ne_eq, not_true_eq_false, cursorSeek, hlen, cursorAt,
    MDB_SUCCESS]
  cases hi : data[data.lowerBound pfx]? with
  | none =>
    have hle : data.length ≤ data.lowerBound pfx := by
      rcases Nat.lt_or_ge (data.lowerBound pfx) data.length with h | h
      · rw [List.getElem?_eq_getElem h] at hi; cases hi
      · exact h
    simp only [List.get?_eq_getElem?, hi]
    rw [DeleteKeys_loop_exit _ _ _ _ _ (by simp [MDB_NOTFOUND, MDB_SUCCESS])]
    simp [List.take_of_length_le hle, List.drop_eq_nil_of_le hle]
  | some e =>
    simp only [List.get?_eq_getElem?, hi]
    exact DeleteKeys_loop_spec pfx data.length data _ e rfl hi

theorem headD_of_all_false (l : List Bool) (h : ∀ b ∈ l, b = false) : l.headD false = false := by
  cases l with
  | nil => rfl
  | cons b rest => exact h b (List.mem_cons_self b rest)

theorem tail_all_false (l : List Bool) (h : ∀ b ∈ l, b = false) : ∀ b ∈ l.tail, b = false :=
  fun b hb => h b (List.mem_of_mem_tail hb)

/-- The deletion loop of `DeleteKeys` under a fault schedule that forces no
failure: entered on entry `i`, it leaves the table without the leading run of
entries from `i` on whose key starts with `pfx`, and returns `true`. -/
theorem DeleteKeys_loop_quiet (pfx : Bytes) :
    ∀ (n : Nat) (data : Store) (i : Nat) (e : Bytes × Bytes) (l : List Bool), data.length = n →
      data[i]? = some e → (∀ b ∈ l, b = false) →
      (DeleteKeys_loop pfx ⟨data, false, l⟩ ⟨some i⟩ MDB_SUCCESS e.1).1 = true ∧
      (DeleteKeys_loop pfx ⟨data, false, l⟩ ⟨some i⟩ MDB_SUCCESS e.1).2.data =
        data.take i ++ (data.drop i).dropWhile (fun x => startsWith x.1 pfx) := by
  intro n
  induction n with
  | zero =>
    intro data i e l hn hi
    have : data = [] := List.length_eq_zero.mp hn
    subst this
    simp at hi
  | succ n ih =>
    intro data i e l hn hi hl
    have hlt : i < data.length := by
      rcases Nat.lt_or_ge i data.length with h | h
      · exact h
      · rw [List.getElem?_eq_none h] at hi; cases hi
    have hdrop := drop_of_getElem? data i e hi
    have hh := headD_of_all_false l hl
    have hh2 := headD_of_all_false l.tail (tail_all_false l hl)
    rw [DeleteKeys_loop, hdrop]
    by_cases hsw : startsWith e.1 pfx = true
    · have herase : data.eraseIdx i = data.take i ++ data.drop (i + 1) :=
        List.eraseIdx_eq_take_drop_succ data i
      have hlen' : (data.eraseIdx i).length = n := by
        rw [List.length_eraseIdx]; simp [hlt]; omega
      have htake : (data.eraseIdx i).take i = data.take i := by
        rw [herase, List.take_append_of_le_length (by simp; omega)]
        simp [List.take_take]
      have hdrop' : (data.eraseIdx i).drop i = data.drop (i + 1) := by
        rw [herase, List.drop_append_of_le_length (by simp; omega)]
        rw [List.drop_eq_nil_of_le (by simp)]
        simp
      simp only [hsw, Bool.true_eq_false, if_false, if_true, mdb_cursor_del, MDB_txn.fault,
        hh, hh2, Bool.false_eq_true, hlt, MDB_txn.next, dite_true,
        mdb_cursor_get, cursorSeek, cursorAt, List.dropWhile]
      cases hnext : (data.eraseIdx i)[i]? with
      | none =>
        have hnil : data.drop (i + 1) = [] := by
          rw [← hdrop']
          apply List.drop_eq_nil_of_le
          rcases Nat.lt_or_ge i (data.eraseIdx i).length with h | h
          · rw [List.getElem?_eq_getElem h] at hnext; cases hnext
          · exact h
        simp only [List.get?_eq_getElem?, hnext]
        rw [DeleteKeys_loop_exit _ _ _ _ _ (by simp [MDB_NOTFOUND, MDB_SUCCESS])]
        rw [herase, hnil]
        simp
      | some e' =>
        simp only [List.get?_eq_getElem?, hnext]
        have := ih (data.eraseIdx i) i e' l.tail.tail hlen' hnext
          (tail_all_false _ (tail_all_false l hl))
        rw [htake, hdrop'] at this
        exact this
    · simp only [Bool.not_eq_true] at hsw
      simp [hsw, List.dropWhile, ← hdrop]

/-- The unit of work of `DeleteKeys` under a fault schedule that forces no
failure returns `true` and leaves the table minus the scanned run of matches. -/
theorem DeleteKeys_func_quiet (pfx : Bytes) (data : Store) (l : List Bool) (hp : pfx ≠ [])
    (hl : ∀ b ∈ l, b = false) :
    (DeleteKeys_func MAIN_DBI pfx ⟨data, false, l⟩).1 = true ∧
      (DeleteKeys_func MAIN_DBI pfx ⟨data, false, l⟩).2.data =
        data.take (data.lowerBound pfx) ++
          (data.drop (data.lowerBound pfx)).dropWhile (fun x => startsWith x.1 pfx) := by
  have hlen : pfx.length ≠ 0 := by
    intro h; exact hp (List.length_eq_zero.mp h)
  have hh := headD_of_all_false l hl
  have hh2 := headD_of_all_false l.tail (tail_all_false l hl)
  unfold DeleteKeys_func
  simp only [mdb_cursor_open, mdb_cursor_get, MDB_txn.fault, hh, hh2, Bool.false_eq_true,
    if_false, MDB_txn.next, ne_eq, not_true_eq_false, cursorSeek, hlen, cursorAt,
    MDB_SUCCESS]
  cases hi : data[data.lowerBound pfx]? with
  | none =>
    have hle : data.length ≤ data.lowerBound pfx := by
      rcases Nat.lt_or_ge (data.lowerBound pfx) data.length with h | h
      · rw [List.getElem?_eq_getElem h] at hi; cases hi
      · exact h
    simp only [List.get?_eq_getElem?, hi]
    rw [DeleteKeys_loop_exit _ _ _ _ _ (by simp [MDB_NOTFOUND, MDB_SUCCESS])]
    simp [List.take_of_length_le hle, List.drop_eq_nil_of_le hle]
  | some e =>
    simp only [List.get?_eq_getElem?, hi]
    exact DeleteKeys_loop_quiet pfx data.length data _ e _ rfl hi
      (tail_all_false _ (tail_all_false l hl))

/-- What `DeleteKeys` does while the engine works. On an initialized, writable
handle over an ascending table, for every non-empty `pfx` and every fault
schedule that forces no engine call inside the transaction to fail: a
`DeleteKeys(pfx)` that returns `true` leaves exactly the previous entries whose
key does not start with `pfx`, each with its value; and with nothing forced to
fail at all the call does return `true`. -/
theorem DeleteKeys_exact (c : LMDBClient) (fl : EngineFaults) (pfx : Bytes) (hw : c.Writable)
    (hsorted : c.contents.Sorted) (hp : pfx ≠ []) (hquiet : ∀ b ∈ fl.ops, b = false)
    (hres : (c.DeleteKeys fl pfx).result = true) :
    (c.DeleteKeys fl pfx).self.contents = c.contents.filter (fun e => !startsWith e.1 pfx) ∧
      (c.DeleteKeys noFaults pfx).result = true := by
  obtain ⟨⟨hin, hdbi, env, henv, herd⟩, hro⟩ := hw
  have hc : c.contents = env.data := by simp [LMDBClient.contents, henv]
  rw [hc] at hsorted ⊢
  rw [hro] at herd
  constructor
  · unfold LMDBClient.DeleteKeys at hres ⊢
    rw [if_neg hp] at hres ⊢
    obtain ⟨env2, txn, o, henv2, _, _, _, hf, heq⟩ :=
      ExecuteWriteTransaction_success c fl () _ hres
    rw [henv] at henv2
    cases henv2
    simp only [Work.returned.injEq] at hf
    rw [heq]
    simp only [LMDBClient.contents]
    rw [← hf.2.1, hdbi, (DeleteKeys_func_quiet pfx env.data fl.ops hp hquiet).2]
    exact take_dropWhile_lowerBound pfx env.data hsorted
  · unfold LMDBClient.DeleteKeys
    rw [if_neg hp, ExecuteWriteTransaction_noFaults c env _ _ hin hro henv herd, hdbi,
      DeleteKeys_func_noFault pfx env.data hp]

theorem DeleteKeys_exact_witness :
    (clientOn userStore).Writable ∧ (clientOn userStore).contents.Sorted ∧ pfx_user ≠ [] ∧
      ((clientOn userStore).DeleteKeys ⟨false, [false, false, false, false, false, false], false⟩
        pfx_user).result = true ∧
      ((clientOn userStore).DeleteKeys ⟨false, [false, false, false, false, false, false], false⟩
        pfx_user).self.contents = [(key_admin1, bytesOf [1])] ∧
      ((clientOn userStore).DeleteKeys noFaults pfx_user).result = true :=
  have hw : (clientOn userStore).Writable := ⟨⟨rfl, rfl, _, rfl, rfl⟩, rfl⟩
  have hs : (clientOn userStore).contents.Sorted := by
    unfold Store.Sorted; decide
  have hq : ∀ b ∈ [false, false, false, false, false, false], b = false := by decide
  have hp : pfx_user ≠ [] := by decide
  have hr : ((clientOn userStore).DeleteKeys
      ⟨false, [false, false, false, false, false, false], false⟩ pfx_user).result = true := by
    simp [LMDBClient.DeleteKeys, hp, LMDBClient.ExecuteWriteTransaction, clientOn, mdb_txn_begin,
      mdb_txn_commit, MDB_SUCCESS, ENOMEM, EACCES,
      (DeleteKeys_func_quiet pfx_user userStore _ hp hq).1]
  ⟨hw, hs, hp, hr,
    (DeleteKeys_exact (clientOn userStore) _ pfx_user hw hs hp hq hr).1.trans (by decide),
    (DeleteKeys_exact (clientOn userStore) _ pfx_user hw hs hp hq hr).2⟩

theorem memcpyFromInt_length (x : Int) : (memcpyFromInt x).length = 4 := rfl

/-- Reading back the four bytes written for `x` gives `x` reduced to 32 bits. -/
theorem memcpyToInt_memcpyFromInt (x : Int) : memcpyToInt (memcpyFromInt x) = wrapInt32 x := by
  unfold memcpyToInt memcpyFromInt
  simp only [List.getD_cons_zero, List.getD_cons_succ, toByte]
  have h0 : 0 ≤ x % 4294967296 := Int.emod_nonneg _ (by decide)
  have h1 : x % 4294967296 < 4294967296 := Int.emod_lt_of_pos _ (by decide)
  have hu : (((x % 4294967296).toNat : Nat) : Int) = x % 4294967296 := Int.toNat_of_nonneg h0
  generalize (x % 4294967296).toNat = u at hu
  have hsum : u % 256 + 256 * (u / 256 % 256) + 65536 * (u / 65536 % 256)
      + 16777216 * (u / 16777216 % 256) = u := by omega
  have hcast : ((u % 256 : Nat) : Int) + 256 * ((u / 256 % 256 : Nat) : Int)
      + 65536 * ((u / 65536 % 256 : Nat) : Int) + 16777216 * ((u / 16777216 % 256 : Nat) : Int)
      = (u : Int) := by
    exact_mod_cast hsum
  rw [hcast, hu]
  unfold wrapInt32
  omega

theorem wrapInt32_of_range (x : Int) (h1 : -2147483648 ≤ x) (h2 : x < 2147483648) :
    wrapInt32 x = x := by
  unfold wrapInt32; omega

theorem mdb_get_success (txn : MDB_txn) (dbi : Nat) (key : Bytes)
    (h : (mdb_get txn dbi key).rc = MDB_SUCCESS) :
    txn.data.get key = some (mdb_get txn dbi key).data := by
  unfold mdb_get at h ⊢
  repeat' split at h
  all_goals simp_all [ENOMEM, EINVAL, MDB_BAD_VALSIZE, MDB_NOTFOUND, MDB_SUCCESS]

theorem mdb_get_txn (txn : MDB_txn) (dbi : Nat) (key : Bytes) :
    (mdb_get txn dbi key).txn = txn.next := by
  unfold mdb_get
  repeat' split
  all_goals rfl

/-- What a successful `AtomicIncrement` leaves behind: the counter `cur` it
started from is zero or the stored 4-byte value; on an engine not forced to
fail it is the stored value whenever that has four bytes. -/
theorem AtomicIncrement_success (c : LMDBClient) (fl : EngineFaults) (k : Bytes) (d : Int)
    (h : (c.AtomicIncrement fl k d).result = true) :
    ∃ env cur, c.env_ = some env ∧ c.initialized_ = true ∧ c.dbi_ = MAIN_DBI ∧ k ≠ [] ∧
      (c.AtomicIncrement fl k d).self =
        { c with env_ := some ⟨env.data.put k (memcpyFromInt (wrapInt32 (cur + d))),
            env.rdonly, env.txns + 1⟩ } ∧
      (cur = 0 ∨ ∃ v, env.data.get k = some v ∧ v.length = 4 ∧ cur = memcpyToInt v) ∧
      (fl.ops = [] → ∀ v, env.data.get k = some v → v.length = 4 → cur = memcpyToInt v) := by
  unfold LMDBClient.AtomicIncrement at h ⊢
  obtain ⟨env, txn, o, henv, hin, _, _, hf, heq⟩ := ExecuteWriteTransaction_success c fl () _ h
  simp only [Work.returned.injEq, decide_eq_true_eq] at hf
  obtain ⟨hrc, htxn, _⟩ := hf
  obtain ⟨hdbi, hk, hput⟩ := mdb_put_success _ _ _ _ hrc
  refine ⟨env, (if (mdb_get ⟨env.data, false, fl.ops⟩ c.dbi_ k).rc = MDB_SUCCESS ∧
      (mdb_get ⟨env.data, false, fl.ops⟩ c.dbi_ k).data.length = 4
    then memcpyToInt (mdb_get ⟨env.data, false, fl.ops⟩ c.dbi_ k).data else 0),
    henv, hin, hdbi, hk, ?_, ?_, ?_⟩
  · rw [heq, ← htxn, hput, mdb_get_txn]
    rfl
  · by_cases hg : (mdb_get ⟨env.data, false, fl.ops⟩ c.dbi_ k).rc = MDB_SUCCESS ∧
        (mdb_get ⟨env.data, false, fl.ops⟩ c.dbi_ k).data.length = 4
    · right
      exact ⟨_, mdb_get_success _ _ _ hg.1, hg.2, by simp [hg]⟩
    · left; simp [hg]
  · intro hops v hv hlen
    rw [hops, hdbi, mdb_get_noFault _ _ _ hk, hv]
    simp [hlen]

/-- A `GetInt` into a non-null output on an initialized handle, engine not forced to fail. -/
theorem GetInt_noFaults (c : LMDBClient) (env : MDB_env) (k : Bytes) (out : Int)
    (hin : c.initialized_ = true) (henv : c.env_ = some env) (hdbi : c.dbi_ = MAIN_DBI)
    (hk : k ≠ []) (v : Bytes) (hv : env.data.get k = some v) (hlen : v.length = 4) :
    (c.GetInt noFaults k (some out)).result = true ∧
      (c.GetInt noFaults k (some out)).out = some (memcpyToInt v) := by
  unfold LMDBClient.GetInt
  rw [ExecuteReadTransaction_noFaults c env _ _ hin henv, hdbi, mdb_get_noFault _ _ _ hk, hv]
  simp [hlen]

/-- On a writable handle, with no failure forced, `AtomicIncrement` on a key the
engine accepts reports success whatever is stored under the key. -/
theorem AtomicIncrement_noFaults_result (c : LMDBClient) (k : Bytes) (d : Int)
    (hw : c.Writable) (hk : k ≠ []) (hlen : k.length ≤ MDB_MAXKEYSIZE) :
    (c.AtomicIncrement noFaults k d).result = true := by
  obtain ⟨⟨hin, hdbi, env, henv, herd⟩, hro⟩ := hw
  rw [hro] at herd
  have hk' : k.length ≠ 0 := fun h => hk (List.length_eq_zero.mp h)
  unfold LMDBClient.AtomicIncrement
  rw [ExecuteWriteTransaction_noFaults c env _ _ hin hro henv herd, hdbi]
  have hput : ∀ (t : MDB_txn) (v : Bytes), t.faults = [] → t.rdonly = false →
      v.length = 4 → (mdb_put t MAIN_DBI k v).1 = MDB_SUCCESS := by
    intro t v hf hr hv
    simp [mdb_put, MDB_txn.fault, hf, hr, hk, hv, MAXDATASIZE, Nat.not_lt.mpr hlen]
  simp only [mdb_get_txn]
  rw [hput _ _ rfl rfl (memcpyFromInt_length _)]
  simp

/-- A successful `AtomicIncrement` whose read of the counter is not forced to
fail starts from the stored value whenever that has four bytes. -/
theorem AtomicIncrement_success_read (c : LMDBClient) (fl : EngineFaults) (k : Bytes) (d : Int)
    (h : (c.AtomicIncrement fl k d).result = true) (hread : fl.ops.headD false = false) :
    ∃ env, c.env_ = some env ∧ c.initialized_ = true ∧ c.dbi_ = MAIN_DBI ∧ k ≠ [] ∧
      ∀ v, env.data.get k = some v → v.length = 4 →
        (c.AtomicIncrement fl k d).self =
          { c with env_ := some ⟨env.data.put k (memcpyFromInt (wrapInt32 (memcpyToInt v + d))),
              env.rdonly, env.txns + 1⟩ } := by
  unfold LMDBClient.AtomicIncrement at h ⊢
  obtain ⟨env, txn, o, henv, hin, _, _, hf, heq⟩ := ExecuteWriteTransaction_success c fl () _ h
  simp only [Work.returned.injEq, decide_eq_true_eq] at hf
  obtain ⟨hrc, htxn, _⟩ := hf
  obtain ⟨hdbi, hk, hput⟩ := mdb_put_success _ _ _ _ hrc
  refine ⟨env, henv, hin, hdbi, hk, ?_⟩
  intro v hv hlen
  have hk0 : k.length ≠ 0 := fun h0 => hk (List.length_eq_zero.mp h0)
  have hg : mdb_get ⟨env.data, false, fl.ops⟩ c.dbi_ k
      = ⟨MDB_SUCCESS, v, ⟨env.data, false, fl.ops.tail⟩⟩ := by
    unfold mdb_get MDB_txn.fault
    simp only [hread]
    simp [hdbi, hk0, hv, MDB_txn.next]
  rw [heq, ← htxn, hput, mdb_get_txn, hg]
  simp [hlen, MDB_txn.next]

/-- Two increments while the read of the counter works. For a key `k` that is
absent and 32-bit integers `d1`, `d2` whose sum fits in 32 bits:
`AtomicIncrement(k, d1)` then `AtomicIncrement(k, d2)`, both succeeding under
any fault schedules, the read of the counter in the second call (its
`mdb_get`, the first engine call of the transaction) not being forced to fail,
leave the 4-byte encoding of `d1 + d2` under `k`, and `GetInt(k, &out)` then
reports success with `out = d1 + d2`. -/
theorem AtomicIncrement_twice (c : LMDBClient) (fl fl2 : EngineFaults) (k : Bytes)
    (d1 d2 out : Int)
    (habsent : c.contents.get k = none)
    (hd1 : -2147483648 ≤ d1 ∧ d1 < 2147483648)
    (_hd2 : -2147483648 ≤ d2 ∧ d2 < 2147483648)
    (hsum : -2147483648 ≤ d1 + d2 ∧ d1 + d2 < 2147483648)
    (h1 : (c.AtomicIncrement fl k d1).result = true)
    (h2 : ((c.AtomicIncrement fl k d1).self.AtomicIncrement fl2 k d2).result = true)
    (hread : fl2.ops.headD false = false) :
    ((c.AtomicIncrement fl k d1).self.AtomicIncrement fl2 k d2).self.contents.get k
        = some (memcpyFromInt (d1 + d2)) ∧
      (memcpyFromInt (d1 + d2)).length = 4 ∧
      (((c.AtomicIncrement fl k d1).self.AtomicIncrement fl2 k d2).self.GetInt noFaults k
        (some out)).result = true ∧
      (((c.AtomicIncrement fl k d1).self.AtomicIncrement fl2 k d2).self.GetInt noFaults k
        (some out)).out = some (d1 + d2) := by
  obtain ⟨env, cur, henv, hin, hdbi, hk, hself, hcur, _⟩ := AtomicIncrement_success c fl k d1 h1
  have hc : c.contents = env.data := by simp [LMDBClient.contents, henv]
  rw [hc] at habsent
  have hcur0 : cur = 0 := by
    rcases hcur with h | ⟨v, hv, _, _⟩
    · exact h
    · rw [habsent] at hv; cases hv
  subst hcur0
  rw [zero_add, wrapInt32_of_range d1 hd1.1 hd1.2] at hself
  obtain ⟨env2, henv2, hin2, hdbi2, _, hself2⟩ :=
    AtomicIncrement_success_read _ fl2 k d2 h2 hread
  rw [hself] at henv2
  simp only [Option.some.injEq] at henv2
  have hv2 : env2.data.get k = some (memcpyFromInt d1) := by
    rw [← henv2]; exact Store.get_put_same _ _ _
  have hself2' := hself2 _ hv2 (memcpyFromInt_length _)
  rw [memcpyToInt_memcpyFromInt, wrapInt32_of_range d1 hd1.1 hd1.2,
    wrapInt32_of_range _ hsum.1 hsum.2] at hself2'
  have hstored : ((c.AtomicIncrement fl k d1).self.AtomicIncrement fl2 k d2).self.contents.get k
      = some (memcpyFromInt (d1 + d2)) := by
    rw [hself2']
    simp [LMDBClient.contents, Store.get_put_same]
  refine ⟨hstored, rfl, ?_⟩
  have hg := GetInt_noFaults ((c.AtomicIncrement fl k d1).self.AtomicIncrement fl2 k d2).self
    ⟨env2.data.put k (memcpyFromInt (d1 + d2)), env2.rdonly, env2.txns + 1⟩ k out
    (by rw [hself2']; exact hin2) (by rw [hself2']) (by rw [hself2']; exact hdbi2) hk
    (memcpyFromInt (d1 + d2)) (Store.get_put_same _ _ _) rfl
  rw [memcpyToInt_memcpyFromInt, wrapInt32_of_range _ hsum.1 hsum.2] at hg
  exact hg

theorem AtomicIncrement_twice_witness :
    (clientOn []).contents.get (bytesOf [107]) = none ∧
      (((clientOn []).AtomicIncrement noFaults (bytesOf [107]) (-5)).self.AtomicIncrement
        ⟨false, [false, false, true], false⟩ (bytesOf [107]) 3).result = true ∧
      (((clientOn []).AtomicIncrement noFaults (bytesOf [107]) (-5)).self.AtomicIncrement
        ⟨false, [false, false, true], false⟩ (bytesOf [107]) 3).self.contents.get (bytesOf [107])
        = some (bytesOf [254, 255, 255, 255]) ∧
      ((((clientOn []).AtomicIncrement noFaults (bytesOf [107]) (-5)).self.AtomicIncrement
        ⟨false, [false, false, true], false⟩ (bytesOf [107]) 3).self.GetInt noFaults (bytesOf [107])
        (some 0)).out = some (-2) :=
  have h := AtomicIncrement_twice (clientOn []) noFaults ⟨false, [false, false, true], false⟩
    (bytesOf [107]) (-5) 3 0 rfl (by decide) (by decide) (by decide) (by decide) (by decide) rfl
  ⟨rfl, by decide, h.1.trans (by decide), h.2.2.2⟩

/-- Claim C6. `AtomicIncrement` takes an absent key, and a stored value whose
length is not 4 bytes, for zero.  For every handle state and fault schedule, if
the value under `k` is absent or not 4 bytes long, a successful
`AtomicIncrement(k, d)` leaves the 4-byte encoding of `d` under `k`, and
`GetInt(k, &out)` then yields `d`.  No error is reported for the mismatched
length: on a writable handle, for a key the engine accepts and an engine not
forced to fail, the call returns `true`. -/
theorem AtomicIncrement_zero_default (c : LMDBClient) (fl : EngineFaults) (k : Bytes)
    (d out : Int) (hd : -2147483648 ≤ d ∧ d < 2147483648)
    (hval : ∀ v, c.contents.get k = some v → v.length ≠ 4)
    (h : (c.AtomicIncrement fl k d).result = true) :
    (c.AtomicIncrement fl k d).self.contents.get k = some (memcpyFromInt d) ∧
      ((c.AtomicIncrement fl k d).self.GetInt noFaults k (some out)).result = true ∧
      ((c.AtomicIncrement fl k d).self.GetInt noFaults k (some out)).out = some d ∧
      (c.Writable → k.length ≤ MDB_MAXKEYSIZE →
        (c.AtomicIncrement noFaults k d).result = true) := by
  obtain ⟨env, cur, henv, hin, hdbi, hk, hself, hcur, _⟩ := AtomicIncrement_success c fl k d h
  have hc : c.contents = env.data := by simp [LMDBClient.contents, henv]
  rw [hc] at hval
  have hcur0 : cur = 0 := by
    rcases hcur with h0 | ⟨v, hv, hlen, _⟩
    · exact h0
    · exact absurd hlen (hval v hv)
  subst hcur0
  rw [zero_add, wrapInt32_of_range d hd.1 hd.2] at hself
  have hstored : (c.AtomicIncrement fl k d).self.contents.get k = some (memcpyFromInt d) := by
    rw [hself]
    simp [LMDBClient.contents, Store.get_put_same]
  have hg := GetInt_noFaults (c.AtomicIncrement fl k d).self
    ⟨env.data.put k (memcpyFromInt d), env.rdonly, env.txns + 1⟩ k out
    (by rw [hself]; exact hin) (by rw [hself]) (by rw [hself]; exact hdbi) hk
    (memcpyFromInt d) (Store.get_put_same _ _ _) rfl
  rw [memcpyToInt_memcpyFromInt, wrapInt32_of_range _ hd.1 hd.2] at hg
  exact ⟨hstored, hg.1, hg.2, fun hw hlen => AtomicIncrement_noFaults_result c k d hw hk hlen⟩

theorem AtomicIncrement_zero_default_witness :
    ((clientOn []).PutDouble noFaults (bytesOf [107]) 0x4000000000000000).self.contents.get
        (bytesOf [107]) = some (bytesOf [0, 0, 0, 0, 0, 0, 0, 64]) ∧
      (((clientOn []).PutDouble noFaults (bytesOf [107]) 0x4000000000000000).self.AtomicIncrement
        noFaults (bytesOf [107]) 7).result = true ∧
      ((((clientOn []).PutDouble noFaults (bytesOf [107]) 0x4000000000000000).self.AtomicIncrement
        noFaults (bytesOf [107]) 7).self.GetInt noFaults (bytesOf [107]) (some 0)).out = some 7 :=
  have hv : ((clientOn []).PutDouble noFaults (bytesOf [107]) 0x4000000000000000).self.contents.get
      (bytesOf [107]) = some (bytesOf [0, 0, 0, 0, 0, 0, 0, 64]) := by decide
  have hr : (((clientOn []).PutDouble noFaults (bytesOf [107]) 0x4000000000000000).self.AtomicIncrement
      noFaults (bytesOf [107]) 7).result = true := by decide
  ⟨hv, hr, (AtomicIncrement_zero_default _ noFaults (bytesOf [107]) 7 0 (by decide)
    (fun v h => by rw [hv] at h; cases h; decide) hr).2.2.1⟩

/-! ## Facts about bitmap values -/

theorem readBit_eq_testBit (b : Byte) (k : Nat) : readBit b k = b.val.testBit k := by
  unfold readBit Nat.testBit
  rw [Nat.land_comm]
  cases h : (1 &&& b.val >>> k != 0) <;> simp_all

theorem readBit_writeBit (b : Byte) (k j : Nat) (set : Bool) (hk : k < 8) (hj : j < 8) :
    readBit (writeBit b k set) j = if j = k then set else readBit b j := by
  rw [readBit_eq_testBit, readBit_eq_testBit]
  have h32 : (0xFFFFFFFF : Nat) = 2 ^ 32 - 1 := by decide
  have h256 : (256 : Nat) = 2 ^ 8 := by decide
  cases set
  · simp only [writeBit, toByte, Bool.false_eq_true, if_false, h32, h256, Nat.one_shiftLeft,
      Nat.testBit_mod_two_pow, Nat.testBit_and, Nat.testBit_xor, Nat.testBit_two_pow_sub_one,
      Nat.testBit_two_pow]
    have hj32 : j < 32 := by omega
    by_cases hjk : j = k
    · subst hjk; simp [hj, hj32]
    · have : ¬ k = j := fun h => hjk h.symm
      simp [hj, hjk, this, hj32]
  · simp only [writeBit, toByte, if_true, h256, Nat.one_shiftLeft,
      Nat.testBit_mod_two_pow, Nat.testBit_or, Nat.testBit_two_pow]
    by_cases hjk : j = k
    · subst hjk; simp [hj]
    · have : ¬ k = j := fun h => hjk h.symm
      simp [hj, hjk, this]

theorem readBit_zero (k : Nat) : readBit 0 k = false := by
  rw [readBit_eq_testBit]; simp

theorem resizeZero_getD (s : Bytes) (n m : Nat) : (resizeZero s n).getD m 0 = s.getD m 0 := by
  unfold resizeZero
  simp only [List.getD_eq_getElem?_getD, List.getElem?_append]
  split
  · rfl
  · rename_i h
    rw [List.getElem?_eq_none (Nat.le_of_not_lt h)]
    simp only [List.getElem?_replicate]
    split <;> rfl

theorem resizeZero_length (s : Bytes) (n : Nat) : (resizeZero s n).length = max s.length n := by
  unfold resizeZero
  simp only [List.length_append, List.length_replicate]
  omega

theorem setStringBit_length (v : Bytes) (i : Int) (set : Bool) :
    (setStringBit v i set).length = max v.length ((i / 8).toNat + 1) := by
  unfold setStringBit
  simp only [List.length_set]
  split
  · rw [resizeZero_length]
  · omega

theorem setStringBit_getElem? (v : Bytes) (i : Int) (set : Bool) (m : Nat) :
    (setStringBit v i set)[m]? =
      if m = (i / 8).toNat then some (writeBit (v.getD m 0) (i % 8).toNat set)
      else if m < (i / 8).toNat then some (v.getD m 0)
      else v[m]? := by
  unfold setStringBit
  simp only
  by_cases hm : m = (i / 8).toNat
  · subst hm
    simp only [if_true]
    split
    · rw [resizeZero_getD, List.getElem?_set_self (by rw [resizeZero_length]; omega)]
    · rw [List.getElem?_set_self (by omega)]
  · rw [if_neg hm, List.getElem?_set_ne (fun h => hm h.symm)]
    split
    · rename_i hle
      by_cases hlt : m < (i / 8).toNat
      · rw [if_pos hlt]
        have : m < (resizeZero v ((i / 8).toNat + 1)).length := by
          rw [resizeZero_length]; omega
        rw [List.getElem?_eq_getElem this]
        have h2 := resizeZero_getD v ((i / 8).toNat + 1) m
        rw [List.getD_eq_getElem?_getD, List.getElem?_eq_getElem this] at h2
        simpa using h2
      · rw [if_neg hlt]
        have h1 : (resizeZero v ((i / 8).toNat + 1)).length ≤ m := by
          rw [resizeZero_length]; omega
        rw [List.getElem?_eq_none h1, List.getElem?_eq_none (by omega)]
    · rename_i hgt
      by_cases hlt : m < (i / 8).toNat
      · rw [if_pos hlt, List.getD_eq_getElem?_getD, List.getElem?_eq_getElem (by omega)]
        rfl
      · rw [if_neg hlt]

theorem setStringBit_getD (v : Bytes) (i : Int) (set : Bool) (m : Nat) :
    (setStringBit v i set).getD m 0 =
      if m = (i / 8).toNat then writeBit (v.getD m 0) (i % 8).toNat set else v.getD m 0 := by
  rw [List.getD_eq_getElem?_getD, setStringBit_getElem?]
  by_cases hm : m = (i / 8).toNat
  · simp [hm]
  · by_cases hlt : m < (i / 8).toNat
    · simp [hm, hlt]
    · simp [hm, hlt]

theorem bitAt_setStringBit (v : Bytes) (i j : Int) (set : Bool) (hi : 0 ≤ i) (hj : 0 ≤ j) :
    bitAt (setStringBit v i set) j = if j = i then set else bitAt v j := by
  unfold bitAt
  rw [setStringBit_getD]
  have hi8 : (i % 8).toNat < 8 := by omega
  have hj8 : (j % 8).toNat < 8 := by omega
  by_cases hb : (j / 8).toNat = (i / 8).toNat
  · rw [if_pos hb, readBit_writeBit _ _ _ _ hi8 hj8]
    by_cases hji : j = i
    · subst hji; simp
    · have : (j % 8).toNat ≠ (i % 8).toNat := by omega
      rw [if_neg this, if_neg hji]
  · have hji : j ≠ i := by
      intro h; subst h; exact hb rfl
    rw [if_neg hb, if_neg hji]

theorem mdb_get_notfound (txn : MDB_txn) (dbi : Nat) (key : Bytes)
    (h : (mdb_get txn dbi key).rc = MDB_NOTFOUND) : txn.data.get key = none := by
  unfold mdb_get at h
  repeat' split at h
  all_goals simp_all [ENOMEM, EINVAL, MDB_BAD_VALSIZE, MDB_NOTFOUND, MDB_SUCCESS]

/-- What a successful `AtomicSetStringBit` leaves behind: the value under `k`
(empty when absent) with bit `i` written, for an index within `[0, 255]`. -/
theorem AtomicSetStringBit_success (c : LMDBClient) (fl : EngineFaults) (k : Bytes) (i : Int)
    (set : Bool) (h : (c.AtomicSetStringBit fl k i set).result = true) :
    ∃ env, c.env_ = some env ∧ c.initialized_ = true ∧ c.dbi_ = MAIN_DBI ∧ k ≠ [] ∧
      (0 ≤ i ∧ i ≤ 255) ∧
      (c.AtomicSetStringBit fl k i set).self =
        { c with env_ := some ⟨env.data.put k (setStringBit ((env.data.get k).getD []) i set),
            env.rdonly, env.txns + 1⟩ } := by
  unfold LMDBClient.AtomicSetStringBit at h ⊢
  by_cases hr : i < 0 ∨ i > MAX_BIT_INDEX
  · rw [if_pos hr] at h; cases h
  rw [if_neg hr] at h ⊢
  have hrange : 0 ≤ i ∧ i ≤ 255 := by
    unfold MAX_BIT_INDEX at hr; omega
  obtain ⟨env, txn, o, henv, hin, _, _, hf, heq⟩ := ExecuteWriteTransaction_success c fl () _ h
  simp only at hf
  by_cases hg : (mdb_get ⟨env.data, false, fl.ops⟩ c.dbi_ k).rc ≠ MDB_SUCCESS ∧
      (mdb_get ⟨env.data, false, fl.ops⟩ c.dbi_ k).rc ≠ MDB_NOTFOUND
  · rw [if_pos hg] at hf; cases hf
  rw [if_neg hg] at hf
  simp only [Work.returned.injEq, decide_eq_true_eq] at hf
  obtain ⟨hrc, htxn, _⟩ := hf
  obtain ⟨hdbi, hk, hput⟩ := mdb_put_success _ _ _ _ hrc
  refine ⟨env, henv, hin, hdbi, hk, hrange, ?_⟩
  have hcur : (if (mdb_get ⟨env.data, false, fl.ops⟩ c.dbi_ k).rc = MDB_SUCCESS
      then (mdb_get ⟨env.data, false, fl.ops⟩ c.dbi_ k).data else [])
      = (env.data.get k).getD [] := by
    by_cases hs : (mdb_get ⟨env.data, false, fl.ops⟩ c.dbi_ k).rc = MDB_SUCCESS
    · rw [if_pos hs]
      have := mdb_get_success _ _ _ hs
      simp only at this
      rw [this]; rfl
    · rw [if_neg hs]
      have hnf : (mdb_get ⟨env.data, false, fl.ops⟩ c.dbi_ k).rc = MDB_NOTFOUND := by
        by_contra hne; exact hg ⟨hs, hne⟩
      have := mdb_get_notfound _ _ _ hnf
      simp only at this
      rw [this]; rfl
  rw [heq, ← htxn, hput, mdb_get_txn, hcur]
  rfl

/-- A `GetStringBit` into a non-null output on an initialized handle, engine not
forced to fail, index within `[0, 255]`. -/
theorem GetStringBit_noFaults (c : LMDBClient) (env : MDB_env) (k : Bytes) (j : Int) (b : Bool)
    (hin : c.initialized_ = true) (henv : c.env_ = some env) (hdbi : c.dbi_ = MAIN_DBI)
    (hk : k ≠ []) (hj : 0 ≤ j ∧ j ≤ 255) :
    c.GetStringBit noFaults k j (some b) =
      match env.data.get k with
      | some v => ⟨true, { c with env_ := some { env with txns := env.txns + 1 } },
          some (bitAt v j)⟩
      | none => ⟨false, { c with env_ := some { env with txns := env.txns + 1 } }, some b⟩ := by
  unfold LMDBClient.GetStringBit
  have hr : ¬ (j < 0 ∨ j > MAX_BIT_INDEX) := by
    unfold MAX_BIT_INDEX; omega
  rw [if_neg hr, ExecuteReadTransaction_noFaults c env _ _ hin henv, hdbi,
    mdb_get_noFault _ _ _ hk]
  cases hv : env.data.get k with
  | none => simp [MDB_NOTFOUND, MDB_SUCCESS]
  | some v =>
    simp only [MDB_NOTFOUND, MDB_SUCCESS, Option.map_some']
    by_cases hlen : v.length ≤ (j / 8).toNat
    · have : bitAt v j = false := by
        unfold bitAt
        rw [List.getD_eq_getElem?_getD, List.getElem?_eq_none hlen]
        exact readBit_zero _
      simp [hlen, this]
    · simp [hlen, bitAt]

/-- A `GetStringBit` right after a successful `AtomicSetStringBit` on the same key
reports success and reads the bit of the value that was written back. -/
theorem GetStringBit_after_set (c : LMDBClient) (fl : EngineFaults) (k : Bytes) (i j : Int)
    (set b : Bool) (h : (c.AtomicSetStringBit fl k i set).result = true)
    (hj : 0 ≤ j ∧ j ≤ 255) :
    ((c.AtomicSetStringBit fl k i set).self.GetStringBit noFaults k j (some b)).result = true ∧
      ((c.AtomicSetStringBit fl k i set).self.GetStringBit noFaults k j (some b)).out
        = some (bitAt (setStringBit ((c.contents.get k).getD []) i set) j) := by
  obtain ⟨env, henv, hin, hdbi, hk, _, hself⟩ := AtomicSetStringBit_success c fl k i set h
  have hc : c.contents = env.data := by simp [LMDBClient.contents, henv]
  have hg := GetStringBit_noFaults (c.AtomicSetStringBit fl k i set).self
    ⟨env.data.put k (setStringBit ((env.data.get k).getD []) i set), env.rdonly, env.txns + 1⟩
    k j b (by rw [hself]; exact hin) (by rw [hself]) (by rw [hself]; exact hdbi) hk hj
  rw [hg, hc]
  simp [Store.get_put_same]

/-- Claim C7. For every handle state, key, prior value of the key (absent
included) and fault schedule: after a successful `AtomicSetStringBit(k, i, true)`
(which implies `0 <= i <= 255`), `GetStringBit(k, i, &b)` on an engine not
forced to fail reports success with `b = true`. -/
theorem setBit_then_getBit (c : LMDBClient) (fl : EngineFaults) (k : Bytes) (i : Int) (b : Bool)
    (h : (c.AtomicSetStringBit fl k i true).result = true) :
    ((c.AtomicSetStringBit fl k i true).self.GetStringBit noFaults k i (some b)).result = true ∧
      ((c.AtomicSetStringBit fl k i true).self.GetStringBit noFaults k i (some b)).out
        = some true := by
  obtain ⟨env, _, _, _, _, hi, _⟩ := AtomicSetStringBit_success c fl k i true h
  have hg := GetStringBit_after_set c fl k i i true b h hi
  rw [bitAt_setStringBit _ _ _ _ hi.1 hi.1, if_pos rfl] at hg
  exact hg

theorem setBit_then_getBit_witness :
    ((clientOn []).AtomicSetStringBit noFaults (bytesOf [107]) 9 true).result = true ∧
      (((clientOn []).AtomicSetStringBit noFaults (bytesOf [107]) 9 true).self.GetStringBit
        noFaults (bytesOf [107]) 9 (some false)).out = some true :=
  ⟨by decide, (setBit_then_getBit (clientOn []) noFaults (bytesOf [107]) 9 false
    (by decide)).2⟩

/-- Claim C8. `AtomicSetStringBit` changes only the addressed bit.  After a
successful `AtomicSetStringBit(k, i, set)`, for every `j` in `[0, 255]` other
than `i`: if `k` was present before, `GetStringBit(k, j, &b)` gives the same
result and the same `b` as before the call; if `k` was absent, it reports
success with `b = false`.  (Reads are on an engine not forced to fail.) -/
theorem setBit_frame (c : LMDBClient) (fl : EngineFaults) (k : Bytes) (i j : Int) (set b : Bool)
    (h : (c.AtomicSetStringBit fl k i set).result = true)
    (hj : 0 ≤ j ∧ j ≤ 255) (hne : j ≠ i) :
    (∀ v, c.contents.get k = some v →
      ((c.AtomicSetStringBit fl k i set).self.GetStringBit noFaults k j (some b)).result
          = (c.GetStringBit noFaults k j (some b)).result ∧
        ((c.AtomicSetStringBit fl k i set).self.GetStringBit noFaults k j (some b)).out
          = (c.GetStringBit noFaults k j (some b)).out) ∧
      (c.contents.get k = none →
        ((c.AtomicSetStringBit fl k i set).self.GetStringBit noFaults k j (some b)).result = true ∧
          ((c.AtomicSetStringBit fl k i set).self.GetStringBit noFaults k j (some b)).out
            = some false) := by
  obtain ⟨env, henv, hin, hdbi, hk, hi, _⟩ := AtomicSetStringBit_success c fl k i set h
  have hc : c.contents = env.data := by simp [LMDBClient.contents, henv]
  have hg := GetStringBit_after_set c fl k i j set b h hj
  rw [bitAt_setStringBit _ _ _ _ hi.1 hj.1, if_neg hne] at hg
  constructor
  · intro v hv
    rw [GetStringBit_noFaults c env k j b hin henv hdbi hk hj, ← hc, hv]
    rw [hv] at hg
    exact hg
  · intro hv
    rw [hv] at hg
    have hz : bitAt ([] : Bytes) j = false := by
      unfold bitAt; exact readBit_zero _
    rw [Option.getD_none, hz] at hg
    exact hg

theorem setBit_frame_witness :
    ((clientOn []).AtomicSetStringBit noFaults (bytesOf [107]) 9 true).result = true ∧
      (clientOn []).contents.get (bytesOf [107]) = none ∧
      (((clientOn []).AtomicSetStringBit noFaults (bytesOf [107]) 9 true).self.GetStringBit
        noFaults (bytesOf [107]) 3 (some true)).out = some false :=
  ⟨by decide, rfl, ((setBit_frame (clientOn []) noFaults (bytesOf [107]) 9 3 true true
    (by decide) (by decide) (by decide)).2 rfl).2⟩

/-- Claim C9. After a successful `AtomicSetStringBit(k, i, set)`, with `v` the
prior value of `k` (empty when absent) and `n` its length, the stored value `w`
has length `max n (i / 8 + 1)`, so it is never shorter than `v`; every byte of
`v` other than byte `i / 8` is unchanged; the bytes from index `n` up to
`i / 8 - 1` are zero; and byte `i / 8` differs from the prior byte (zero when
beyond `v`) in no bit other than bit `i % 8`. -/
theorem setBit_value (c : LMDBClient) (fl : EngineFaults) (k : Bytes) (i : Int) (set : Bool)
    (h : (c.AtomicSetStringBit fl k i set).result = true) :
    ∃ w, (c.AtomicSetStringBit fl k i set).self.contents.get k = some w ∧
      w.length = max ((c.contents.get k).getD []).length ((i / 8).toNat + 1) ∧
      ((c.contents.get k).getD []).length ≤ w.length ∧
      (∀ m, m < ((c.contents.get k).getD []).length → m ≠ (i / 8).toNat →
        w[m]? = ((c.contents.get k).getD [])[m]?) ∧
      (∀ m, ((c.contents.get k).getD []).length ≤ m → m < (i / 8).toNat → w[m]? = some 0) ∧
      (∀ t, t < 8 → t ≠ (i % 8).toNat →
        readBit (w.getD (i / 8).toNat 0) t
          = readBit (((c.contents.get k).getD []).getD (i / 8).toNat 0) t) := by
  obtain ⟨env, henv, hin, hdbi, hk, hi, hself⟩ := AtomicSetStringBit_success c fl k i set h
  have hc : c.contents = env.data := by simp [LMDBClient.contents, henv]
  rw [hc]
  refine ⟨setStringBit ((env.data.get k).getD []) i set, ?_, setStringBit_length _ _ _, ?_, ?_,
    ?_, ?_⟩
  · rw [hself]
    simp [LMDBClient.contents, Store.get_put_same]
  · rw [setStringBit_length]; omega
  · intro m hm hne
    rw [setStringBit_getElem?, if_neg hne]
    by_cases hlt : m < (i / 8).toNat
    · rw [if_pos hlt, List.getD_eq_getElem?_getD, List.getElem?_eq_getElem hm]
      rfl
    · rw [if_neg hlt]
  · intro m hm hlt
    rw [setStringBit_getElem?, if_neg (by omega), if_pos hlt, List.getD_eq_getElem?_getD,
      List.getElem?_eq_none hm]
    rfl
  · intro t ht hne
    have hi8 : (i % 8).toNat < 8 := by omega
    rw [setStringBit_getD, if_pos rfl, readBit_writeBit _ _ _ _ hi8 ht, if_neg hne]

theorem setBit_value_witness :
    ((clientOn [(bytesOf [107], bytesOf [255])]).AtomicSetStringBit noFaults (bytesOf [107]) 17
        false).result = true ∧
      ((clientOn [(bytesOf [107], bytesOf [255])]).AtomicSetStringBit noFaults (bytesOf [107]) 17
        false).self.contents.get (bytesOf [107]) = some (bytesOf [255, 0, 0]) ∧
      ((((clientOn [(bytesOf [107], bytesOf [255])]).AtomicSetStringBit noFaults (bytesOf [107]) 17
        false).self.contents.get (bytesOf [107])).getD []).length = 3 := by
  refine ⟨by decide, by decide, ?_⟩
  obtain ⟨w, hw, hlen, _⟩ := setBit_value (clientOn [(bytesOf [107], bytesOf [255])]) noFaults
    (bytesOf [107]) 17 false (by decide)
  rw [hw]
  exact hlen.trans (by decide)

/-- Claim C10. For a bit index below 0 or above `MAX_BIT_INDEX = 255`, for every
key, every handle state and every fault schedule, `AtomicSetStringBit` and
`GetStringBit` return `false` and leave the whole object as it was: the
environment (its table and its count of begun transactions) is untouched, so
no transaction is opened, and the output `b` keeps its state. -/
theorem bit_index_out_of_range (c : LMDBClient) (fl : EngineFaults) (key : Bytes) (i : Int)
    (set : Bool) (b : Option Bool) (h : i < 0 ∨ i > 255) :
    c.AtomicSetStringBit fl key i set = ⟨false, c, ()⟩ ∧
      c.GetStringBit fl key i b = ⟨false, c, b⟩ := by
  have hr : i < 0 ∨ i > MAX_BIT_INDEX := h
  unfold LMDBClient.AtomicSetStringBit LMDBClient.GetStringBit
  rw [if_pos hr, if_pos hr]
  exact ⟨rfl, rfl⟩

theorem bit_index_out_of_range_witness :
    ((256 : Int) < 0 ∨ (256 : Int) > 255) ∧
      (clientOn []).AtomicSetStringBit noFaults (bytesOf [107]) 256 true
        = ⟨false, clientOn [], ()⟩ ∧
      (clientOn []).GetStringBit noFaults (bytesOf [107]) 256 (some true)
        = ⟨false, clientOn [], some true⟩ :=
  ⟨by decide, bit_index_out_of_range (clientOn []) noFaults (bytesOf [107]) 256 true (some true)
    (by decide)⟩

/-! ## Reading bits and typed values -/

/-- Claim C11. On an initialized handle, engine not forced to fail, for a
non-empty key `k` whose stored value is `v` and a bit index `i` in `[0, 255]`:
`GetStringBit(k, i, &b)` reports success, with `b = false` when byte `i / 8` lies
beyond `v`, and otherwise with `b` the bit at position `i % 8` (position 0 the
least significant) of byte `i / 8` of `v`. -/
theorem GetStringBit_reads (c : LMDBClient) (k v : Bytes) (i : Int) (b : Bool)
    (hr : c.Ready) (hk : k ≠ []) (hv : c.contents.get k = some v) (hi : 0 ≤ i ∧ i ≤ 255) :
    (c.GetStringBit noFaults k i (some b)).result = true ∧
      (c.GetStringBit noFaults k i (some b)).out =
        some (if v.length ≤ (i / 8).toNat then false
          else (v.getD (i / 8).toNat 0).val.testBit (i % 8).toNat) := by
  obtain ⟨hin, hdbi, env, henv, _⟩ := hr
  have hc : c.contents = env.data := by simp [LMDBClient.contents, henv]
  rw [hc] at hv
  rw [GetStringBit_noFaults c env k i b hin henv hdbi hk hi, hv]
  refine ⟨rfl, ?_⟩
  simp only [bitAt, readBit_eq_testBit]
  by_cases hlen : v.length ≤ (i / 8).toNat
  · rw [if_pos hlen, List.getD_eq_getElem?_getD, List.getElem?_eq_none hlen]
    simp
  · rw [if_neg hlen]

theorem GetStringBit_reads_witness :
    (clientOn [(bytesOf [107], bytesOf [0, 2])]).Ready ∧
      ((clientOn [(bytesOf [107], bytesOf [0, 2])]).GetStringBit noFaults (bytesOf [107]) 9
        (some false)).out = some true ∧
      ((clientOn [(bytesOf [107], bytesOf [0, 2])]).GetStringBit noFaults (bytesOf [107]) 16
        (some true)).out = some false :=
  have hr : (clientOn [(bytesOf [107], bytesOf [0, 2])]).Ready := ⟨rfl, rfl, _, rfl, rfl⟩
  ⟨hr,
    (GetStringBit_reads _ (bytesOf [107]) (bytesOf [0, 2]) 9 false hr (by decide) rfl
      (by decide)).2.trans (by decide),
    (GetStringBit_reads _ (bytesOf [107]) (bytesOf [0, 2]) 16 true hr (by decide) rfl
      (by decide)).2.trans (by decide)⟩

/-- A read transaction that reports failure hands back the output exactly as
its unit of work left it on the failing paths. -/
theorem ExecuteReadTransaction_false_out {α : Type} (c : LMDBClient) (fl : EngineFaults)
    (out : α) (func : MDB_txn → Work α)
    (hfalse : ∀ txn t o, func txn = .returned false t o → o = out)
    (hthrew : ∀ txn o, func txn = .threw o → o = out)
    (h : (c.ExecuteReadTransaction fl out func).result = false) :
    (c.ExecuteReadTransaction fl out func).out = out := by
  obtain ⟨env_, dbi_, initialized_, read_only_⟩ := c
  obtain ⟨fb, fops, fc⟩ := fl
  cases initialized_ <;>
    simp only [LMDBClient.ExecuteReadTransaction] at h ⊢ <;> try (simp; done)
  cases env_ with
  | none => simp
  | some env =>
    obtain ⟨data, rdonly, txns⟩ := env
    cases fb <;>
      simp [mdb_txn_begin, ENOMEM, EACCES, MDB_SUCCESS] at h ⊢
    cases hf : func ⟨data, true, fops⟩ with
    | threw o => simpa [hf] using hthrew _ o hf
    | returned success txn o =>
      cases success with
      | false => simpa [hf] using hfalse _ txn o hf
      | true => simp [hf] at h

/-- The call `GetInt` on an initialized handle, engine not forced to fail. -/
theorem GetInt_noFaults_eq (c : LMDBClient) (env : MDB_env) (k : Bytes) (value : Option Int)
    (hin : c.initialized_ = true) (henv : c.env_ = some env) (hdbi : c.dbi_ = MAIN_DBI)
    (hk : k ≠ []) :
    (c.GetInt noFaults k value).result =
      match env.data.get k with
      | some v => decide (v.length = 4)
      | none => false := by
  unfold LMDBClient.GetInt
  rw [ExecuteReadTransaction_noFaults c env _ _ hin henv, hdbi, mdb_get_noFault _ _ _ hk]
  cases hv : env.data.get k with
  | none => simp [MDB_NOTFOUND, MDB_SUCCESS]
  | some v => by_cases hl : v.length = 4 <;> simp [hl]

/-- The call `GetDouble` on an initialized handle, engine not forced to fail. -/
theorem GetDouble_noFaults_eq (c : LMDBClient) (env : MDB_env) (k : Bytes) (value : Option Nat)
    (hin : c.initialized_ = true) (henv : c.env_ = some env) (hdbi : c.dbi_ = MAIN_DBI)
    (hk : k ≠ []) :
    (c.GetDouble noFaults k value).result =
      match env.data.get k with
      | some v => decide (v.length = 8)
      | none => false := by
  unfold LMDBClient.GetDouble
  rw [ExecuteReadTransaction_noFaults c env _ _ hin henv, hdbi, mdb_get_noFault _ _ _ hk]
  cases hv : env.data.get k with
  | none => simp [MDB_NOTFOUND, MDB_SUCCESS]
  | some v => by_cases hl : v.length = 8 <;> simp [hl]

/-- Claim C12. On an initialized handle, engine not forced to fail, for a
non-empty key `k`: `GetInt(k)` reports success exactly when `k` is present with
a value of exactly 4 bytes, and `GetDouble(k)` exactly when `k` is present with
a value of exactly 8 bytes.  Whenever either returns `false` (any other length
included, and under every fault schedule) the output is left as it was; the
result is a plain `false`, there is no decode error. -/
theorem typed_get_by_length (c : LMDBClient) (k : Bytes) (iv : Option Int) (dv : Option Nat)
    (hr : c.Ready) (hk : k ≠ []) :
    ((c.GetInt noFaults k iv).result = true ↔
        ∃ v, c.contents.get k = some v ∧ v.length = 4) ∧
      ((c.GetDouble noFaults k dv).result = true ↔
        ∃ v, c.contents.get k = some v ∧ v.length = 8) ∧
      (∀ fl, (c.GetInt fl k iv).result = false → (c.GetInt fl k iv).out = iv) ∧
      (∀ fl, (c.GetDouble fl k dv).result = false → (c.GetDouble fl k dv).out = dv) := by
  obtain ⟨hin, hdbi, env, henv, _⟩ := hr
  have hc : c.contents = env.data := by simp [LMDBClient.contents, henv]
  rw [hc]
  refine ⟨?_, ?_, ?_, ?_⟩
  · rw [GetInt_noFaults_eq c env k iv hin henv hdbi hk]
    cases env.data.get k <;> simp
  · rw [GetDouble_noFaults_eq c env k dv hin henv hdbi hk]
    cases env.data.get k <;> simp
  · intro fl h
    unfold LMDBClient.GetInt at h ⊢
    apply ExecuteReadTransaction_false_out _ _ _ _ _ _ h
    · intro txn t o hf
      simp only at hf
      split at hf
      · cases hf
      · simp only [Work.returned.injEq] at hf; exact hf.2.2.symm
    · intro txn o hf
      simp only at hf
      split at hf <;> cases hf
  · intro fl h
    unfold LMDBClient.GetDouble at h ⊢
    apply ExecuteReadTransaction_false_out _ _ _ _ _ _ h
    · intro txn t o hf
      simp only at hf
      split at hf
      · cases hf
      · simp only [Work.returned.injEq] at hf; exact hf.2.2.symm
    · intro txn o hf
      simp only at hf
      split at hf <;> cases hf

theorem typed_get_by_length_witness :
    (clientOn [(bytesOf [107], bytesOf [1, 2, 3])]).Ready ∧
      ((clientOn [(bytesOf [107], bytesOf [1, 2, 3])]).GetInt noFaults (bytesOf [107])
        (some 7)).result = false ∧
      ((clientOn [(bytesOf [107], bytesOf [1, 2, 3])]).GetInt noFaults (bytesOf [107])
        (some 7)).out = some 7 :=
  have hr : (clientOn [(bytesOf [107], bytesOf [1, 2, 3])]).Ready := ⟨rfl, rfl, _, rfl, rfl⟩
  ⟨hr, by decide,
    (typed_get_by_length _ (bytesOf [107]) (some 7) none hr (by decide)).2.2.1 noFaults
      (by decide)⟩

/-! ## Lifecycle facts -/

/-- A call of `Initialize` that returns `true` on a handle that was not
initialized leaves an initialized handle with the requested mode over the
table found on disk (empty when there was no data file). -/
theorem Initialize_success (c0 c : LMDBClient) (fl : OpenFaults) (disk : Option Store)
    (db_path : Bytes) (map_size_mb : Nat) (read_only : Bool)
    (hfresh : c0.initialized_ = false)
    (h : c0.Initialize fl disk db_path map_size_mb read_only = .returned true c) :
    c.Ready ∧ c.read_only_ = read_only ∧ c.contents = disk.getD [] := by
  obtain ⟨env_, dbi_, initialized_, read_only_⟩ := c0
  obtain ⟨fdir, fcreate, fopen, ⟨fbegin, fops, fcommit⟩⟩ := fl
  simp only at hfresh
  subst hfresh
  simp only [LMDBClient.Initialize, Bool.false_eq_true, if_false] at h
  cases fdir
  swap
  · simp [CreateDirIfNotExists] at h
  cases fcreate
  swap
  · simp [CreateDirIfNotExists, mdb_env_create, ENOMEM, MDB_SUCCESS] at h
  cases fopen
  swap
  · simp [CreateDirIfNotExists, mdb_env_create, mdb_env_open, mdb_env_set_mapsize,
      mdb_env_set_maxreaders, ENOMEM, MDB_SUCCESS] at h
  cases fbegin
  swap
  · cases disk <;> cases read_only <;>
      simp [CreateDirIfNotExists, mdb_env_create, mdb_env_open, mdb_env_set_mapsize,
        mdb_env_set_maxreaders, mdb_txn_begin, ENOMEM, ENOENT, MDB_SUCCESS] at h
  have key : ∀ (fo : Bool) (rest : List Bool),
      (fops = [] ∧ fo = false) ∨ fops = fo :: rest →
      c.Ready ∧ c.read_only_ = read_only ∧ c.contents = disk.getD [] := by
    intro fo rest hfops
    cases fo
    swap
    · rcases hfops with ⟨_, h2⟩ | hfops
      · cases h2
      · subst hfops
        cases disk <;> cases read_only <;>
          simp [CreateDirIfNotExists, mdb_env_create, mdb_env_open, mdb_env_set_mapsize,
            mdb_env_set_maxreaders, mdb_txn_begin, mdb_dbi_open, MDB_txn.fault, ENOMEM, ENOENT,
            EACCES, MDB_SUCCESS] at h
    · have hf : ∀ (d : Store) (r : Bool), (⟨d, r, fops⟩ : MDB_txn).fault = false := by
        intro d r
        rcases hfops with ⟨h1, _⟩ | h1 <;> subst h1 <;> rfl
      cases disk <;> cases read_only <;> cases fcommit <;>
        simp [CreateDirIfNotExists, mdb_env_create, mdb_env_open, mdb_env_set_mapsize,
          mdb_env_set_maxreaders, mdb_txn_begin, mdb_dbi_open, mdb_txn_commit, hf,
          MDB_txn.next, ENOMEM, ENOENT, EACCES, MDB_SUCCESS] at h <;>
        subst h <;>
        simp [LMDBClient.Ready, LMDBClient.contents]
  cases fops with
  | nil => exact key false [] (Or.inl ⟨rfl, rfl⟩)
  | cons fo rest => exact key fo rest (Or.inr rfl)

/-- A call of `Initialize` that fails or throws, on a handle that was not
initialized, leaves it not initialized. -/
theorem Initialize_failure (c0 : LMDBClient) (fl : OpenFaults) (disk : Option Store)
    (db_path : Bytes) (map_size_mb : Nat) (read_only : Bool)
    (hfresh : c0.initialized_ = false) :
    (∀ c, c0.Initialize fl disk db_path map_size_mb read_only = .returned false c →
        c.initialized_ = false) ∧
      (∀ c, c0.Initialize fl disk db_path map_size_mb read_only = .threw c →
        c.initialized_ = false) := by
  constructor <;> intro c h <;> unfold LMDBClient.Initialize at h <;>
    simp only [hfresh, Bool.false_eq_true, if_false] at h <;>
    repeat' split at h
  all_goals cases h
  all_goals rfl

/-- Closing an initialized handle leaves it not initialized, with no environment. -/
theorem Close_ready (c : LMDBClient) (h : c.Ready) :
    c.Close.initialized_ = false ∧ c.Close.env_ = none := by
  obtain ⟨_, _, env, henv, _⟩ := h
  simp [LMDBClient.Close, henv]

theorem Close_Close (c : LMDBClient) : c.Close.Close = c.Close := by
  cases henv : c.env_ with
  | none => simp [LMDBClient.Close, henv]
  | some env => simp [LMDBClient.Close, henv]

/-- A write executor on a read-only handle does nothing. -/
theorem ExecuteWriteTransaction_read_only {α : Type} (c : LMDBClient) (fl : EngineFaults)
    (out : α) (func : MDB_txn → Work α) (h : c.read_only_ = true) :
    c.ExecuteWriteTransaction fl out func = ⟨false, c, out⟩ := by
  simp [LMDBClient.ExecuteWriteTransaction, h]

/-- A write executor on a handle that is not initialized does nothing. -/
theorem ExecuteWriteTransaction_uninit {α : Type} (c : LMDBClient) (fl : EngineFaults)
    (out : α) (func : MDB_txn → Work α) (h : c.initialized_ = false) :
    c.ExecuteWriteTransaction fl out func = ⟨false, c, out⟩ := by
  simp [LMDBClient.ExecuteWriteTransaction, h]

/-- A read executor on a handle that is not initialized does nothing. -/
theorem ExecuteReadTransaction_uninit {α : Type} (c : LMDBClient) (fl : EngineFaults)
    (out : α) (func : MDB_txn → Work α) (h : c.initialized_ = false) :
    c.ExecuteReadTransaction fl out func = ⟨false, c, out⟩ := by
  simp [LMDBClient.ExecuteReadTransaction, h]

/-- Every mutating operation goes through the write executor (or stops before
it), so an executor that declines every unit of work makes all of them return
`false` with the object untouched. -/
theorem mutations_declined (c : LMDBClient) (fl : EngineFaults)
    (hdecline : ∀ (func : MDB_txn → Work Unit),
      c.ExecuteWriteTransaction fl () func = ⟨false, c, ()⟩)
    (fadd : Nat → Nat → Nat) (key value : Bytes) (dvalue : Nat) (bit_index : Int) (set : Bool)
    (increment : Int) (dincrement : Nat) (puts : List (Bytes × Bytes))
    (dputs : List (Bytes × Nat)) (deletes : List Bytes) (pfx : Bytes) :
    c.Put fl key value = ⟨false, c, ()⟩ ∧
      c.PutDouble fl key dvalue = ⟨false, c, ()⟩ ∧
      c.Delete fl key = ⟨false, c, ()⟩ ∧
      c.AtomicSetStringBit fl key bit_index set = ⟨false, c, ()⟩ ∧
      c.AtomicIncrement fl key increment = ⟨false, c, ()⟩ ∧
      c.AtomicIncrementDouble fl fadd key dincrement = ⟨false, c, ()⟩ ∧
      c.WriteBatch fl puts deletes = ⟨false, c, ()⟩ ∧
      c.WriteBatchDouble fl dputs deletes = ⟨false, c, ()⟩ ∧
      c.DeleteKeys fl pfx = ⟨false, c, ()⟩ ∧
      c.DeleteDatabase fl = ⟨false, c, ()⟩ := by
  refine ⟨hdecline _, ?_, hdecline _, ?_, hdecline _, hdecline _, hdecline _, ?_, ?_,
    hdecline _⟩
  · unfold LMDBClient.PutDouble LMDBClient.Put
    exact hdecline _
  · unfold LMDBClient.AtomicSetStringBit
    split
    · rfl
    · exact hdecline _
  · unfold LMDBClient.WriteBatchDouble LMDBClient.WriteBatch
    exact hdecline _
  · unfold LMDBClient.DeleteKeys
    split
    · exact hdecline _
    · exact hdecline _

/-- Claim C13. On a handle that a call `Initialize(path, mapSize, true)` has
just initialized (it was not initialized before and the call returned `true`),
every mutating operation returns `false` for every argument and every fault
schedule, and leaves the whole object as it was: the table is unmodified and
no transaction is begun. -/
theorem readOnly_rejects_mutations (c0 c : LMDBClient) (ofl : OpenFaults)
    (disk : Option Store) (db_path : Bytes) (map_size_mb : Nat)
    (hfresh : c0.initialized_ = false)
    (hinit : c0.Initialize ofl disk db_path map_size_mb true = .returned true c)
    (fl : EngineFaults) (fadd : Nat → Nat → Nat) (key value : Bytes) (dvalue : Nat)
    (bit_index : Int) (set : Bool) (increment : Int) (dincrement : Nat)
    (puts : List (Bytes × Bytes)) (dputs : List (Bytes × Nat)) (deletes : List Bytes)
    (pfx : Bytes) :
    c.Put fl key value = ⟨false, c, ()⟩ ∧
      c.PutDouble fl key dvalue = ⟨false, c, ()⟩ ∧
      c.Delete fl key = ⟨false, c, ()⟩ ∧
      c.AtomicSetStringBit fl key bit_index set = ⟨false, c, ()⟩ ∧
      c.AtomicIncrement fl key increment = ⟨false, c, ()⟩ ∧
      c.AtomicIncrementDouble fl fadd key dincrement = ⟨false, c, ()⟩ ∧
      c.WriteBatch fl puts deletes = ⟨false, c, ()⟩ ∧
      c.WriteBatchDouble fl dputs deletes = ⟨false, c, ()⟩ ∧
      c.DeleteKeys fl pfx = ⟨false, c, ()⟩ ∧
      c.DeleteDatabase fl = ⟨false, c, ()⟩ := by
  obtain ⟨_, hro, _⟩ :=
    Initialize_success c0 c ofl disk db_path map_size_mb true hfresh hinit
  exact mutations_declined c fl (fun f => ExecuteWriteTransaction_read_only c fl () f hro)
    fadd key value dvalue bit_index set increment dincrement puts dputs deletes pfx

theorem readOnly_rejects_mutations_witness :
    freshClient.initialized_ = false ∧
      freshClient.Initialize noOpenFaults (some userStore) (bytesOf [100]) 100 true
        = .returned true (readOnlyClientOn userStore) ∧
      (readOnlyClientOn userStore).Put noFaults key_user1 (bytesOf [9])
        = ⟨false, readOnlyClientOn userStore, ()⟩ :=
  ⟨rfl, rfl,
    (readOnly_rejects_mutations freshClient (readOnlyClientOn userStore) noOpenFaults
      (some userStore) (bytesOf [100]) 100 rfl rfl noFaults (fun a _ => a) key_user1
      (bytesOf [9]) 0 0 true 0 0 [] [] [] []).1⟩

/-- Claim C14. On a handle that is not initialized, every operation other than
`Initialize` and `Close` fails fast, for every argument and fault schedule: the
mutating operations and `Get`, `GetDouble`, `GetInt`, `Exists`, `GetStringBit`
return `false` with their output untouched, `GetKeys` returns the empty
sequence, and the object is left exactly as it was, so no engine transaction
is begun. -/
theorem uninitialized_fails_fast (c : LMDBClient) (h : c.initialized_ = false)
    (fl : EngineFaults) (fadd : Nat → Nat → Nat) (key value : Bytes) (dvalue : Nat)
    (bit_index : Int) (set : Bool) (increment : Int) (dincrement : Nat)
    (puts : List (Bytes × Bytes)) (dputs : List (Bytes × Nat)) (deletes : List Bytes)
    (pfx : Bytes) (out : Option Bytes) (dout : Option Nat) (iout : Option Int)
    (bit_value : Option Bool) :
    (c.Put fl key value = ⟨false, c, ()⟩ ∧
      c.PutDouble fl key dvalue = ⟨false, c, ()⟩ ∧
      c.Delete fl key = ⟨false, c, ()⟩ ∧
      c.AtomicSetStringBit fl key bit_index set = ⟨false, c, ()⟩ ∧
      c.AtomicIncrement fl key increment = ⟨false, c, ()⟩ ∧
      c.AtomicIncrementDouble fl fadd key dincrement = ⟨false, c, ()⟩ ∧
      c.WriteBatch fl puts deletes = ⟨false, c, ()⟩ ∧
      c.WriteBatchDouble fl dputs deletes = ⟨false, c, ()⟩ ∧
      c.DeleteKeys fl pfx = ⟨false, c, ()⟩ ∧
      c.DeleteDatabase fl = ⟨false, c, ()⟩) ∧
      c.Get fl key out = ⟨false, c, out⟩ ∧
      c.GetDouble fl key dout = ⟨false, c, dout⟩ ∧
      c.GetInt fl key iout = ⟨false, c, iout⟩ ∧
      c.Exists fl key = ⟨false, c, ()⟩ ∧
      c.GetStringBit fl key bit_index bit_value = ⟨false, c, bit_value⟩ ∧
      c.GetKeys fl pfx = ([], c) := by
  refine ⟨mutations_declined c fl (fun f => ExecuteWriteTransaction_uninit c fl () f h)
    fadd key value dvalue bit_index set increment dincrement puts dputs deletes pfx,
    ExecuteReadTransaction_uninit c fl _ _ h, ExecuteReadTransaction_uninit c fl _ _ h,
    ExecuteReadTransaction_uninit c fl _ _ h, ExecuteReadTransaction_uninit c fl _ _ h, ?_, ?_⟩
  · unfold LMDBClient.GetStringBit
    split
    · rfl
    · exact ExecuteReadTransaction_uninit c fl _ _ h
  · unfold LMDBClient.GetKeys
    rw [ExecuteReadTransaction_uninit c fl _ _ h]

theorem uninitialized_fails_fast_witness :
    freshClient.initialized_ = false ∧
      freshClient.Get noFaults key_user1 (some [7]) = ⟨false, freshClient, some [7]⟩ ∧
      freshClient.GetKeys noFaults [] = ([], freshClient) :=
  have h := uninitialized_fails_fast freshClient rfl noFaults (fun a _ => a) key_user1 [] 0 0
    true 0 0 [] [] [] [] (some [7]) none none none
  ⟨rfl, h.2.1, h.2.2.2.2.2.2⟩

/-! ## Deleting -/

theorem mdb_del_success (txn : MDB_txn) (dbi : Nat) (key : Bytes)
    (h : (mdb_del txn dbi key).1 = MDB_SUCCESS) :
    dbi = MAIN_DBI ∧ key ≠ [] ∧ (∃ v, txn.data.get key = some v) ∧
      (mdb_del txn dbi key).2 = { txn.next with data := txn.data.del key } := by
  unfold mdb_del at h ⊢
  repeat' split at h
  all_goals simp_all [ENOMEM, EINVAL, EACCES, MDB_BAD_VALSIZE, MDB_NOTFOUND, MDB_SUCCESS]

theorem mdb_drop_success (txn : MDB_txn) (dbi : Nat) (h : (mdb_drop txn dbi).1 = MDB_SUCCESS) :
    dbi = MAIN_DBI ∧ (mdb_drop txn dbi).2 = { txn.next with data := [] } := by
  unfold mdb_drop at h ⊢
  repeat' split at h
  all_goals simp_all [ENOMEM, EINVAL, EACCES, MDB_SUCCESS]

/-- Claim C15, as the code has it. For every handle state and fault schedule and
every key `k` that is not in the table, `Delete(k)` returns `false` (the
engine's `mdb_del` reports `MDB_NOTFOUND`, and `Delete` returns `true` only for
`MDB_SUCCESS`) and leaves the table unchanged. -/
theorem Delete_absent (c : LMDBClient) (fl : EngineFaults) (k : Bytes)
    (habsent : c.contents.get k = none) :
    (c.Delete fl k).result = false ∧ (c.Delete fl k).self.contents = c.contents := by
  have hres : (c.Delete fl k).result = false := by
    cases hr : (c.Delete fl k).result with
    | false => rfl
    | true =>
      unfold LMDBClient.Delete at hr
      obtain ⟨env, txn, o, henv, _, _, _, hf, _⟩ :=
        ExecuteWriteTransaction_success c fl () _ hr
      simp only [Work.returned.injEq, decide_eq_true_eq] at hf
      obtain ⟨_, _, ⟨v, hv⟩, _⟩ := mdb_del_success _ _ _ hf.1
      have hc : c.contents = env.data := by simp [LMDBClient.contents, henv]
      rw [hc] at habsent
      simp only at hv
      rw [habsent] at hv
      cases hv
  exact ⟨hres, ExecuteWriteTransaction_failure c fl () _ hres⟩

theorem Delete_absent_witness :
    (clientOn userStore).contents.get (bytesOf [107]) = none ∧
      ((clientOn userStore).Delete noFaults (bytesOf [107])).result = false ∧
      ((clientOn userStore).Delete noFaults (bytesOf [107])).self.contents = userStore :=
  ⟨by decide, Delete_absent (clientOn userStore) noFaults (bytesOf [107]) (by decide)⟩

/-- Claim C15 as stated fails: on an initialized, writable handle over a table
without the key `"k"`, `Delete("k")` does not return `true`. -/
theorem Delete_absent_counterexample :
    (clientOn userStore).Writable ∧
      (clientOn userStore).contents.get (bytesOf [107]) = none ∧
      ¬ ((clientOn userStore).Delete noFaults (bytesOf [107])).result = true :=
  ⟨⟨⟨rfl, rfl, _, rfl, rfl⟩, rfl⟩, by decide, by decide⟩

/-! ## Clearing the table -/

/-- What a successful `DeleteDatabase` leaves behind: the same handle, still
initialized, over the empty table. -/
theorem DeleteDatabase_success (c : LMDBClient) (fl : EngineFaults)
    (h : (c.DeleteDatabase fl).result = true) :
    ∃ env, c.env_ = some env ∧ c.initialized_ = true ∧ c.dbi_ = MAIN_DBI ∧
      (c.DeleteDatabase fl).self = { c with env_ := some ⟨[], env.rdonly, env.txns + 1⟩ } := by
  unfold LMDBClient.DeleteDatabase at h ⊢
  obtain ⟨env, txn, o, henv, hin, _, _, hf, heq⟩ := ExecuteWriteTransaction_success c fl () _ h
  simp only [Work.returned.injEq, decide_eq_true_eq] at hf
  obtain ⟨hrc, htxn, _⟩ := hf
  obtain ⟨hdbi, hdrop⟩ := mdb_drop_success _ _ hrc
  refine ⟨env, henv, hin, hdbi, ?_⟩
  rw [heq, ← htxn, hdrop]

/-- The call `GetKeys("")` on an initialized handle over the empty table, engine
not forced to fail, returns the empty sequence. -/
theorem GetKeys_empty_table (c : LMDBClient) (env : MDB_env) (hin : c.initialized_ = true)
    (henv : c.env_ = some env) (hdbi : c.dbi_ = MAIN_DBI) (hdata : env.data = []) :
    (c.GetKeys noFaults []).1 = [] := by
  unfold LMDBClient.GetKeys
  simp only
  rw [ExecuteReadTransaction_noFaults c env _ _ hin henv, hdbi]
  obtain ⟨txn, hf⟩ := GetKeys_func_noFault [] env.data true
  rw [hf, hdata]
  rfl

/-- Claim C16. The call `DeleteKeys("")` is `DeleteDatabase()`: for every handle
state and fault schedule both give the same result and leave the same object
(hence the same table); when they succeed the table is empty, `GetKeys("")`
returns the empty sequence, and the handle is still initialized. -/
theorem DeleteKeys_empty_is_DeleteDatabase (c : LMDBClient) (fl : EngineFaults) :
    c.DeleteKeys fl [] = c.DeleteDatabase fl ∧
      ((c.DeleteKeys fl []).result = true →
        (c.DeleteKeys fl []).self.contents = [] ∧
          ((c.DeleteKeys fl []).self.GetKeys noFaults []).1 = [] ∧
          (c.DeleteKeys fl []).self.initialized_ = true) := by
  have heq : c.DeleteKeys fl [] = c.DeleteDatabase fl := by
    unfold LMDBClient.DeleteKeys
    rw [if_pos rfl]
  refine ⟨heq, ?_⟩
  rw [heq]
  intro h
  obtain ⟨env, henv, hin, hdbi, hself⟩ := DeleteDatabase_success c fl h
  refine ⟨?_, ?_, ?_⟩
  · rw [hself]; rfl
  · exact GetKeys_empty_table _ ⟨[], env.rdonly, env.txns + 1⟩ (by rw [hself]; exact hin)
      (by rw [hself]) (by rw [hself]; exact hdbi) rfl
  · rw [hself]; exact hin

theorem DeleteKeys_empty_is_DeleteDatabase_witness :
    (clientOn userStore).DeleteKeys noFaults [] = (clientOn userStore).DeleteDatabase noFaults ∧
      ((clientOn userStore).DeleteKeys noFaults []).result = true ∧
      ((clientOn userStore).DeleteKeys noFaults []).self.contents = [] :=
  have h := DeleteKeys_empty_is_DeleteDatabase (clientOn userStore) noFaults
  have hr : ((clientOn userStore).DeleteKeys noFaults []).result = true := by decide
  ⟨h.1, hr, (h.2 hr).1⟩

/-! ## What a successful `WriteBatch` leaves -/

theorem Store.get_put_other (s : Store) (k v k' : Bytes) (hne : k' ≠ k) :
    (s.put k v).get k' = s.get k' := by
  induction s with
  | nil => simp [Store.put, Store.get, Ne.symm hne]
  | cons e rest ih =>
    obtain ⟨a, b⟩ := e
    unfold Store.put
    split
    · simp only [Store.get, ih]
    · split
      · rename_i hak
        subst hak
        simp [Store.get, Ne.symm hne]
      · simp [Store.get, Ne.symm hne]

theorem Store.get_del_other (s : Store) (k k' : Bytes) (hne : k' ≠ k) :
    (s.del k).get k' = s.get k' := by
  induction s with
  | nil => rfl
  | cons e rest ih =>
    obtain ⟨a, b⟩ := e
    unfold Store.del
    split
    · rename_i hak
      subst hak
      simp [Store.get, Ne.symm hne]
    · simp only [Store.get, ih]

theorem Store.get_del_of_none (s : Store) (k d : Bytes) (h : s.get k = none) :
    (s.del d).get k = none := by
  induction s with
  | nil => rfl
  | cons e rest ih =>
    obtain ⟨a, b⟩ := e
    unfold Store.get at h
    split at h
    · cases h
    · rename_i hak
      unfold Store.del
      split
      · exact h
      · simp only [Store.get, hak, if_false]
        exact ih h

theorem Store.get_none_of_lt (s : Store) (k : Bytes) (h : ∀ e ∈ s, keyLt k e.1 = true) :
    s.get k = none := by
  induction s with
  | nil => rfl
  | cons e rest ih =>
    obtain ⟨a, b⟩ := e
    have hne : a ≠ k := by
      intro hak
      have := h (a, b) (List.mem_cons_self _ _)
      simp only [hak, keyLt_irrefl] at this
      cases this
    simp only [Store.get, hne, if_false]
    exact ih (fun e he => h e (List.mem_cons_of_mem _ he))

/-- In an ascending table a deleted key is gone. -/
theorem Store.get_del_same (s : Store) (k : Bytes) (hs : s.Sorted) : (s.del k).get k = none := by
  induction s with
  | nil => rfl
  | cons e rest ih =>
    obtain ⟨a, b⟩ := e
    have hs2 := List.pairwise_cons.mp hs
    unfold Store.del
    split
    · rename_i hak
      subst hak
      exact Store.get_none_of_lt rest a hs2.1
    · rename_i hak
      simp only [Store.get, hak, if_false]
      exact ih hs2.2

theorem get_foldl_put_other (puts : List (Bytes × Bytes)) (s : Store) (k : Bytes)
    (hk : k ∉ puts.map Prod.fst) :
    (puts.foldl (fun t kv => t.put kv.1 kv.2) s).get k = s.get k := by
  induction puts generalizing s with
  | nil => rfl
  | cons e rest ih =>
    simp only [List.map_cons, List.mem_cons, not_or] at hk
    rw [List.foldl_cons, ih _ hk.2, Store.get_put_other _ _ _ _ hk.1]

theorem sorted_foldl_put (puts : List (Bytes × Bytes)) (s : Store) (hs : s.Sorted) :
    (puts.foldl (fun t kv => t.put kv.1 kv.2) s).Sorted := by
  induction puts generalizing s with
  | nil => exact hs
  | cons e rest ih => exact ih _ (Store.put_sorted s e.1 e.2 hs)

theorem get_foldl_del_other (deletes : List Bytes) (s : Store) (k : Bytes) (hk : k ∉ deletes) :
    (deletes.foldl Store.del s).get k = s.get k := by
  induction deletes generalizing s with
  | nil => rfl
  | cons d rest ih =>
    simp only [List.mem_cons, not_or] at hk
    rw [List.foldl_cons, ih _ hk.2, Store.get_del_other _ _ _ hk.1]

theorem get_foldl_del_of_none (deletes : List Bytes) (s : Store) (k : Bytes)
    (h : s.get k = none) : (deletes.foldl Store.del s).get k = none := by
  induction deletes generalizing s with
  | nil => exact h
  | cons d rest ih => exact ih _ (Store.get_del_of_none s k d h)

theorem get_foldl_del_mem (deletes : List Bytes) (s : Store) (k : Bytes) (hs : s.Sorted)
    (hk : k ∈ deletes) : (deletes.foldl Store.del s).get k = none := by
  induction deletes generalizing s with
  | nil => cases hk
  | cons d rest ih =>
    rw [List.foldl_cons]
    by_cases hkd : k = d
    · subst hkd
      exact get_foldl_del_of_none rest _ k (Store.get_del_same s k hs)
    · rcases List.mem_cons.mp hk with h | h
      · exact absurd h hkd
      · exact ih _ (Store.del_sorted s d hs) h

theorem WriteBatch_puts_success (dbi : Nat) (puts : List (Bytes × Bytes)) (txn : MDB_txn)
    (h : (WriteBatch_puts dbi txn puts).1 = true) :
    (WriteBatch_puts dbi txn puts).2.data = puts.foldl (fun t kv => t.put kv.1 kv.2) txn.data := by
  induction puts generalizing txn with
  | nil => rfl
  | cons e rest ih =>
    obtain ⟨k, v⟩ := e
    simp only [WriteBatch_puts] at h ⊢
    by_cases hp : (mdb_put txn dbi k v).1 = MDB_SUCCESS
    · simp only [hp, ne_eq, not_true_eq_false, if_false] at h ⊢
      rw [ih _ h, (mdb_put_success _ _ _ _ hp).2.2]
      rfl
    · simp [hp] at h

theorem WriteBatch_deletes_success (dbi : Nat) (deletes : List Bytes) (txn : MDB_txn)
    (h : (WriteBatch_deletes dbi txn deletes).1 = true) :
    (WriteBatch_deletes dbi txn deletes).2.data = deletes.foldl Store.del txn.data := by
  induction deletes generalizing txn with
  | nil => rfl
  | cons k rest ih =>
    simp only [WriteBatch_deletes] at h ⊢
    by_cases hp : (mdb_del txn dbi k).1 = MDB_SUCCESS
    · simp only [hp, ne_eq, not_true_eq_false, if_false] at h ⊢
      rw [ih _ h, (mdb_del_success _ _ _ hp).2.2.2]
      rfl
    · simp [hp] at h

/-- What a successful `WriteBatch` leaves behind: the puts applied in list
order, then the deletes. -/
theorem WriteBatch_success (c : LMDBClient) (fl : EngineFaults) (puts : List (Bytes × Bytes))
    (deletes : List Bytes) (h : (c.WriteBatch fl puts deletes).result = true) :
    (c.WriteBatch fl puts deletes).self.contents =
      deletes.foldl Store.del (puts.foldl (fun t kv => t.put kv.1 kv.2) c.contents) := by
  unfold LMDBClient.WriteBatch at h ⊢
  obtain ⟨env, txn, o, henv, _, _, _, hf, heq⟩ := ExecuteWriteTransaction_success c fl () _ h
  have hc : c.contents = env.data := by simp [LMDBClient.contents, henv]
  simp only [Work.returned.injEq] at hf
  obtain ⟨hres, htxn, _⟩ := hf
  unfold WriteBatch_func at hres htxn
  by_cases hp : (WriteBatch_puts c.dbi_ ⟨env.data, false, fl.ops⟩ puts).1 = true
  · simp only [hp, if_true] at hres htxn
    rw [heq, hc]
    simp only [LMDBClient.contents]
    rw [← htxn, WriteBatch_deletes_success _ _ _ hres, WriteBatch_puts_success _ _ _ hp]
  · simp [hp] at hres

/-- Claim C17. When `WriteBatch(puts, deletes)` returns `true` (any handle state,
any fault schedule) over an ascending table, the resulting table is the prior
one with every put applied in list order and then every listed delete applied.
In particular every key listed in `deletes` is absent afterwards, also when it
is in `puts` as well; a key named in neither list keeps what it had; and a key
that is not deleted holds the value of its last put. -/
theorem WriteBatch_result (c : LMDBClient) (fl : EngineFaults) (puts : List (Bytes × Bytes))
    (deletes : List Bytes) (h : (c.WriteBatch fl puts deletes).result = true)
    (hs : c.contents.Sorted) :
    (c.WriteBatch fl puts deletes).self.contents =
        deletes.foldl Store.del (puts.foldl (fun t kv => t.put kv.1 kv.2) c.contents) ∧
      (∀ k, k ∈ deletes → (c.WriteBatch fl puts deletes).self.contents.get k = none) ∧
      (∀ k, k ∉ puts.map Prod.fst → k ∉ deletes →
        (c.WriteBatch fl puts deletes).self.contents.get k = c.contents.get k) ∧
      (∀ before k v after, puts = before ++ (k, v) :: after → k ∉ after.map Prod.fst →
        k ∉ deletes → (c.WriteBatch fl puts deletes).self.contents.get k = some v) := by
  have heq := WriteBatch_success c fl puts deletes h
  refine ⟨heq, ?_, ?_, ?_⟩
  · intro k hk
    rw [heq]
    exact get_foldl_del_mem deletes _ k (sorted_foldl_put puts _ hs) hk
  · intro k hkp hkd
    rw [heq, get_foldl_del_other deletes _ k hkd, get_foldl_put_other puts _ k hkp]
  · intro before k v after hputs hka hkd
    rw [heq, get_foldl_del_other deletes _ k hkd, hputs, List.foldl_append, List.foldl_cons,
      get_foldl_put_other after _ k hka, Store.get_put_same]

theorem WriteBatch_result_witness :
    ((clientOn userStore).WriteBatch noFaults
        [(bytesOf [97], bytesOf [1]), (bytesOf [98], bytesOf [2]), (bytesOf [97], bytesOf [3])]
        [bytesOf [98]]).result = true ∧
      (clientOn userStore).contents.Sorted ∧
      ((clientOn userStore).WriteBatch noFaults
        [(bytesOf [97], bytesOf [1]), (bytesOf [98], bytesOf [2]), (bytesOf [97], bytesOf [3])]
        [bytesOf [98]]).self.contents
        = [(bytesOf [97], bytesOf [3]), (key_admin1, bytesOf [1]), (key_user1, bytesOf [2]),
            (key_user2, bytesOf [3])] :=
  have hr : ((clientOn userStore).WriteBatch noFaults
      [(bytesOf [97], bytesOf [1]), (bytesOf [98], bytesOf [2]), (bytesOf [97], bytesOf [3])]
      [bytesOf [98]]).result = true := by decide
  have hs : (clientOn userStore).contents.Sorted := by
    unfold Store.Sorted; decide
  ⟨hr, hs, (WriteBatch_result (clientOn userStore) noFaults _ _ hr hs).1.trans (by decide)⟩

/-! ## `Initialize` and `Close` -/

/-- Claim C18. On an already initialized handle, `Initialize` returns `true` for
every argument (and whatever its collaborators would do) and leaves the whole
object as it was: the environment is not reopened, the table is unchanged, and
the read-only flag keeps its value even when the requested mode differs. -/
theorem Initialize_idempotent (c : LMDBClient) (h : c.initialized_ = true) (fl : OpenFaults)
    (disk : Option Store) (db_path : Bytes) (map_size_mb : Nat) (read_only : Bool) :
    c.Initialize fl disk db_path map_size_mb read_only = .returned true c := by
  simp [LMDBClient.Initialize, h]

theorem Initialize_idempotent_witness :
    (clientOn userStore).initialized_ = true ∧
      (clientOn userStore).Initialize noOpenFaults (some []) (bytesOf [100]) 7 true
        = .returned true (clientOn userStore) :=
  ⟨rfl, Initialize_idempotent (clientOn userStore) rfl noOpenFaults (some []) (bytesOf [100]) 7
    true⟩

/-- Claim C19. After `Close` on an initialized handle the initialized flag is
`false` and the environment handle is null, and a second `Close` leaves the
object exactly as the first one left it. -/
theorem Close_resets (c : LMDBClient) (h : c.Ready) :
    c.Close.initialized_ = false ∧ c.Close.env_ = none ∧ c.Close.Close = c.Close :=
  ⟨(Close_ready c h).1, (Close_ready c h).2, Close_Close c⟩

theorem Close_resets_witness :
    (clientOn userStore).Ready ∧ (clientOn userStore).Close.initialized_ = false ∧
      (clientOn userStore).Close.Close = (clientOn userStore).Close :=
  have hr : (clientOn userStore).Ready := ⟨rfl, rfl, _, rfl, rfl⟩
  ⟨hr, (Close_resets (clientOn userStore) hr).1, (Close_resets (clientOn userStore) hr).2.2⟩

/-- Claim C20, the failing run. On a default-constructed handle, when
`std::filesystem::create_directories` fails, `Initialize` does not return
`false`: the exception leaves `Initialize` and reaches the caller. -/
theorem Initialize_throws_on_directory_failure :
    freshClient.Initialize ⟨true, false, false, noFaults⟩ none (bytesOf [100]) 100 false
      = .threw freshClient :=
  rfl

/-! ## The write executor, failed batches and unmatched prefixes -/

/-- Claim C27. For every handle state, fault schedule and unit of work,
`ExecuteWriteTransaction` returns `true` exactly when the unit of work was run
(the handle is initialized and writable and the transaction began), returned
`true` without throwing, and the engine commit succeeded; a `true` result
leaves the table the unit of work built, and in every other case the result is
`false` and the committed table is what it was before the call. -/
theorem ExecuteWriteTransaction_result {α : Type} (c : LMDBClient) (fl : EngineFaults)
    (out : α) (func : MDB_txn → Work α) :
    ((c.ExecuteWriteTransaction fl out func).result = true ↔
      ∃ env txn o, c.env_ = some env ∧ c.initialized_ = true ∧ c.read_only_ = false ∧
        (mdb_txn_begin env false fl).rc = MDB_SUCCESS ∧
        func (mdb_txn_begin env false fl).txn = .returned true txn o ∧
        (mdb_txn_commit (mdb_txn_begin env false fl).env txn fl).1 = MDB_SUCCESS) ∧
    (∀ env txn o, c.env_ = some env →
      func (mdb_txn_begin env false fl).txn = .returned true txn o →
      (c.ExecuteWriteTransaction fl out func).result = true →
      (c.ExecuteWriteTransaction fl out func).self.contents = txn.data) ∧
    ((c.ExecuteWriteTransaction fl out func).result = false →
      (c.ExecuteWriteTransaction fl out func).self.contents = c.contents) := by
  refine ⟨⟨?_, ?_⟩, ?_, ExecuteWriteTransaction_failure c fl out func⟩
  · intro h
    obtain ⟨env_, dbi_, initialized_, read_only_⟩ := c
    cases read_only_ <;> cases initialized_ <;>
      simp only [LMDBClient.ExecuteWriteTransaction] at h ⊢ <;> try (simp at h; done)
    cases env_ with
    | none => simp at h
    | some env =>
      refine ⟨env, ?_⟩
      by_cases hb : (mdb_txn_begin env false fl).rc = MDB_SUCCESS
      · simp only [hb, ne_eq, not_true_eq_false, if_false, Bool.not_true, Bool.false_eq_true] at h
        cases hf : func (mdb_txn_begin env false fl).txn with
        | threw o => simp [hf] at h
        | returned success txn o =>
          cases success
          · simp [hf] at h
          · simp only [hf, if_true, decide_eq_true_eq] at h
            exact ⟨txn, o, rfl, trivial, trivial, hb, rfl, h⟩
      · simp [hb] at h
  · rintro ⟨env, txn, o, henv, hin, hro, hb, hf, hc⟩
    obtain ⟨env_, dbi_, initialized_, read_only_⟩ := c
    simp only at henv hin hro
    subst henv hin hro
    simp [LMDBClient.ExecuteWriteTransaction, hb, hf, hc]
  · intro env txn o henv hf h
    obtain ⟨env_, dbi_, initialized_, read_only_⟩ := c
    simp only at henv
    subst henv
    cases read_only_ <;> cases initialized_ <;>
      simp only [LMDBClient.ExecuteWriteTransaction] at h ⊢ <;> try (simp at h; done)
    by_cases hb : (mdb_txn_begin env false fl).rc = MDB_SUCCESS
    · cases hfc : fl.txn_commit <;>
        simp [hb, hf, LMDBClient.contents, mdb_txn_commit, hfc, ENOMEM, MDB_SUCCESS] at h ⊢
    · simp [hb] at h

theorem ExecuteWriteTransaction_result_witness :
    ((clientOn userStore).ExecuteWriteTransaction noFaults ()
        (fun txn => .returned true (mdb_put txn MAIN_DBI key_user1 (bytesOf [9])).2 ())).result
        = true ∧
      ((clientOn userStore).ExecuteWriteTransaction ⟨false, [], true⟩ ()
        (fun txn => .returned true (mdb_put txn MAIN_DBI key_user1 (bytesOf [9])).2 ())).result
        = false ∧
      ((clientOn userStore).ExecuteWriteTransaction ⟨false, [], true⟩ ()
        (fun txn => .returned true (mdb_put txn MAIN_DBI key_user1 (bytesOf [9])).2 ())).self.contents
        = userStore :=
  ⟨(ExecuteWriteTransaction_result (clientOn userStore) noFaults ()
      (fun txn => .returned true (mdb_put txn MAIN_DBI key_user1 (bytesOf [9])).2 ())).1.mpr
      ⟨_, _, _, rfl, rfl, rfl, by decide, rfl, by decide⟩,
    by decide,
    (ExecuteWriteTransaction_result (clientOn userStore) ⟨false, [], true⟩ ()
      (fun txn => .returned true (mdb_put txn MAIN_DBI key_user1 (bytesOf [9])).2 ())).2.2
      (by decide)⟩

/-- A key that the transaction's table does not hold makes the delete loop of
`WriteBatch` stop with `false`, wherever the key stands in the list. -/
theorem WriteBatch_deletes_absent (dbi : Nat) (deletes : List Bytes) (txn : MDB_txn) (k : Bytes)
    (hk : k ∈ deletes) (habs : txn.data.get k = none) :
    (WriteBatch_deletes dbi txn deletes).1 = false := by
  induction deletes generalizing txn with
  | nil => cases hk
  | cons d rest ih =>
    simp only [WriteBatch_deletes]
    by_cases hd : (mdb_del txn dbi d).1 = MDB_SUCCESS
    · simp only [hd, ne_eq, not_true_eq_false, if_false]
      obtain ⟨_, _, ⟨v, hv⟩, heq⟩ := mdb_del_success txn dbi d hd
      rcases List.mem_cons.mp hk with h | h
      · subst h
        rw [habs] at hv
        cases hv
      · apply ih _ h
        rw [heq]
        exact Store.get_del_of_none txn.data k d habs
    · simp [hd]

/-- Claim C28. For every handle state and fault schedule: if some key listed in
`deletes` is not in the table once the puts of the batch are applied,
`WriteBatch` returns `false` and the committed table is exactly what it was
before the call, whether or not every put was accepted. -/
theorem WriteBatch_absent_delete (c : LMDBClient) (fl : EngineFaults)
    (puts : List (Bytes × Bytes)) (deletes : List Bytes) (k : Bytes) (hk : k ∈ deletes)
    (habs : (puts.foldl (fun t kv => t.put kv.1 kv.2) c.contents).get k = none) :
    (c.WriteBatch fl puts deletes).result = false ∧
      (c.WriteBatch fl puts deletes).self.contents = c.contents := by
  have hres : (c.WriteBatch fl puts deletes).result = false := by
    cases hr : (c.WriteBatch fl puts deletes).result with
    | false => rfl
    | true =>
      exfalso
      unfold LMDBClient.WriteBatch at hr
      obtain ⟨env, txn, o, henv, _, _, _, hf, _⟩ := ExecuteWriteTransaction_success c fl () _ hr
      have hc : c.contents = env.data := by simp [LMDBClient.contents, henv]
      simp only [Work.returned.injEq] at hf
      have hres := hf.1
      unfold WriteBatch_func at hres
      by_cases hp : (WriteBatch_puts c.dbi_ ⟨env.data, false, fl.ops⟩ puts).1 = true
      · simp only [hp, if_true] at hres
        have hd := WriteBatch_deletes_absent c.dbi_ deletes
          (WriteBatch_puts c.dbi_ ⟨env.data, false, fl.ops⟩ puts).2 k hk
          (by rw [WriteBatch_puts_success _ _ _ hp, ← hc]; exact habs)
        rw [hd] at hres
        cases hres
      · simp [hp] at hres
  exact ⟨hres, WriteBatch_failure_contents c fl puts deletes hres⟩

theorem WriteBatch_absent_delete_witness :
    bytesOf [98] ∈ [key_user1, bytesOf [98]] ∧
      ((clientOn userStore).WriteBatch noFaults [(bytesOf [97], bytesOf [1])]
        [key_user1, bytesOf [98]]).result = false ∧
      ((clientOn userStore).WriteBatch noFaults [(bytesOf [97], bytesOf [1])]
        [key_user1, bytesOf [98]]).self.contents = userStore ∧
      (WriteBatch_puts MAIN_DBI ⟨userStore, false, []⟩ [(bytesOf [97], bytesOf [1])]).1 = true :=
  ⟨by decide,
    (WriteBatch_absent_delete (clientOn userStore) noFaults [(bytesOf [97], bytesOf [1])]
      [key_user1, bytesOf [98]] (bytesOf [98]) (by decide) (by decide)).1,
    (WriteBatch_absent_delete (clientOn userStore) noFaults [(bytesOf [97], bytesOf [1])]
      [key_user1, bytesOf [98]] (bytesOf [98]) (by decide) (by decide)).2,
    by decide⟩


/-- Dropping the leading matches of a run in which nothing matches drops nothing. -/
theorem dropWhile_of_no_match {α : Type} (p : α → Bool) (l : List α)
    (h : ∀ x ∈ l, p x = false) : l.dropWhile p = l := by
  cases l with
  | nil => rfl
  | cons x rest => simp [List.dropWhile, h x (List.mem_cons_self x rest)]

/-- Claim C29. On an initialized, writable handle with no failure forced, for
every non-empty prefix that no stored key starts with (the table may be empty,
and the prefix may be greater than every key), `DeleteKeys` returns `true` and
leaves the table exactly as it was. -/
theorem DeleteKeys_unmatched (c : LMDBClient) (pfx : Bytes) (hw : c.Writable) (hp : pfx ≠ [])
    (hno : ∀ k ∈ c.contents.keys, startsWith k pfx = false) :
    (c.DeleteKeys noFaults pfx).result = true ∧
      (c.DeleteKeys noFaults pfx).self.contents = c.contents := by
  obtain ⟨⟨hin, hdbi, env, henv, herd⟩, hro⟩ := hw
  have hc : c.contents = env.data := by simp [LMDBClient.contents, henv]
  rw [hc] at hno ⊢
  rw [hro] at herd
  unfold LMDBClient.DeleteKeys
  rw [if_neg hp, ExecuteWriteTransaction_noFaults c env _ _ hin hro henv herd, hdbi,
    DeleteKeys_func_noFault pfx env.data hp]
  simp only [LMDBClient.contents]
  refine ⟨trivial, ?_⟩
  rw [dropWhile_of_no_match]
  · exact List.take_append_drop _ _
  · intro x hx
    exact hno x.1 (List.mem_map_of_mem Prod.fst (List.mem_of_mem_drop hx))

theorem DeleteKeys_unmatched_witness :
    (clientOn userStore).Writable ∧ (clientOn []).Writable ∧
      ((clientOn userStore).DeleteKeys noFaults (bytesOf [122])).result = true ∧
      ((clientOn userStore).DeleteKeys noFaults (bytesOf [122])).self.contents = userStore ∧
      ((clientOn []).DeleteKeys noFaults pfx_user).self.contents = [] :=
  have hw : (clientOn userStore).Writable := ⟨⟨rfl, rfl, _, rfl, rfl⟩, rfl⟩
  have he : (clientOn []).Writable := ⟨⟨rfl, rfl, _, rfl, rfl⟩, rfl⟩
  ⟨hw, he,
    (DeleteKeys_unmatched (clientOn userStore) (bytesOf [122]) hw (by decide) (by decide)).1,
    (DeleteKeys_unmatched (clientOn userStore) (bytesOf [122]) hw (by decide) (by decide)).2,
    (DeleteKeys_unmatched (clientOn []) pfx_user he (by decide) (by decide)).2⟩

/-! ## Facts about `trim` -/

theorem erase_find_first_not_of (chars s : Bytes) :
    erase s 0 (find_first_not_of chars s) = s.dropWhile (fun b => decide (b ∈ chars)) := by
  induction s with
  | nil => rfl
  | cons b rest ih =>
    by_cases hb : b ∈ chars
    · have hd : (b :: rest).dropWhile (fun b => decide (b ∈ chars))
          = rest.dropWhile (fun b => decide (b ∈ chars)) :=
        List.dropWhile_cons_of_pos (by simp [hb])
      rw [hd, ← ih]
      simp only [find_first_not_of, hb, if_true]
      cases find_first_not_of chars rest <;> simp [erase]
    · have hd : (b :: rest).dropWhile (fun b => decide (b ∈ chars)) = b :: rest :=
        List.dropWhile_cons_of_neg (by simp [hb])
      rw [hd]
      simp [find_first_not_of, hb, erase]

theorem head?_dropWhile_false {α : Type} (p : α → Bool) (l : List α) (b : α)
    (h : (l.dropWhile p).head? = some b) : p b = false := by
  induction l with
  | nil => simp at h
  | cons x rest ih =>
    by_cases hx : p x = true
    · rw [List.dropWhile_cons_of_pos hx] at h
      exact ih h
    · rw [List.dropWhile_cons_of_neg hx] at h
      simp only [List.head?_cons, Option.some.injEq] at h
      subst h
      simpa using hx

theorem find_last_not_of_none (chars s : Bytes) (h : find_last_not_of chars s = none) :
    ∀ b ∈ s, b ∈ chars := by
  induction s with
  | nil => intro b hb; cases hb
  | cons x rest ih =>
    unfold find_last_not_of at h
    cases hr : find_last_not_of chars rest with
    | some i => simp [hr] at h
    | none =>
      simp only [hr] at h
      by_cases hx : x ∈ chars
      · intro b hb
        rcases List.mem_cons.mp hb with rfl | hb
        · exact hx
        · exact ih hr b hb
      · simp [hx] at h

theorem find_last_not_of_some (chars s : Bytes) (i : Nat)
    (h : find_last_not_of chars s = some i) :
    ∃ b, s[i]? = some b ∧ b ∉ chars := by
  induction s generalizing i with
  | nil => simp [find_last_not_of] at h
  | cons x rest ih =>
    unfold find_last_not_of at h
    cases hr : find_last_not_of chars rest with
    | some j =>
      simp only [hr, Option.some.injEq] at h
      subst h
      obtain ⟨b, hb, hc⟩ := ih j hr
      exact ⟨b, by simpa using hb, hc⟩
    | none =>
      simp only [hr] at h
      by_cases hx : x ∈ chars
      · simp [hx] at h
      · simp only [hx, if_false, Option.some.injEq] at h
        subst h
        exact ⟨x, by simp, hx⟩

theorem getLast?_take_succ {α : Type} (l : List α) (i : Nat) (b : α) (h : l[i]? = some b) :
    (l.take (i + 1)).getLast? = some b := by
  have hlt : i < l.length := by
    rcases Nat.lt_or_ge i l.length with h1 | h1
    · exact h1
    · rw [List.getElem?_eq_none h1] at h; cases h
  rw [List.getLast?_eq_getElem?, List.length_take, Nat.min_eq_left (Nat.succ_le_of_lt hlt)]
  show (l.take (i + 1))[i]? = some b
  rw [List.getElem?_take_of_lt (Nat.lt_succ_self i)]
  exact h

/-- What `trim` leaves neither begins nor ends with a stripped character. -/
theorem trim_Trimmed (s : Bytes) : Trimmed (IniReader.trim s) := by
  unfold IniReader.trim
  by_cases hs : s = []
  · subst hs
    exact ⟨fun b h => by simp at h, fun b h => by simp at h⟩
  · simp only [hs, if_false, erase_find_first_not_of]
    cases hl : find_last_not_of TRIM_CHARS (s.dropWhile (fun b => decide (b ∈ TRIM_CHARS))) with
    | none => exact ⟨fun b h => by simp [erase] at h, fun b h => by simp [erase] at h⟩
    | some i =>
      obtain ⟨c, hc, hcc⟩ := find_last_not_of_some _ _ i hl
      refine ⟨fun b h => ?_, fun b h => ?_⟩
      · simp only [erase, List.head?_take, Nat.succ_ne_zero, if_false] at h
        simpa using head?_dropWhile_false _ s b h
      · simp only [erase] at h
        rw [getLast?_take_succ _ i c hc] at h
        cases h
        exact hcc

/-- A string made of stripped characters only is trimmed to the empty string. -/
theorem trim_all_white (s : Bytes) (h : ∀ b ∈ s, b ∈ TRIM_CHARS) :
    IniReader.trim s = [] := by
  unfold IniReader.trim
  by_cases hs : s = []
  · simp [hs]
  · simp only [hs, if_false, erase_find_first_not_of]
    have : s.dropWhile (fun b => decide (b ∈ TRIM_CHARS)) = [] := by
      rw [List.dropWhile_eq_nil_iff]
      intro b hb
      simp [h b hb]
    rw [this]
    simp [erase, find_last_not_of]
/-! ## Facts about `load` and `getString` -/

/-- One turn of the loop of `load` does what the reading of the line says: a
header changes the current section, a `key=value` line is assigned under the
current section, any other line changes nothing. -/
theorem loadLine_read (st : Bytes × IniReader) (raw : Bytes) :
    IniReader.loadLine st raw =
      match IniLine.read raw with
      | .skipped => st
      | .header name => (name, st.2)
      | .keyValue k v => (st.1, st.2.assign st.1 k v) := by
  unfold IniReader.loadLine IniLine.read
  simp only []
  split
  · rfl
  · split
    · have hd : substr (IniReader.trim raw) 1 (some ((IniReader.trim raw).length - 2))
          = ((IniReader.trim raw).drop 1).dropLast := by
        simp only [substr, List.dropLast_eq_take, List.length_drop]
        rfl
      rw [hd]
    · cases find (toByte 61) (IniReader.trim raw) <;> simp [substr]

/-- The loop of `load` assigns the entries of the file in file order. -/
theorem foldl_loadLine (lines : List Bytes) (sect : Bytes) (r : IniReader) :
    lines.foldl IniReader.loadLine (sect, r) =
      (iniSection sect lines,
        (iniEntries sect lines).foldl (fun r e => r.assign e.1 e.2.1 e.2.2) r) := by
  induction lines generalizing sect r with
  | nil => rfl
  | cons raw rest ih =>
    rw [List.foldl_cons, loadLine_read]
    unfold iniSection iniEntries
    cases IniLine.read raw <;> simp only [ih, List.foldl_cons]

theorem getString_assign (r : IniReader) (s k v s2 k2 : Bytes) :
    (r.assign s k v).getString s2 k2 =
      if s2 = s ∧ k2 = k then some v else r.getString s2 k2 := by
  unfold IniReader.getString IniReader.assign
  by_cases hs : s2 = s
  · subst hs
    by_cases hk : k2 = k
    · simp [hk]
    · simp [hk]
  · simp [hs]

theorem iniLookup_append_singleton (es : List (Bytes × Bytes × Bytes)) (e : Bytes × Bytes × Bytes)
    (s k : Bytes) :
    iniLookup (es ++ [e]) s k =
      if e.1 = s ∧ e.2.1 = k then some e.2.2 else iniLookup es s k := by
  unfold iniLookup
  rw [List.reverse_append, List.reverse_singleton, List.singleton_append, List.find?_cons]
  by_cases h : e.1 = s ∧ e.2.1 = k
  · simp [h]
  · simp [h]

/-- A lookup after a run of assignments returns the last assignment made to
that section and key, and what the reader had before when there is none. -/
theorem getString_foldl_assign (es : List (Bytes × Bytes × Bytes)) (r : IniReader)
    (s k : Bytes) :
    (es.foldl (fun r e => r.assign e.1 e.2.1 e.2.2) r).getString s k =
      match iniLookup es s k with
      | some v => some v
      | none => r.getString s k := by
  induction es using List.reverseRecOn with
  | nil => rfl
  | append_singleton es e ih =>
    rw [List.foldl_append, List.foldl_cons, List.foldl_nil, getString_assign,
      iniLookup_append_singleton, ih]
    by_cases h : e.1 = s ∧ e.2.1 = k
    · simp [h]
    · have h2 : ¬(s = e.1 ∧ k = e.2.1) := fun hh => h ⟨hh.1.symm, hh.2.symm⟩
      simp [h, h2]

theorem iniLookup_eq_none (es : List (Bytes × Bytes × Bytes)) (s k : Bytes)
    (h : ∀ e ∈ es, ¬(e.1 = s ∧ e.2.1 = k)) : iniLookup es s k = none := by
  unfold iniLookup
  rw [Option.map_eq_none', List.find?_eq_none]
  intro e he
  simpa using h e (List.mem_reverse.mp he)

theorem iniLookup_append_of_none (es fs : List (Bytes × Bytes × Bytes)) (s k : Bytes)
    (h : ∀ e ∈ fs, ¬(e.1 = s ∧ e.2.1 = k)) : iniLookup (es ++ fs) s k = iniLookup es s k := by
  induction fs using List.reverseRecOn with
  | nil => simp
  | append_singleton fs f ih =>
    rw [← List.append_assoc, iniLookup_append_singleton,
      if_neg (h f (List.mem_append_right _ (List.mem_singleton_self f)))]
    exact ih (fun e he => h e (List.mem_append_left _ he))

theorem iniEntries_append (sect : Bytes) (a b : List Bytes) :
    iniEntries sect (a ++ b) = iniEntries sect a ++ iniEntries (iniSection sect a) b := by
  induction a generalizing sect with
  | nil => rfl
  | cons raw rest ih =>
    simp only [List.cons_append, iniEntries, iniSection]
    cases IniLine.read raw <;> simp [ih]

theorem iniSection_no_header (sect : Bytes) (lines : List Bytes)
    (h : ∀ l ∈ lines, (IniLine.read l).isHeader = false) : iniSection sect lines = sect := by
  induction lines with
  | nil => rfl
  | cons raw rest ih =>
    have hr := h raw (List.mem_cons_self raw rest)
    have ih2 := ih (fun l hl => h l (List.mem_cons_of_mem raw hl))
    unfold iniSection
    cases hread : IniLine.read raw with
    | header n => rw [hread] at hr; cases hr
    | skipped => simpa using ih2
    | keyValue k v => simpa using ih2

theorem read_Trimmed (raw : Bytes) :
    match IniLine.read raw with
    | .skipped => True
    | .header name => Trimmed name
    | .keyValue k v => Trimmed k ∧ Trimmed v := by
  unfold IniLine.read
  simp only []
  split_ifs
  · trivial
  · exact trim_Trimmed _
  · cases find (toByte 61) (IniReader.trim raw) with
    | none => trivial
    | some pos => exact ⟨trim_Trimmed _, trim_Trimmed _⟩

/-- The value of a `key=value` line that no later line of the file overrides. -/
theorem iniLookup_line (sect : Bytes) (pre post : List Bytes) (line k v : Bytes)
    (hline : IniLine.read line = .keyValue k v)
    (hpost : ∀ e ∈ iniEntries (iniSection sect pre) post,
      ¬(e.1 = iniSection sect pre ∧ e.2.1 = k)) :
    iniLookup (iniEntries sect (pre ++ line :: post)) (iniSection sect pre) k = some v := by
  have h1 : iniEntries (iniSection sect pre) (line :: post)
      = [(iniSection sect pre, k, v)] ++ iniEntries (iniSection sect pre) post := by
    simp [iniEntries, hline]
  rw [iniEntries_append, h1, ← List.append_assoc, iniLookup_append_of_none _ _ _ _ hpost,
    iniLookup_append_singleton]
  simp

/-- Claim C25. `load` on a fresh reader returns `true` for every file it can
open, and afterwards `getString(section, key)` is the value of the last
`key=value` line of that section and key, where a line belongs to the section
of the nearest `[section]` header above it and to `"default"` when no header
stands above it.  So a `key=value` line before the first header is found under
`"default"`, one after a header under that header's name (each as long as no
later line assigns the same section and key again), and a pair that no line
assigns is absent. -/
theorem load_by_section (lines : List Bytes) :
    (IniReader.empty.load (some lines)).1 = true ∧
    (∀ s k, (IniReader.empty.load (some lines)).2.getString s k
      = iniLookup (iniEntries DEFAULT_SECTION lines) s k) ∧
    (∀ pre line post k v, lines = pre ++ line :: post →
      (∀ l ∈ pre, (IniLine.read l).isHeader = false) →
      IniLine.read line = .keyValue k v →
      (∀ e ∈ iniEntries DEFAULT_SECTION post, ¬(e.1 = DEFAULT_SECTION ∧ e.2.1 = k)) →
      (IniReader.empty.load (some lines)).2.getString DEFAULT_SECTION k = some v) ∧
    (∀ pre hdr mid line post name k v, lines = pre ++ hdr :: (mid ++ line :: post) →
      IniLine.read hdr = .header name →
      (∀ l ∈ mid, (IniLine.read l).isHeader = false) →
      IniLine.read line = .keyValue k v →
      (∀ e ∈ iniEntries name post, ¬(e.1 = name ∧ e.2.1 = k)) →
      (IniReader.empty.load (some lines)).2.getString name k = some v) ∧
    (∀ s k, (∀ e ∈ iniEntries DEFAULT_SECTION lines, ¬(e.1 = s ∧ e.2.1 = k)) →
      (IniReader.empty.load (some lines)).2.getString s k = none) := by
  have hget : ∀ s k, (IniReader.empty.load (some lines)).2.getString s k
      = iniLookup (iniEntries DEFAULT_SECTION lines) s k := by
    intro s k
    simp only [IniReader.load, foldl_loadLine, getString_foldl_assign]
    cases iniLookup (iniEntries DEFAULT_SECTION lines) s k <;> rfl
  refine ⟨rfl, hget, ?_, ?_, ?_⟩
  · intro pre line post k v hl hpre hline hpost
    have hsec := iniSection_no_header DEFAULT_SECTION pre hpre
    have := iniLookup_line DEFAULT_SECTION pre post line k v hline (by rw [hsec]; exact hpost)
    rw [hsec] at this
    rw [hget, hl]
    exact this
  · intro pre hdr mid line post name k v hl hhdr hmid hline hpost
    have hsec : iniSection DEFAULT_SECTION (pre ++ hdr :: mid) = name := by
      have h1 : ∀ s, iniSection s (hdr :: mid) = name := by
        intro s
        simp only [iniSection, hhdr]
        exact iniSection_no_header name mid hmid
      have h2 : ∀ (a b : List Bytes) (s : Bytes),
          iniSection s (a ++ b) = iniSection (iniSection s a) b := by
        intro a b
        induction a with
        | nil => intro s; rfl
        | cons raw rest ih =>
          intro s
          simp only [List.cons_append, iniSection]
          cases IniLine.read raw <;> simp [ih]
      rw [h2, h1]
    have := iniLookup_line DEFAULT_SECTION (pre ++ hdr :: mid) post line k v hline
      (by rw [hsec]; exact hpost)
    rw [hsec] at this
    rw [hget, hl]
    simpa using this
  · intro s k h
    rw [hget]
    exact iniLookup_eq_none _ s k h

theorem load_by_section_witness :
    (IniReader.empty.load (some [lit "path = ./db", lit "; note", lit "[http]",
        lit "base_url=http://h:1", lit "[lmdb]", lit "path=/x"])).2.getString
        DEFAULT_SECTION (lit "path") = some (lit "./db") ∧
      (IniReader.empty.load (some [lit "path = ./db", lit "; note", lit "[http]",
        lit "base_url=http://h:1", lit "[lmdb]", lit "path=/x"])).2.getString
        (lit "http") (lit "base_url") = some (lit "http://h:1") ∧
      (IniReader.empty.load (some [lit "path = ./db", lit "; note", lit "[http]",
        lit "base_url=http://h:1", lit "[lmdb]", lit "path=/x"])).2.getString
        (lit "http") (lit "path") = none :=
  ⟨(load_by_section [lit "path = ./db", lit "; note", lit "[http]",
        lit "base_url=http://h:1", lit "[lmdb]", lit "path=/x"]).2.2.1
      [] (lit "path = ./db") _ (lit "path") (lit "./db") rfl (by decide) (by decide) (by decide),
    (load_by_section [lit "path = ./db", lit "; note", lit "[http]",
        lit "base_url=http://h:1", lit "[lmdb]", lit "path=/x"]).2.2.2.1
      [lit "path = ./db", lit "; note"] (lit "[http]") [] (lit "base_url=http://h:1")
      [lit "[lmdb]", lit "path=/x"] (lit "http") (lit "base_url") (lit "http://h:1") rfl
      (by decide) (by decide) (by decide) (by decide),
    (load_by_section [lit "path = ./db", lit "; note", lit "[http]",
        lit "base_url=http://h:1", lit "[lmdb]", lit "path=/x"]).2.2.2.2
      (lit "http") (lit "path") (by decide)⟩

theorem assign_AllTrimmed (r : IniReader) (s k v : Bytes) (hr : r.AllTrimmed)
    (hs : Trimmed s) (hk : Trimmed k) (hv : Trimmed v) : (r.assign s k v).AllTrimmed := by
  intro s2 inner hin
  unfold IniReader.assign at hin
  simp only at hin
  by_cases h : s2 = s
  · subst h
    simp only [if_true, Option.some.injEq] at hin
    subst hin
    refine ⟨hs, ?_⟩
    intro k2 v2 hkv
    by_cases hk2 : k2 = k
    · subst hk2
      simp only [if_true, Option.some.injEq] at hkv
      subst hkv
      exact ⟨hk, hv⟩
    · simp only [hk2, if_false] at hkv
      cases hset : r.settings s2 with
      | none => simp [hset] at hkv
      | some inner0 =>
        simp only [hset] at hkv
        exact (hr s2 inner0 hset).2 k2 v2 hkv
  · simp only [h, if_false] at hin
    exact hr s2 inner hin

theorem loadLine_AllTrimmed (st : Bytes × IniReader) (raw : Bytes)
    (h : Trimmed st.1 ∧ st.2.AllTrimmed) :
    Trimmed (IniReader.loadLine st raw).1 ∧ (IniReader.loadLine st raw).2.AllTrimmed := by
  rw [loadLine_read]
  have hr := read_Trimmed raw
  cases hread : IniLine.read raw with
  | skipped => exact h
  | header name =>
    rw [hread] at hr
    exact ⟨hr, h.2⟩
  | keyValue k v =>
    rw [hread] at hr
    exact ⟨h.1, assign_AllTrimmed _ _ _ _ h.2 h.1 hr.1 hr.2⟩

theorem foldl_loadLine_AllTrimmed (lines : List Bytes) (st : Bytes × IniReader)
    (h : Trimmed st.1 ∧ st.2.AllTrimmed) :
    Trimmed (lines.foldl IniReader.loadLine st).1 ∧
      (lines.foldl IniReader.loadLine st).2.AllTrimmed := by
  induction lines generalizing st with
  | nil => exact h
  | cons raw rest ih => exact ih _ (loadLine_AllTrimmed st raw h)

/-- Claim C26. After `load` on a fresh reader, for every file, no section name,
key or value the reader holds begins or ends with a space, tab, carriage
return or line feed; the lines `"  [ sec ]  "` and `"  k  =  v  "` make
`getString("sec", "k")` return `"v"`; and `trim` turns every string made of
those four characters only into the empty string. -/
theorem load_trims (lines : List Bytes) :
    (∀ s inner, (IniReader.empty.load (some lines)).2.settings s = some inner →
      Trimmed s ∧ ∀ k v, inner k = some v → Trimmed k ∧ Trimmed v) ∧
    (∀ s k v, (IniReader.empty.load (some lines)).2.getString s k = some v →
      Trimmed s ∧ Trimmed k ∧ Trimmed v) ∧
    (IniReader.empty.load (some [lit "  [ sec ]  ", lit "  k  =  v  "])).2.getString
      (lit "sec") (lit "k") = some (lit "v") ∧
    (∀ s : Bytes, (∀ b ∈ s, b ∈ TRIM_CHARS) → IniReader.trim s = []) := by
  have hall : (IniReader.empty.load (some lines)).2.AllTrimmed := by
    simp only [IniReader.load]
    refine (foldl_loadLine_AllTrimmed lines (DEFAULT_SECTION, IniReader.empty) ⟨?_, ?_⟩).2
    · refine ⟨fun b hb => ?_, fun b hb => ?_⟩
      · have : b = toByte 100 := by
          simpa [DEFAULT_SECTION, bytesOf] using hb.symm
        subst this
        decide
      · have : b = toByte 116 := by
          simpa [DEFAULT_SECTION, bytesOf] using hb.symm
        subst this
        decide
    · intro s inner hin
      cases hin
  refine ⟨hall, ?_, by decide, trim_all_white⟩
  intro s k v h
  unfold IniReader.getString at h
  cases hset : (IniReader.empty.load (some lines)).2.settings s with
  | none => simp [hset] at h
  | some inner =>
    simp only [hset] at h
    exact ⟨(hall s inner hset).1, (hall s inner hset).2 k v h⟩

theorem load_trims_witness :
    (IniReader.empty.load (some [lit "\t[ a b ]\r", lit " x y =\t1 2 \r"])).2.getString
        (lit "a b") (lit "x y") = some (lit "1 2") ∧
      Trimmed (lit "a b") ∧ Trimmed (lit "x y") ∧ Trimmed (lit "1 2") ∧
      IniReader.trim (bytesOf [32, 9, 13, 10, 32]) = [] :=
  have h : (IniReader.empty.load (some [lit "\t[ a b ]\r", lit " x y =\t1 2 \r"])).2.getString
      (lit "a b") (lit "x y") = some (lit "1 2") := by decide
  have ht := (load_trims [lit "\t[ a b ]\r", lit " x y =\t1 2 \r"]).2.1 _ _ _ h
  ⟨h, ht.1, ht.2.1, ht.2.2, (load_trims []).2.2.2 (bytesOf [32, 9, 13, 10, 32]) (by simp [bytesOf, TRIM_CHARS])⟩


/-! ## Facts about `async_post` -/

/-- With a callback that never throws, the thread body invokes it exactly once,
whatever the request does, and no exception leaves the thread. -/
theorem async_post_once {ρ : Type} (temp_client : Option Exn) (post : Except Exn (Option ρ))
    (callback : AsyncCallback ρ) (h : ∀ response error, callback response error = none) :
    (async_post temp_client post callback).invocations.length = 1 ∧
      (async_post temp_client post callback).terminated = false := by
  unfold async_post
  cases temp_client with
  | some e => simp [async_post_catch, h]
  | none =>
    cases post with
    | error e => simp [async_post_catch, h]
    | ok r =>
      cases r with
      | none => simp [h]
      | some response => simp [h]

/-- Claim C24, the failing run. The request succeeds with the response `r`,
and the callback throws the standard exception `e` when it is handed a
response: the thread body invokes the callback twice, first with the response
and an empty error text, then from the `catch` clause with `nullptr` and the
text of the exception. -/
theorem async_post_invokes_twice (r : Nat) (what : Bytes) :
    (async_post none (.ok (some r)) (throwsOnResponse Nat (.std what))).invocations
        = [(some r, []), (none, lit "Std exception: " ++ what)] ∧
      (async_post none (.ok (some r)) (throwsOnResponse Nat (.std what))).invocations.length
        = 2 :=
  ⟨rfl, rfl⟩


/-! ## Facts about the entry points -/

/-- Each of the entry points that read and write keys returns `-1` for a null request. -/
theorem key_entry_points_null (w : World) (fadd : Nat → Nat → Nat) (db : LMDBClient) :
    (GET_KEY w db none).outcome = .returned (-1) ∧
      (ADD_KEY w fadd db none).outcome = .returned (-1) ∧
      (SET_KEY w db none).outcome = .returned (-1) ∧
      (DEL_KEY w db none).outcome = .returned (-1) :=
  ⟨rfl, rfl, rfl, rfl⟩

/-- Without four non-null parameters `GET_KEY` runs no `return` statement. -/
theorem GET_KEY_no_return (w : World) (db : LMDBClient) (d : DLLCALCINFO)
    (h : fourParams d = none) : (GET_KEY w db (some d)).outcome = .no_return := by
  simp [GET_KEY, h, catch_all]

/-- Claim C22, the failing run. `GET_KEY`, `SET_KEY` and `DEL_KEY` are called
with a request that is not null and carries three parameters.  Whatever the
surroundings and the state of the database handle, the test for four
parameters fails, control leaves the `try` block and reaches the end of the
function: no `return` statement runs, so the call returns none of `1`, `0`
and `-1`.  `ADD_KEY` returns `1` on the same request. -/
theorem key_entry_points_three_params (w : World) (fadd : Nat → Nat → Nat) (db : LMDBClient) :
    (GET_KEY w db (some threeParamRequest)).outcome = .no_return ∧
      (SET_KEY w db (some threeParamRequest)).outcome = .no_return ∧
      (DEL_KEY w db (some threeParamRequest)).outcome = .no_return ∧
      (ADD_KEY w fadd db (some threeParamRequest)).outcome = .returned 1 :=
  ⟨rfl, rfl, rfl, rfl⟩

/-- Claim C23, the failing runs. In a process that can neither read
`config.ini` nor create the directory `logs`, `AUTO_CANCEL` and `AUTO_TRADE`
on a well-formed request let an exception reach the host: building the HTTP
client throws, the handler catches and calls `GetLogger()`, which throws
again.  And when the constructor of the HTTP client throws an object that is
not a `std::exception`, `AUTO_CANCEL`, which has no `catch (...)`, lets it
reach the host, whereas `AUTO_TRADE` returns `-1`. -/
theorem AUTO_CANCEL_propagates (db : LMDBClient) :
    (AUTO_CANCEL noLogsWorld db (some cancelRequest)).outcome
        = .propagated (.std (lit "filesystem error")) ∧
      (AUTO_TRADE noLogsWorld db (some tradeRequest)).outcome
        = .propagated (.std (lit "filesystem error")) ∧
      (AUTO_CANCEL { quietWorld with http_client := .error .other } db
        (some cancelRequest)).outcome = .propagated .other ∧
      (AUTO_TRADE { quietWorld with http_client := .error .other } db
        (some tradeRequest)).outcome = .returned (-1) := by
  refine ⟨?_, ?_, ?_, ?_⟩ <;> rfl

/-- Claim C30, the failing runs. From an empty store, `ADD_TO_BLOCK` is called
twice for the stock `600000` and block `1`: the table then holds the bitmap of
that one stock and the counter `blk_size:1` with the value `2`, so
`GET_BLOCK_SIZE` answers `2` for block `1` while `IS_IN_BLOCK` reports the one
stock as its member.  And one call for block `300`, above the highest bit
index, leaves no bitmap at all but the counter `blk_size:300` with the value
`1`: `GET_BLOCK_SIZE` answers `1` and `IS_IN_BLOCK` answers `0`. -/
theorem ADD_TO_BLOCK_counts_calls :
    (ADD_TO_BLOCK quietWorld
        (ADD_TO_BLOCK quietWorld freshClient (some (blockRequest 1))).db
        (some (blockRequest 1))).db.contents
      = [(lit "BLK_600000", bytesOf [2]), (lit "blk_size:1", IntToBytes 2)] ∧
    (GET_BLOCK_SIZE quietWorld
        (ADD_TO_BLOCK quietWorld
          (ADD_TO_BLOCK quietWorld freshClient (some (blockRequest 1))).db
          (some (blockRequest 1))).db
        (some (blockRequest 1))).result = some (int_to_double 2) ∧
    (IS_IN_BLOCK quietWorld
        (ADD_TO_BLOCK quietWorld
          (ADD_TO_BLOCK quietWorld freshClient (some (blockRequest 1))).db
          (some (blockRequest 1))).db
        (some (blockRequest 1))).result = some (int_to_double 1) ∧
    (ADD_TO_BLOCK quietWorld freshClient (some (blockRequest 300))).db.contents
      = [(lit "blk_size:300", IntToBytes 1)] ∧
    (GET_BLOCK_SIZE quietWorld
        (ADD_TO_BLOCK quietWorld freshClient (some (blockRequest 300))).db
        (some (blockRequest 300))).result = some (int_to_double 1) ∧
    (IS_IN_BLOCK quietWorld
        (ADD_TO_BLOCK quietWorld freshClient (some (blockRequest 300))).db
        (some (blockRequest 300))).result = some (int_to_double 0) := by
  refine ⟨?_, ?_, ?_, ?_, ?_, ?_⟩ <;> decide


/-! ## Increments run one after the other -/

theorem wrapInt32_add_wrapInt32 (a d : Int) : wrapInt32 (wrapInt32 a + d) = wrapInt32 (a + d) := by
  unfold wrapInt32
  omega

/-- One increment with no failure forced, on a writable handle whose counter
is absent (`a = 0`) or holds the four bytes of `a` reduced to 32 bits: the
handle stays writable and the counter holds `a + d` reduced to 32 bits. -/
theorem AtomicIncrement_step (c : LMDBClient) (k : Bytes) (a d : Int) (hw : c.Writable)
    (hk : k ≠ []) (hlen : k.length ≤ MDB_MAXKEYSIZE)
    (hcur : (c.contents.get k = none ∧ a = 0) ∨
      c.contents.get k = some (memcpyFromInt (wrapInt32 a))) :
    (c.AtomicIncrement noFaults k d).self.Writable ∧
      (c.AtomicIncrement noFaults k d).self.contents.get k
        = some (memcpyFromInt (wrapInt32 (a + d))) := by
  have hres := AtomicIncrement_noFaults_result c k d hw hk hlen
  obtain ⟨env, cur, henv, hin, hdbi, _, hself, hdisj, hexact⟩ :=
    AtomicIncrement_success c noFaults k d hres
  obtain ⟨⟨_, _, env2, henv2, herd⟩, hro⟩ := hw
  rw [henv] at henv2
  cases henv2
  have hc : c.contents = env.data := by simp [LMDBClient.contents, henv]
  rw [hc] at hcur
  have hval : wrapInt32 (cur + d) = wrapInt32 (a + d) := by
    rcases hcur with ⟨hnone, ha⟩ | hsome
    · rcases hdisj with h0 | ⟨v, hv, _, _⟩
      · rw [h0, ha]
      · rw [hnone] at hv; cases hv
    · have := hexact rfl _ hsome (memcpyFromInt_length _)
      rw [this, memcpyToInt_memcpyFromInt, wrapInt32_add_wrapInt32, wrapInt32_add_wrapInt32]
  rw [hself]
  refine ⟨⟨⟨hin, hdbi, _, rfl, herd⟩, hro⟩, ?_⟩
  simp only [LMDBClient.contents]
  rw [Store.get_put_same, hval]

/-- Increments of one counter that run one after the other, starting from a
counter that is absent, leave the sum of the increments reduced to 32 bits,
so the order in which they run does not matter. -/
theorem incrementAll_sum (c : LMDBClient) (k : Bytes) (ds : List Int) (hw : c.Writable)
    (hk : k ≠ []) (hlen : k.length ≤ MDB_MAXKEYSIZE) (habsent : c.contents.get k = none)
    (hne : ds ≠ []) :
    (incrementAll c k ds).contents.get k = some (memcpyFromInt (wrapInt32 ds.sum)) ∧
      ∀ ds2, ds.Perm ds2 →
        (incrementAll c k ds2).contents.get k = (incrementAll c k ds).contents.get k := by
  have key : ∀ (l : List Int) (c : LMDBClient) (a : Int), c.Writable →
      ((c.contents.get k = none ∧ a = 0) ∨
        c.contents.get k = some (memcpyFromInt (wrapInt32 a))) → l ≠ [] →
      (incrementAll c k l).contents.get k = some (memcpyFromInt (wrapInt32 (a + l.sum))) := by
    intro l
    induction l with
    | nil => intro c a _ _ h; exact absurd rfl h
    | cons d rest ih =>
      intro c a hw hcur _
      obtain ⟨hw2, hget⟩ := AtomicIncrement_step c k a d hw hk hlen hcur
      by_cases hr : rest = []
      · subst hr
        simpa [incrementAll] using hget
      · have := ih _ (a + d) hw2 (Or.inr hget) hr
        simpa [incrementAll, add_assoc] using this
  have hsum : ∀ l, l ≠ [] →
      (incrementAll c k l).contents.get k = some (memcpyFromInt (wrapInt32 l.sum)) := by
    intro l hl
    simpa using key l c 0 hw (Or.inl ⟨habsent, rfl⟩) hl
  refine ⟨hsum ds hne, ?_⟩
  intro ds2 hp
  have hne2 : ds2 ≠ [] := by
    intro h
    rw [h] at hp
    exact hne (List.Perm.eq_nil hp)
  rw [hsum ds hne, hsum ds2 hne2, List.Perm.sum_eq hp]


/-- The handler `catch (...) { return -1; }` lets no exception through. -/
theorem catch_all_outcome (c : Call) (e : Exn) : (catch_all c).outcome ≠ .propagated e := by
  unfold catch_all
  split
  · simp
  · rename_i h
    intro he
    exact h e he

/-- The entry point `ADD_TO_BLOCK` returns `1` or `-1` on every input. -/
theorem ADD_TO_BLOCK_status (w : World) (db : LMDBClient) (pData : Option DLLCALCINFO) :
    (ADD_TO_BLOCK w db pData).outcome = .returned 1 ∨
      (ADD_TO_BLOCK w db pData).outcome = .returned (-1) := by
  unfold ADD_TO_BLOCK catch_all
  cases pData with
  | none => simp
  | some d =>
    simp only []
    cases openDb w db with
    | error e => simp
    | ok db1 =>
      cases d.param 0 with
      | none => split_ifs <;> simp
      | some p0 =>
        by_cases h1 : d.m_nNumParam ≥ 1 <;> by_cases h2 : double_to_int p0.m_dSingleData ≥ 0 <;>
          simp [h1, h2]

/-- The entry point `ADD_KEY` returns `1`, `0` or `-1` on every input. -/
theorem ADD_KEY_status (w : World) (fadd : Nat → Nat → Nat) (db : LMDBClient)
    (pData : Option DLLCALCINFO) :
    (ADD_KEY w fadd db pData).outcome = .returned 1 ∨
      (ADD_KEY w fadd db pData).outcome = .returned 0 ∨
      (ADD_KEY w fadd db pData).outcome = .returned (-1) := by
  unfold ADD_KEY catch_all
  cases pData with
  | none => simp
  | some d =>
    simp only []
    cases fourParams d with
    | none => simp
    | some ps =>
      obtain ⟨p0, p1, p2, p3⟩ := ps
      simp only [withAccount]
      cases p3.m_pszText with
      | none => simp
      | some acc_str =>
        simp only []
        cases w.getStr (lit "ths_account") acc_str with
        | error e => simp
        | ok o =>
          cases o with
          | none =>
            simp only []
            cases w.GetLogger <;> simp
          | some id =>
            simp only []
            cases openDb w db with
            | error e => simp
            | ok db1 => simp

end YdFunc
